import Mathlib

/-!
# Best-fit memory allocator (`mem.c`)

A shallow embedding of `Mem_Init`, `Mem_Alloc`, `Mem_Free`, `Mem_Dump` and their
helpers.

Memory is a map from byte addresses to 32-bit words.  A `block_header` sits at
address `p` and occupies 8 bytes: the `next` pointer is the word at `p`, the
`size_status` field is the word at `p + 4` (the layout for which
`sizeof(block_header)` is the 8 that `Mem_Alloc` and `Mem_Free` hard-code).
Pointers are integers, `NULL` is 0; `%` is C's truncating remainder
(`Int.tmod`).  An `int` has 32 bits.  The arithmetic on the request `size` of
`Mem_Alloc`, which the caller chooses freely, wraps around as it does in the
compiled program: `++size` takes `INT_MAX` to `INT_MIN`, and `size + 8` and
`freeBlockSize - (size + 8)` are reduced modulo `2^32` into the range of `int`
(`wrapInt`).  The other `int` computations are on stored block sizes and on
the size of the Region; they are written exactly on `Int`, which is their C
value as long as the Region size fits an `int`.  Loops take a fuel argument;
`Outcome.timeout` is returned when the fuel runs out and `Outcome.fault` when
a field is accessed through the null pointer.  A header at an address that is
not a multiple of 4 would overlap two words; the fields of such a header are
kept in cells of their own, so a run is followed only up to the first access
through a misaligned pointer.
-/

namespace MemAlloc

/-- Result of running a C function: it returns, it dereferences `NULL`, or the
    loop budget was exhausted. -/
inductive Outcome (α : Type) where
  | ret (a : α)
  | fault
  | timeout

/-- The null pointer. -/
def NULL : Int := 0

/-- Program state: the global `list_head`, the memory, and the function-static
    `allocated_once` of `Mem_Init`. -/
structure State where
  list_head : Int
  mem : Int → Int
  allocated_once : Int

/-- Writing the word `v` at address `a`. -/
def store (m : Int → Int) (a v : Int) : Int → Int :=
  fun x => if x = a then v else m x

/-- Reading `p->next`. -/
def next (m : Int → Int) (p : Int) : Int := m p

/-- Reading `p->size_status`. -/
def size_status (m : Int → Int) (p : Int) : Int := m (p + 4)

/-- Assignment `p->next = v`. -/
def set_next (m : Int → Int) (p v : Int) : Int → Int := store m p v

/-- Assignment `p->size_status = v`. -/
def set_size_status (m : Int → Int) (p v : Int) : Int → Int := store m (p + 4) v

/-- Function `isFree`: 0 for the null pointer, otherwise whether
    `size_status % 4` is 0. -/
def isFree (m : Int → Int) (curr : Int) : Int :=
  if NULL = curr then 0
  else if 0 = (size_status m curr).tmod 4 then 1 else 0

/-- Function `setFreed`: `curr->size_status--`. -/
def setFreed (m : Int → Int) (curr : Int) : Int → Int :=
  set_size_status m curr (size_status m curr - 1)

/-- Function `setAllocated`: `curr->size_status++`. -/
def setAllocated (m : Int → Int) (curr : Int) : Int → Int :=
  set_size_status m curr (size_status m curr + 1)

/-- Zero-filled fresh mapping of `len` bytes at `base`, as `mmap` on
    `/dev/zero` provides. -/
def mapZero (m : Int → Int) (base len : Int) : Int → Int :=
  fun x => if base ≤ x ∧ x < base + len then 0 else m x

/-- Function `Mem_Init`.  The host is a parameter: `pagesize` is what
    `getpagesize()` returns, `fd` what `open` returns, and `space_ptr` what
    `mmap` returns (`none` for `MAP_FAILED`).  Returns the new state and the
    return code. -/
def Mem_Init (pagesize fd : Int) (space_ptr : Option Int) (s : State)
    (sizeOfRegion : Int) : State × Int :=
  if 0 ≠ s.allocated_once then (s, -1)
  else if sizeOfRegion ≤ 0 then (s, -1)
  else
    let padsize := sizeOfRegion.tmod pagesize
    let padsize := (pagesize - padsize).tmod pagesize
    let alloc_size := sizeOfRegion + padsize
    if -1 = fd then (s, -1)
    else
      match space_ptr with
      | none => ({ s with allocated_once := 0 }, -1)
      | some p =>
        let m := mapZero s.mem p alloc_size
        let m := set_next m p NULL
        let m := set_size_status m p (alloc_size - 8)
        ({ list_head := p, mem := m, allocated_once := 1 }, 0)

/-- The value a 32-bit `int` takes when the exact result of an operation is
    `x`: two's-complement wrap-around into the range from `-2^31` to
    `2^31 - 1`. -/
def wrapInt (x : Int) : Int := (x + 2147483648) % 4294967296 - 2147483648

/-- The rounding loop of `Mem_Alloc`: `while(!(size % 4 == 0)) ++size;`.  The
    increment of `INT_MAX` = 2147483647 gives `INT_MIN` = -2147483648. -/
def roundLoop : Nat → Int → Outcome Int
  | 0, _ => Outcome.timeout
  | fuel + 1, size =>
    if ¬ (size.tmod 4 = 0) then
      roundLoop fuel (if size = 2147483647 then -2147483648 else size + 1)
    else Outcome.ret size

/-- The best-fit search loop of `Mem_Alloc`, carrying `curr`, `freeBlockSize`
    and `bf_block`; returns the final `(freeBlockSize, bf_block)`. -/
def searchLoop (m : Int → Int) (size : Int) : Nat → Int → Int → Int → Outcome (Int × Int)
  | 0, _, _, _ => Outcome.timeout
  | fuel + 1, curr, freeBlockSize, bf_block =>
    if curr ≠ NULL then
      if isFree m curr ≠ 0 then
        let st1 : Int × Int :=
          if 0 = freeBlockSize ∧ size_status m curr ≥ size then
            (size_status m curr + 8, curr)
          else (freeBlockSize, bf_block)
        let st2 : Int × Int :=
          if size_status m curr + 8 < st1.1 ∧ size_status m curr ≥ size then
            (size_status m curr + 8, curr)
          else st1
        searchLoop m size fuel (next m curr) st2.1 st2.2
      else searchLoop m size fuel (next m curr) freeBlockSize bf_block
    else Outcome.ret (freeBlockSize, bf_block)

/-- The part of `Mem_Alloc` after the search: the `NULL` test, the split and
    `setAllocated`.  Returns the new state and the returned pointer.  The two
    `int` operations on `size` wrap around.  A split whose new header would
    sit at address 0 writes through the null pointer. -/
def allocFinish (s : State) (size freeBlockSize bf_block : Int) : Outcome (State × Int) :=
  if NULL = bf_block then Outcome.ret (s, NULL)
  else if wrapInt (freeBlockSize - wrapInt (size + 8)) ≥ 12 then
    let newFreeBlockSize := wrapInt (freeBlockSize - wrapInt (size + 8))
    let newFreeBlock := bf_block + wrapInt (size + 8)
    if newFreeBlock = NULL then Outcome.fault
    else
      let m := set_size_status s.mem newFreeBlock (newFreeBlockSize - 8)
      let m := set_size_status m bf_block size
      let m := set_next m newFreeBlock (next m bf_block)
      let m := set_next m bf_block newFreeBlock
      Outcome.ret ({ s with mem := setAllocated m bf_block }, bf_block + 8)
  else Outcome.ret ({ s with mem := setAllocated s.mem bf_block }, bf_block + 8)

/-- Function `Mem_Alloc`. -/
def Mem_Alloc (fuel : Nat) (s : State) (size : Int) : Outcome (State × Int) :=
  match roundLoop fuel size with
  | Outcome.ret size =>
    match searchLoop s.mem size fuel s.list_head 0 NULL with
    | Outcome.ret (freeBlockSize, bf_block) => allocFinish s size freeBlockSize bf_block
    | Outcome.fault => Outcome.fault
    | Outcome.timeout => Outcome.timeout
  | Outcome.fault => Outcome.fault
  | Outcome.timeout => Outcome.timeout

/-- The predecessor scan of `Mem_Free`:
    `while(curr != currBlock) { prevBlock = curr; curr = curr->next; }`. -/
def prevLoop (m : Int → Int) (currBlock : Int) : Nat → Int → Int → Outcome Int
  | 0, _, _ => Outcome.timeout
  | fuel + 1, curr, prevBlock =>
    if curr ≠ currBlock then
      if curr = NULL then Outcome.fault
      else prevLoop m currBlock fuel (next m curr) curr
    else Outcome.ret prevBlock

/-- The coalescing part of `Mem_Free`, after the predecessor was found. -/
def coalesce (m : Int → Int) (currBlock prevBlock : Int) : Int → Int :=
  let nextBlock := next m currBlock
  let nextBlockFree := isFree m nextBlock
  let prevBlockFree := isFree m prevBlock
  if 1 = prevBlockFree ∧ 1 = nextBlockFree then
    let m := set_next m prevBlock (next m nextBlock)
    let m := set_next m currBlock NULL
    let m := set_next m nextBlock NULL
    set_size_status m prevBlock
      (size_status m prevBlock + size_status m currBlock + size_status m nextBlock + 16)
  else if 1 = prevBlockFree ∧ 0 = nextBlockFree then
    let m := set_next m prevBlock (next m currBlock)
    let m := set_next m currBlock NULL
    set_size_status m prevBlock (size_status m prevBlock + size_status m currBlock + 8)
  else if 0 = prevBlockFree ∧ 1 = nextBlockFree then
    let m := set_next m currBlock (next m nextBlock)
    let m := set_next m nextBlock NULL
    set_size_status m currBlock (size_status m currBlock + size_status m nextBlock + 8)
  else m

/-- Function `Mem_Free`.  Returns the new state and the return code.  For
    `ptr = 8` the header pointer `ptr - 8` is null and reading its
    `size_status` is a null dereference. -/
def Mem_Free (fuel : Nat) (s : State) (ptr : Int) : Outcome (State × Int) :=
  if NULL = ptr then Outcome.ret (s, -1)
  else
    let currBlock := ptr - 8
    if currBlock = NULL then Outcome.fault
    else if (size_status s.mem currBlock).tmod 4 ≠ 1 then Outcome.ret (s, -1)
    else
      let m := setFreed s.mem currBlock
      match prevLoop m currBlock fuel s.list_head NULL with
      | Outcome.ret prevBlock => Outcome.ret ({ s with mem := coalesce m currBlock prevBlock }, 0)
      | Outcome.fault => Outcome.fault
      | Outcome.timeout => Outcome.timeout

/-! ## The block list read off the memory -/

/-- A block of the list: header address, payload size, and the free flag. -/
structure Block where
  addr : Int
  size : Int
  free : Bool
deriving DecidableEq

/-- The stored `size_status` of a block: the payload size when free, one more
    when busy. -/
def Block.enc (b : Block) : Int := if b.free then b.size else b.size + 1

/-- The chain of headers from pointer `p` to pointer `q` carries exactly the
    blocks `bs`: each header is non-null, stores the block's encoding in
    `size_status`, and its `next` leads to the rest. -/
def Linked (m : Int → Int) : Int → List Block → Int → Prop
  | p, [], q => p = q
  | p, b :: bs, q =>
    p = b.addr ∧ p ≠ NULL ∧ size_status m p = b.enc ∧ Linked m (next m p) bs q

/-- The blocks tile the address range from `a` to `e`: each block starts where
    the previous one ends (header of 8 bytes plus payload), with a payload
    size that is non-negative and a multiple of 4. -/
def Tiled : Int → List Block → Int → Prop
  | a, [], e => a = e
  | a, b :: bs, e => b.addr = a ∧ 0 ≤ b.size ∧ b.size % 4 = 0 ∧ Tiled (a + 8 + b.size) bs e

/-- No two list-adjacent blocks are both free. -/
def NoAdjFree (bs : List Block) : Prop :=
  List.Chain' (fun a b => ¬ (a.free = true ∧ b.free = true)) bs

/-- Sum over the list of header size plus payload size. -/
def totalSize (bs : List Block) : Int := (bs.map (fun b => 8 + b.size)).sum

/-- The list invariants: the memory of `s` holds the block list `bs`, which
    tiles the Region `[base, base + len)` in address order, and no two
    neighbours are both free.  The Region starts at a non-null word-aligned
    address and its size `len` is the value of an `int` (`alloc_size` in
    `Mem_Init`). -/
structure Inv (s : State) (base len : Int) (bs : List Block) : Prop where
  base_pos : 0 < base
  base_aligned : base % 4 = 0
  len_int : len ≤ 2147483647
  linked : Linked s.mem s.list_head bs NULL
  tiled : Tiled base bs (base + len)
  noAdjFree : NoAdjFree bs

/-- The request rounded up to a multiple of 4, as the specification words it. -/
def roundUp4 (r : Int) : Int := 4 * ((r + 3) / 4)

/-- A free block whose payload can hold `sz` bytes. -/
def Fits (sz : Int) (b : Block) : Prop := b.free = true ∧ sz ≤ b.size

/-- One iteration of the search loop, on a block of the list instead of a
    header in memory. -/
def pickStep (size : Int) (st : Int × Int) (b : Block) : Int × Int :=
  if b.free then
    let st1 : Int × Int := if 0 = st.1 ∧ b.size ≥ size then (b.size + 8, b.addr) else st
    if b.size + 8 < st1.1 ∧ b.size ≥ size then (b.size + 8, b.addr) else st1
  else st

/-- The blocks that replace the candidate `c` when `sz` bytes are awarded from
    it: the busy block and, when the remainder is at least 12, the new free
    block behind it. -/
def awarded (sz : Int) (c : Block) : List Block :=
  if c.size + 8 - (sz + 8) ≥ 12 then
    [{ addr := c.addr, size := sz, free := false },
     { addr := c.addr + (sz + 8), size := c.size + 8 - (sz + 8) - 8, free := true }]
  else [{ addr := c.addr, size := c.size, free := false }]

/-- The initial state of the program: `list_head` is `NULL`, `allocated_once`
    is 0, the memory is arbitrary. -/
def initialState (m : Int → Int) : State :=
  { list_head := NULL, mem := m, allocated_once := 0 }

/-- What the search has settled on after the blocks `seen`: nothing when none
    fits, otherwise a fitting block of least size, the first of that size. -/
def Best (sz : Int) (seen : List Block) (st : Int × Int) : Prop :=
  (st = (0, NULL) ∧ ∀ b ∈ seen, ¬ Fits sz b) ∨
  (∃ c ∈ seen, Fits sz c ∧ 0 ≤ c.size ∧ st = (c.size + 8, c.addr) ∧
    ∀ b ∈ seen, Fits sz b → c.size < b.size ∨ (c.size = b.size ∧ c.addr ≤ b.addr))

/-- The header address of the last block of `pre`, or `NULL` when there is
    none: the list predecessor of whatever follows `pre`. -/
def prevAddr (pre : List Block) : Int := (pre.getLast?.map Block.addr).getD NULL

/-- Whether a chain holds can be computed. -/
instance decLinked (m : Int → Int) :
    (p : Int) → (bs : List Block) → (q : Int) → Decidable (Linked m p bs q)
  | p, [], q => inferInstanceAs (Decidable (p = q))
  | p, b :: bs, q =>
    have := decLinked m (next m p) bs q
    inferInstanceAs (Decidable
      (p = b.addr ∧ p ≠ NULL ∧ size_status m p = b.enc ∧ Linked m (next m p) bs q))

/-- Whether a tiling holds can be computed. -/
instance decTiled : (a : Int) → (bs : List Block) → (e : Int) → Decidable (Tiled a bs e)
  | a, [], e => inferInstanceAs (Decidable (a = e))
  | a, b :: bs, e =>
    have := decTiled (a + 8 + b.size) bs e
    inferInstanceAs (Decidable
      (b.addr = a ∧ 0 ≤ b.size ∧ b.size % 4 = 0 ∧ Tiled (a + 8 + b.size) bs e))

/-- The state a call leaves behind; `d` when the call does not return. -/
def stateAfter (d : State) : Outcome (State × Int) → State
  | Outcome.ret (s, _) => s
  | _ => d

/-- The value a call returns, if it returns. -/
def valueOf : Outcome (State × Int) → Option Int
  | Outcome.ret (_, v) => some v
  | _ => none

/-- A host with 4096-byte pages on which `open` returned descriptor 3 and
    `mmap` returned address 65536: the state after `Mem_Init(4096)`. -/
def demoInit : State :=
  (Mem_Init 4096 3 (some 65536) (initialState (fun _ => 0)) 4096).1

/-- The state after `Mem_Init(4096); Mem_Alloc(100)`. -/
def demoAlloc : State := stateAfter demoInit (Mem_Alloc 5 demoInit 100)

/-- The state after `Mem_Init(4096)`, three allocations of 100, 200 and 300
    bytes, and the release of the first and the third: a busy block between
    two free blocks. -/
def demoBoth : State :=
  let s1 := stateAfter demoInit (Mem_Alloc 5 demoInit 100)
  let s2 := stateAfter s1 (Mem_Alloc 6 s1 200)
  let s3 := stateAfter s2 (Mem_Alloc 7 s2 300)
  let s4 := stateAfter s3 (Mem_Free 7 s3 65544)
  stateAfter s4 (Mem_Free 7 s4 65860)

/-- The state after `Mem_Init(4096); Mem_Alloc(-8)`. -/
def demoNeg8 : State := stateAfter demoInit (Mem_Alloc 5 demoInit (-8))

/-- The state after `Mem_Init(4096); Mem_Alloc(-4)`. -/
def demoNeg4Alloc : State := stateAfter demoInit (Mem_Alloc 5 demoInit (-4))

/-- The state after `Mem_Init(4096); p = Mem_Alloc(-4); Mem_Free(p)`. -/
def demoNeg4 : State := stateAfter demoNeg4Alloc (Mem_Free 5 demoNeg4Alloc 65544)

/-- The state after `Mem_Init(4096); Mem_Alloc(3000)`. -/
def demoA : State := stateAfter demoInit (Mem_Alloc 5 demoInit 3000)

/-- The state after `Mem_Init(4096); Mem_Alloc(3000); Mem_Alloc(8)`. -/
def demoAB : State := stateAfter demoA (Mem_Alloc 6 demoA 8)

/-- The state after `Mem_Init(4096); a = Mem_Alloc(3000); Mem_Alloc(8);
    Mem_Free(a)`: a free block of 3000, a busy block of 8, a free block of
    1064. -/
def demoTwoFree : State := stateAfter demoAB (Mem_Free 7 demoAB 65544)

/-- The state after a further `Mem_Alloc(-24)` on `demoTwoFree`. -/
def demoAdj : State := stateAfter demoTwoFree (Mem_Alloc 7 demoTwoFree (-24))

/-- The state after `Mem_Init(4096); Mem_Alloc(100); Mem_Alloc(-16)`. -/
def demoNeg16 : State := stateAfter demoAlloc (Mem_Alloc 6 demoAlloc (-16))

/-- The size `Mem_Init` asks `mmap` for: `sizeOfRegion + padsize`. -/
def allocSize (pagesize sizeOfRegion : Int) : Int :=
  sizeOfRegion + (pagesize - sizeOfRegion.tmod pagesize).tmod pagesize

/-- The states reached from a successful `Mem_Init` (page size `pagesize`,
    Region mapped at `base`, Region size within the range of `int`) by
    returning calls of `Mem_Alloc` with requests `≥ 0` and returning calls of
    `Mem_Free` with any pointer. -/
inductive Reachable (pagesize base : Int) : State → Prop
  | init (m0 : Int → Int) (fd n : Int) (s : State) :
      Mem_Init pagesize fd (some base) (initialState m0) n = (s, 0) →
      allocSize pagesize n ≤ 2147483647 →
      Reachable pagesize base s
  | alloc (s s' : State) (fuel : Nat) (size p : Int) :
      Reachable pagesize base s → 0 ≤ size →
      Mem_Alloc fuel s size = Outcome.ret (s', p) → Reachable pagesize base s'
  | free (s s' : State) (fuel : Nat) (ptr rc : Int) :
      Reachable pagesize base s →
      Mem_Free fuel s ptr = Outcome.ret (s', rc) → Reachable pagesize base s'

/-! ## `Mem_Dump`, and what the later claims speak about -/

/-- One line of the report of `Mem_Dump`: the serial number, the status
    (`busy` for "Busy", otherwise "Free") and the five printed numbers. -/
structure DumpRow where
  counter : Int
  busy : Bool
  Begin : Int
  End : Int
  Size : Int
  t_Size : Int
  t_Begin : Int
deriving DecidableEq

/-- The report of `Mem_Dump`: the lines and the three totals printed last. -/
structure DumpReport where
  rows : List DumpRow
  busy_size : Int
  free_size : Int
  total : Int
deriving DecidableEq

/-- The loop of `Mem_Dump`.  The test `Size & 1` of the least significant bit
    is `Size % 2 ≠ 0`. -/
def dumpLoop (m : Int → Int) :
    Nat → Int → Int → Int → Int → Int → List DumpRow → Outcome DumpReport
  | 0, _, _, _, _, _, _ => Outcome.timeout
  | fuel + 1, current, counter, free_size, busy_size, total_size, rows =>
    if NULL ≠ current then
      let t_Begin := current
      let Begin := t_Begin + 8
      let Size := size_status m current
      if Size % 2 ≠ 0 then
        let Size := Size - 1
        let t_Size := Size + 8
        let busy_size := busy_size + t_Size
        let End := Begin + Size - 1
        dumpLoop m fuel (next m current) (counter + 1) free_size busy_size (total_size + t_Size)
          (rows ++ [{ counter := counter, busy := true, Begin := Begin, End := End,
                      Size := Size, t_Size := t_Size, t_Begin := t_Begin }])
      else
        let t_Size := Size + 8
        let free_size := free_size + t_Size
        let End := Begin + Size - 1
        dumpLoop m fuel (next m current) (counter + 1) free_size busy_size (total_size + t_Size)
          (rows ++ [{ counter := counter, busy := false, Begin := Begin, End := End,
                      Size := Size, t_Size := t_Size, t_Begin := t_Begin }])
    else
      Outcome.ret { rows := rows, busy_size := busy_size, free_size := free_size,
                    total := busy_size + free_size }

/-- Function `Mem_Dump`: it assigns neither to `list_head` nor to the memory,
    so the state is handed back as it came. -/
def Mem_Dump (fuel : Nat) (s : State) : Outcome (State × DumpReport) :=
  match dumpLoop s.mem fuel s.list_head 1 0 0 0 [] with
  | Outcome.ret r => Outcome.ret (s, r)
  | Outcome.fault => Outcome.fault
  | Outcome.timeout => Outcome.timeout

/-- The lines `Mem_Dump` is to print for the blocks `bs`, numbered from
    `counter`. -/
def rowsOf : Int → List Block → List DumpRow
  | _, [] => []
  | counter, b :: bs =>
    { counter := counter, busy := !b.free, Begin := b.addr + 8, End := b.addr + 8 + b.size - 1,
      Size := b.size, t_Size := b.size + 8, t_Begin := b.addr } :: rowsOf (counter + 1) bs

/-- Sum of header size plus payload size over the busy blocks. -/
def busyTotal (bs : List Block) : Int :=
  ((bs.filter (fun b => !b.free)).map (fun b => 8 + b.size)).sum

/-- Sum of header size plus payload size over the free blocks. -/
def freeTotal (bs : List Block) : Int :=
  ((bs.filter (fun b => b.free)).map (fun b => 8 + b.size)).sum

/-- The states reached from `s0` by returning calls of `Mem_Alloc` with
    requests `≥ 0` and returning calls of `Mem_Free` with any pointer. -/
inductive Steps (s0 : State) : State → Prop
  | refl : Steps s0 s0
  | alloc (s s' : State) (fuel : Nat) (size p : Int) :
      Steps s0 s → 0 ≤ size → Mem_Alloc fuel s size = Outcome.ret (s', p) → Steps s0 s'
  | free (s s' : State) (fuel : Nat) (ptr rc : Int) :
      Steps s0 s → Mem_Free fuel s ptr = Outcome.ret (s', rc) → Steps s0 s'

/-- A memory that is zero except for the word 5 at address 200004, outside
    the Region: an `int` of the caller. -/
def strayMem : Int → Int := fun a => if a = 200004 then 5 else 0

/-- The state after `Mem_Init(4096)` when the caller's memory is `strayMem`. -/
def demoStray : State :=
  (Mem_Init 4096 3 (some 65536) (initialState strayMem) 4096).1

/-- The state after `Mem_Init(4096); Mem_Alloc(100)` when the caller's memory
    is `strayMem`. -/
def demoStrayAlloc : State := stateAfter demoStray (Mem_Alloc 5 demoStray 100)

/-- The state after `Mem_Init(9)` on a host whose page size is 9 and whose
    `mmap` returned address 65556. -/
def demoOdd : State :=
  (Mem_Init 9 3 (some 65556) (initialState (fun _ => 0)) 9).1

/-- The state after `Mem_Init(4096); p = Mem_Alloc(100); Mem_Free(p)`. -/
def demoFreed : State := stateAfter demoAlloc (Mem_Free 5 demoAlloc 65544)

/-- The state after `Mem_Init(4096); Mem_Alloc(2147483647)`. -/
def demoBig : State := stateAfter demoInit (Mem_Alloc 5 demoInit 2147483647)

/-- The state after `Mem_Init(4096); Mem_Alloc(100); Mem_Alloc(2147483646)`. -/
def demoBigAfterAlloc : State := stateAfter demoAlloc (Mem_Alloc 6 demoAlloc 2147483646)

/-- The state after a further `Mem_Alloc(2147483645)` on `demoTwoFree`. -/
def demoBigTwoFree : State := stateAfter demoTwoFree (Mem_Alloc 7 demoTwoFree 2147483645)

/-- The state after `Mem_Init(4096); Mem_Alloc(8)`. -/
def demoM1 : State := stateAfter demoInit (Mem_Alloc 5 demoInit 8)

/-- The state after `Mem_Init(4096); Mem_Alloc(8); Mem_Alloc(768)`. -/
def demoM2 : State := stateAfter demoM1 (Mem_Alloc 6 demoM1 768)

/-- The state after `Mem_Init(4096); a = Mem_Alloc(8); Mem_Alloc(768);
    Mem_Free(a)`: a free block of 8, a busy block of 768, a free block of
    3296. -/
def demoM3 : State := stateAfter demoM2 (Mem_Free 7 demoM2 65544)

/-- The state after a further `Mem_Alloc(-4)` on `demoM3`. -/
def demoMis : State := stateAfter demoM3 (Mem_Alloc 7 demoM3 (-4))

/-- The byte at address `a` of a memory whose words are stored little-endian
    (as on the x86 hosts of the program) at the multiples of 4. -/
def byteAt (m : Int → Int) (a : Int) : Int :=
  let w := m (a - a % 4) % 4294967296
  if a % 4 = 0 then w % 256
  else if a % 4 = 1 then w / 256 % 256
  else if a % 4 = 2 then w / 65536 % 256
  else w / 16777216

/-- The `int` made of the four bytes from address `a` on, whatever the
    alignment of `a`: what the read of an `int` field through a pointer that
    is not word-aligned finds in the words of the memory. -/
def intAt (m : Int → Int) (a : Int) : Int :=
  wrapInt (byteAt m a + 256 * byteAt m (a + 1) + 65536 * byteAt m (a + 2)
    + 16777216 * byteAt m (a + 3))

/-! ## Arithmetic of the encoding -/

theorem tmod4_zero_iff (x : Int) : x.tmod 4 = 0 ↔ x % 4 = 0 := by
  rw [← Int.dvd_iff_tmod_eq_zero, Int.dvd_iff_emod_eq_zero]

/-- A value in the range of `int` is not changed by the wrap-around. -/
theorem wrapInt_id (x : Int) (h1 : -2147483648 ≤ x) (h2 : x ≤ 2147483647) : wrapInt x = x := by
  unfold wrapInt; omega

/-- The rounding loop on a request whose rounding does not pass `INT_MAX`:
    four tests suffice and the result is the request rounded up to a multiple
    of 4. -/
theorem roundLoop_eq (fuel : Nat) (r : Int) (h : 4 ≤ fuel)
    (hr : r ≤ 2147483644 ∨ 2147483647 < r) :
    roundLoop fuel r = Outcome.ret (roundUp4 r) := by
  obtain ⟨k, rfl⟩ : ∃ k, fuel = k + 4 := ⟨fuel - 4, by omega⟩
  unfold roundUp4
  simp only [roundLoop, tmod4_zero_iff]
  split_ifs <;> (congr 1; omega)

/-- The rounding loop on the requests 2147483645, 2147483646 and 2147483647:
    the increment passes `INT_MAX` and the loop stops at `INT_MIN`. -/
theorem roundLoop_overflow (fuel : Nat) (r : Int) (h : 4 ≤ fuel)
    (h1 : 2147483644 < r) (h2 : r ≤ 2147483647) :
    roundLoop fuel r = Outcome.ret (-2147483648) := by
  obtain ⟨k, rfl⟩ : ∃ k, fuel = k + 4 := ⟨fuel - 4, by omega⟩
  simp only [roundLoop, tmod4_zero_iff]
  split_ifs <;> first | rfl | (exfalso; omega)

theorem enc_tmod_free (b : Block) (h0 : 0 ≤ b.size) (h4 : b.size % 4 = 0) :
    b.enc.tmod 4 = 0 ↔ b.free = true := by
  unfold Block.enc
  cases hb : b.free
  · simp
    rw [Int.tmod_eq_emod (by omega) (by omega)]; omega
  · simp [tmod4_zero_iff, h4]

theorem enc_tmod_busy (b : Block) (h0 : 0 ≤ b.size) (h4 : b.size % 4 = 0) :
    b.enc.tmod 4 = 1 ↔ b.free = false := by
  unfold Block.enc
  cases hb : b.free
  · simp
    rw [Int.tmod_eq_emod (by omega) (by omega)]; omega
  · simp [tmod4_zero_iff, h4]
    rw [(tmod4_zero_iff _).2 h4]; decide

/-! ## Chains of headers and tilings -/

theorem linked_append (m : Int → Int) (xs ys : List Block) (p q : Int) :
    Linked m p (xs ++ ys) q ↔ ∃ r, Linked m p xs r ∧ Linked m r ys q := by
  induction xs generalizing p with
  | nil => simp [Linked]
  | cons x xs ih =>
    show Linked m p (x :: (xs ++ ys)) q ↔ _
    simp only [Linked, ih]
    constructor
    · rintro ⟨h1, h2, h3, r, h4, h5⟩
      exact ⟨r, ⟨h1, h2, h3, h4⟩, h5⟩
    · rintro ⟨r, ⟨h1, h2, h3, h4⟩, h5⟩
      exact ⟨h1, h2, h3, r, h4, h5⟩

/-- A chain only depends on the header words of its blocks. -/
theorem linked_congr (m m' : Int → Int) (bs : List Block) (p q : Int)
    (h : Linked m p bs q)
    (hm : ∀ b ∈ bs, m' b.addr = m b.addr ∧ m' (b.addr + 4) = m (b.addr + 4)) :
    Linked m' p bs q := by
  induction bs generalizing p with
  | nil => exact h
  | cons b bs ih =>
    obtain ⟨h1, h2, h3, h4⟩ := h
    have hb := hm b (List.mem_cons_self _ _)
    subst h1
    refine ⟨rfl, h2, ?_, ?_⟩
    · simp only [size_status] at h3 ⊢
      rw [hb.2]; exact h3
    · simp only [next] at h4 ⊢
      rw [hb.1]
      exact ih _ h4 (fun x hx => hm x (List.mem_cons_of_mem _ hx))

theorem tiled_append (xs ys : List Block) (a e : Int) :
    Tiled a (xs ++ ys) e ↔ ∃ mid, Tiled a xs mid ∧ Tiled mid ys e := by
  induction xs generalizing a with
  | nil => simp [Tiled]
  | cons x xs ih =>
    show Tiled a (x :: (xs ++ ys)) e ↔ _
    simp only [Tiled, ih]
    constructor
    · rintro ⟨h1, h2, h3, r, h4, h5⟩
      exact ⟨r, ⟨h1, h2, h3, h4⟩, h5⟩
    · rintro ⟨r, ⟨h1, h2, h3, h4⟩, h5⟩
      exact ⟨h1, h2, h3, r, h4, h5⟩

theorem tiled_le (bs : List Block) (a e : Int) (h : Tiled a bs e) : a ≤ e := by
  induction bs generalizing a with
  | nil => exact le_of_eq h
  | cons b bs ih =>
    obtain ⟨_, h2, _, h4⟩ := h
    have := ih _ h4
    omega

/-- Every block of a tiling lies inside the tiled range, at an address that is
    congruent to the start modulo 4. -/
theorem tiled_mem (bs : List Block) (a e : Int) (h : Tiled a bs e) :
    ∀ b ∈ bs, a ≤ b.addr ∧ b.addr + 8 + b.size ≤ e ∧ 0 ≤ b.size ∧ b.size % 4 = 0
      ∧ b.addr % 4 = a % 4 := by
  induction bs generalizing a with
  | nil => simp
  | cons x xs ih =>
    obtain ⟨h1, h2, h3, h4⟩ := h
    intro b hb
    rcases List.mem_cons.1 hb with rfl | hb
    · have := tiled_le _ _ _ h4
      refine ⟨by omega, by omega, h2, h3, by omega⟩
    · have := ih _ h4 b hb
      refine ⟨by omega, this.2.1, this.2.2.1, this.2.2.2.1, by omega⟩

theorem tiled_total (bs : List Block) (a e : Int) (h : Tiled a bs e) :
    totalSize bs = e - a := by
  induction bs generalizing a with
  | nil => simp [totalSize]; simp [Tiled] at h; omega
  | cons b bs ih =>
    obtain ⟨_, _, _, h4⟩ := h
    have := ih _ h4
    simp only [totalSize, List.map_cons, List.sum_cons] at this ⊢
    omega

/-- The end pointer of a chain is determined by the memory and the blocks. -/
theorem linked_end_unique (m : Int → Int) (bs : List Block) (p q q' : Int)
    (h : Linked m p bs q) (h' : Linked m p bs q') : q = q' := by
  induction bs generalizing p with
  | nil => simp [Linked] at h h'; omega
  | cons b bs ih => exact ih _ h.2.2.2 h'.2.2.2

theorem store_eq (m : Int → Int) (a v : Int) : store m a v a = v := by
  simp [store]

theorem store_ne (m : Int → Int) (a v x : Int) (h : x ≠ a) : store m a v x = m x := by
  simp [store, h]

/-! ## The best-fit search -/

/-- On a well-formed chain the search loop terminates and computes the fold of
    `pickStep` over the blocks. -/
theorem searchLoop_eq (m : Int → Int) (size : Int) (bs : List Block) (fuel : Nat)
    (p fbs bf : Int) (hl : Linked m p bs NULL)
    (hs : ∀ b ∈ bs, 0 ≤ b.size ∧ b.size % 4 = 0) (hf : bs.length < fuel) :
    searchLoop m size fuel p fbs bf = Outcome.ret (bs.foldl (pickStep size) (fbs, bf)) := by
  induction bs generalizing p fuel fbs bf with
  | nil =>
    obtain ⟨k, rfl⟩ : ∃ k, fuel = k + 1 := ⟨fuel - 1, by simp at hf; omega⟩
    simp only [Linked] at hl
    simp [searchLoop, hl]
  | cons b bs ih =>
    obtain ⟨k, rfl⟩ : ∃ k, fuel = k + 1 := ⟨fuel - 1, by simp at hf; omega⟩
    obtain ⟨h1, h2, h3, h4⟩ := hl
    have hb := hs b (List.mem_cons_self _ _)
    have hrest := fun x hx => hs x (List.mem_cons_of_mem _ hx)
    have hk : bs.length < k := by simp at hf; omega
    have hfree : isFree m p ≠ 0 ↔ b.free = true := by
      have := enc_tmod_free b hb.1 hb.2
      simp only [isFree, h3]
      rw [if_neg (fun h => h2 h.symm)]
      constructor
      · intro h
        by_contra hc
        rw [if_neg (fun h' => hc (this.1 h'.symm))] at h
        exact h rfl
      · intro h
        rw [if_pos (this.2 h).symm]
        decide
    simp only [searchLoop, List.foldl_cons]
    rw [if_pos h2]
    by_cases hbf : b.free = true
    · rw [if_pos (hfree.2 hbf)]
      have he : size_status m p = b.size := by rw [h3]; simp [Block.enc, hbf]
      rw [ih k (next m p) _ _ h4 hrest hk]
      simp only [pickStep, hbf, he, if_true, ← h1]
    · rw [if_neg (fun h => hbf (hfree.1 h))]
      rw [ih k (next m p) _ _ h4 hrest hk]
      simp only [pickStep, hbf]
      rfl

theorem pickStep_best (sz : Int) (seen : List Block) (st : Int × Int) (b : Block)
    (h : Best sz seen st) (hb : 0 ≤ b.size) (ha : ∀ x ∈ seen, x.addr ≤ b.addr) :
    Best sz (seen ++ [b]) (pickStep sz st b) := by
  unfold pickStep
  by_cases hf : b.free = true
  · simp only [hf, if_true]
    rcases h with ⟨hst, hno⟩ | ⟨c, hc, hfit, hc0, hst, hmin⟩
    · subst hst
      by_cases hs : b.size ≥ sz
      · right
        refine ⟨b, by simp, ⟨hf, hs⟩, hb, ?_, ?_⟩
        · simp [hs]
        · intro x hx hxf
          rcases List.mem_append.1 hx with hx | hx
          · exact absurd hxf (hno x hx)
          · simp at hx; subst hx; right; exact ⟨rfl, le_refl _⟩
      · left
        refine ⟨by simp [hs], ?_⟩
        intro x hx hxf
        rcases List.mem_append.1 hx with hx | hx
        · exact hno x hx hxf
        · simp at hx; subst hx; exact hs hxf.2
    · subst hst
      have h0 : ¬ ((0 : Int) = c.size + 8 ∧ b.size ≥ sz) := fun h => by omega
      simp only [if_neg h0]
      by_cases hs : b.size + 8 < c.size + 8 ∧ b.size ≥ sz
      · right
        rw [if_pos hs]
        refine ⟨b, by simp, ⟨hf, hs.2⟩, hb, rfl, ?_⟩
        intro x hx hxf
        rcases List.mem_append.1 hx with hx | hx
        · rcases hmin x hx hxf with h | h <;> left <;> omega
        · simp at hx; subst hx; right; exact ⟨rfl, le_refl _⟩
      · right
        rw [if_neg hs]
        refine ⟨c, by simp [hc], hfit, hc0, rfl, ?_⟩
        intro x hx hxf
        rcases List.mem_append.1 hx with hx | hx
        · exact hmin x hx hxf
        · simp at hx; subst hx
          have := ha c hc
          have := hxf.2
          by_cases he : c.size = x.size
          · right; exact ⟨he, by assumption⟩
          · left; omega
  · simp only [hf]
    rcases h with ⟨hst, hno⟩ | ⟨c, hc, hfit, hc0, hst, hmin⟩
    · left
      refine ⟨hst, ?_⟩
      intro x hx hxf
      rcases List.mem_append.1 hx with hx | hx
      · exact hno x hx hxf
      · simp at hx; subst hx; exact hf hxf.1
    · right
      refine ⟨c, by simp [hc], hfit, hc0, hst, ?_⟩
      intro x hx hxf
      rcases List.mem_append.1 hx with hx | hx
      · exact hmin x hx hxf
      · simp at hx; subst hx; exact absurd hxf.1 hf

theorem foldl_pickStep_best (sz : Int) (rest seen : List Block) (st : Int × Int)
    (h : Best sz seen st) (hb : ∀ b ∈ rest, 0 ≤ b.size)
    (ha : List.Pairwise (fun x y => x.addr ≤ y.addr) (seen ++ rest)) :
    Best sz (seen ++ rest) (rest.foldl (pickStep sz) st) := by
  induction rest generalizing seen st with
  | nil => simpa using h
  | cons b rest ih =>
    have hstep := pickStep_best sz seen st b h (hb b (List.mem_cons_self _ _))
      (fun x hx => (List.pairwise_append.1 ha).2.2 x hx b (List.mem_cons_self _ _))
    have := ih (seen ++ [b]) _ hstep (fun x hx => hb x (List.mem_cons_of_mem _ hx))
      (by simpa using ha)
    simpa using this

/-- Addresses increase along a tiling. -/
theorem tiled_pairwise (bs : List Block) (a e : Int) (h : Tiled a bs e) :
    List.Pairwise (fun x y => x.addr ≤ y.addr) bs := by
  induction bs generalizing a with
  | nil => exact List.Pairwise.nil
  | cons b bs ih =>
    obtain ⟨h1, h2, _, h4⟩ := h
    refine List.Pairwise.cons ?_ (ih _ h4)
    intro y hy
    have := (tiled_mem _ _ _ h4 y hy).1
    omega

/-- The result of the search on a well-formed list. -/
theorem search_best (m : Int → Int) (sz : Int) (bs : List Block) (fuel : Nat)
    (p a e : Int) (hl : Linked m p bs NULL) (ht : Tiled a bs e) (hf : bs.length < fuel) :
    ∃ st, searchLoop m sz fuel p 0 NULL = Outcome.ret st ∧ Best sz bs st := by
  have hs : ∀ b ∈ bs, 0 ≤ b.size ∧ b.size % 4 = 0 := fun b hb =>
    ⟨(tiled_mem _ _ _ ht b hb).2.2.1, (tiled_mem _ _ _ ht b hb).2.2.2.1⟩
  refine ⟨_, searchLoop_eq m sz bs fuel p 0 NULL hl hs hf, ?_⟩
  have := foldl_pickStep_best sz bs [] (0, NULL) (Or.inl ⟨rfl, by simp⟩)
    (fun b hb => (hs b hb).1) (by simpa using tiled_pairwise _ _ _ ht)
  simpa using this

/-! ## No two neighbours free -/

theorem noadj_snoc_mono (pre : List Block) (a a' : Block)
    (h : NoAdjFree (pre ++ [a])) (hm : a'.free = true → a.free = true) :
    NoAdjFree (pre ++ [a']) := by
  unfold NoAdjFree at h ⊢
  rw [List.chain'_append] at h ⊢
  refine ⟨h.1, List.chain'_singleton _, ?_⟩
  intro x hx y hy
  simp at hy; subst hy
  have := h.2.2 x hx a (by simp)
  exact fun hc => this ⟨hc.1, hm hc.2⟩

theorem noadj_cons_mono (post : List Block) (a a' : Block)
    (h : NoAdjFree (a :: post)) (hm : a'.free = true → a.free = true) :
    NoAdjFree (a' :: post) := by
  unfold NoAdjFree at h ⊢
  rw [List.chain'_cons'] at h ⊢
  exact ⟨fun y hy hc => h.1 y hy ⟨hm hc.1, hc.2⟩, h.2⟩

theorem noadj_cons_busy (post : List Block) (a : Block)
    (h : NoAdjFree post) (hn : ∀ n ∈ post.head?, n.free = false) :
    NoAdjFree (a :: post) := by
  unfold NoAdjFree at h ⊢
  rw [List.chain'_cons']
  exact ⟨fun y hy hc => by simp [hn y hy] at hc, h⟩

theorem noadj_snoc_busy (pre : List Block) (a : Block)
    (h : NoAdjFree pre) (hp : ∀ x ∈ pre.getLast?, x.free = false) :
    NoAdjFree (pre ++ [a]) := by
  unfold NoAdjFree at h ⊢
  rw [List.chain'_append]
  refine ⟨h, List.chain'_singleton _, ?_⟩
  intro x hx y _ hc
  simp [hp x hx] at hc

theorem noadj_split (pre post : List Block) (a : Block) :
    NoAdjFree (pre ++ a :: post) ↔ NoAdjFree (pre ++ [a]) ∧ NoAdjFree (a :: post) :=
  List.chain'_split

theorem noadj_left (pre post : List Block) (h : NoAdjFree (pre ++ post)) : NoAdjFree pre :=
  List.Chain'.left_of_append h

theorem noadj_right (pre post : List Block) (h : NoAdjFree (pre ++ post)) : NoAdjFree post :=
  List.Chain'.right_of_append h

/-- Behind a free block the next block is busy. -/
theorem noadj_head_busy (post : List Block) (a : Block)
    (h : NoAdjFree (a :: post)) (ha : a.free = true) : ∀ n ∈ post.head?, n.free = false := by
  unfold NoAdjFree at h
  rw [List.chain'_cons'] at h
  intro n hn
  have := h.1 n hn
  cases hf : n.free
  · rfl
  · exact absurd ⟨ha, hf⟩ this

/-- Before a free block the previous block is busy. -/
theorem noadj_last_busy (pre : List Block) (a : Block)
    (h : NoAdjFree (pre ++ [a])) (ha : a.free = true) :
    ∀ x ∈ pre.getLast?, x.free = false := by
  unfold NoAdjFree at h
  rw [List.chain'_append] at h
  intro x hx
  have := h.2.2 x hx a (by simp)
  cases hf : x.free
  · rfl
  · exact absurd ⟨hf, ha⟩ this

/-! ## Awarding a block -/

theorem linked_cons (m : Int → Int) (p q : Int) (b : Block) (bs : List Block) :
    Linked m p (b :: bs) q ↔
      p = b.addr ∧ p ≠ 0 ∧ m (p + 4) = b.enc ∧ Linked m (m p) bs q := Iff.rfl

/-- Facts about a block in the middle of a well-formed list. -/
theorem inv_middle (s : State) (base len : Int) (pre post : List Block) (c : Block)
    (h : Inv s base len (pre ++ c :: post)) :
    Linked s.mem s.list_head pre c.addr ∧ s.mem (c.addr + 4) = c.enc ∧
    Linked s.mem (s.mem c.addr) post NULL ∧
    Tiled base pre c.addr ∧ 0 ≤ c.size ∧ c.size % 4 = 0 ∧
    Tiled (c.addr + 8 + c.size) post (base + len) ∧ 0 < c.addr := by
  obtain ⟨r, hl1, hl2⟩ := (linked_append _ _ _ _ _).1 h.linked
  obtain ⟨mid, ht1, ht2⟩ := (tiled_append _ _ _ _).1 h.tiled
  obtain ⟨e1, _, e3, e4⟩ := hl2
  obtain ⟨t1, t2, t3, t4⟩ := ht2
  subst e1
  have := tiled_le _ _ _ ht1
  have hb := h.base_pos
  subst t1
  exact ⟨hl1, e3, e4, ht1, t2, t3, t4, by omega⟩

/-- The memory after the split and `setAllocated`, word by word. -/
theorem split_mem (m : Int → Int) (bf sz rest : Int) (h : 0 ≤ sz) :
    ∀ m', m' = setAllocated (set_next (set_next (set_size_status
        (set_size_status m (bf + (sz + 8)) rest) bf sz) (bf + (sz + 8))
        (next (set_size_status (set_size_status m (bf + (sz + 8)) rest) bf sz) bf))
        bf (bf + (sz + 8))) bf →
    m' bf = bf + (sz + 8) ∧ m' (bf + 4) = sz + 1 ∧ m' (bf + (sz + 8)) = m bf ∧
    m' (bf + (sz + 8) + 4) = rest ∧
    ∀ x, x ≠ bf → x ≠ bf + 4 → x ≠ bf + (sz + 8) → x ≠ bf + (sz + 8) + 4 → m' x = m x := by
  intro m' hm'
  subst hm'
  simp only [setAllocated, set_next, set_size_status, size_status, next, store]
  refine ⟨?_, ?_, ?_, ?_, ?_⟩
  · split_ifs <;> omega
  · split_ifs <;> omega
  · split_ifs <;> omega
  · split_ifs <;> omega
  · intro x h1 h2 h3 h4
    split_ifs <;> omega

/-- The memory after `setAllocated` alone. -/
theorem award_mem (m : Int → Int) (bf : Int) :
    setAllocated m bf (bf + 4) = m (bf + 4) + 1 ∧
    ∀ x, x ≠ bf + 4 → setAllocated m bf x = m x := by
  simp only [setAllocated, set_next, set_size_status, size_status, next, store]
  refine ⟨by simp, ?_⟩
  intro x h1
  rw [if_neg h1]

/-- Awarding a free block whole keeps the list invariants: only its flag
    changes. -/
theorem award_whole_inv (s : State) (base len : Int) (pre post : List Block) (c : Block)
    (hinv : Inv s base len (pre ++ c :: post)) (hc : c.free = true) :
    Inv { s with mem := setAllocated s.mem c.addr } base len
      (pre ++ { addr := c.addr, size := c.size, free := false } :: post) := by
  obtain ⟨hl1, hcs, hl2, ht1, hc0, hc4, ht2, hcp⟩ := inv_middle _ _ _ _ _ _ hinv
  have hpre := tiled_mem _ _ _ ht1
  have hpost := tiled_mem _ _ _ ht2
  have hna := (noadj_split _ _ _).1 hinv.noAdjFree
  have henc : c.enc = c.size := by simp [Block.enc, hc]
  rw [henc] at hcs
  obtain ⟨e2, e5⟩ := award_mem s.mem c.addr
  refine ⟨hinv.base_pos, hinv.base_aligned, hinv.len_int, ?_, ?_, ?_⟩
  · dsimp only
    rw [linked_append]
    refine ⟨c.addr, ?_, ?_⟩
    · refine linked_congr _ _ _ _ _ hl1 ?_
      intro b hb
      have := hpre b hb
      exact ⟨e5 _ (by omega), e5 _ (by omega)⟩
    · rw [linked_cons]
      dsimp only [Block.enc]
      rw [e2, e5 c.addr (by omega), hcs]
      refine ⟨rfl, by omega, by simp, ?_⟩
      refine linked_congr _ _ _ _ _ hl2 ?_
      intro b hb
      have := hpost b hb
      exact ⟨e5 _ (by omega), e5 _ (by omega)⟩
  · rw [tiled_append]
    exact ⟨c.addr, ht1, rfl, hc0, hc4, ht2⟩
  · rw [noadj_split]
    exact ⟨noadj_snoc_mono _ _ _ hna.1 (by simp), noadj_cons_mono _ _ _ hna.2 (by simp)⟩

/-- The payload of a block of the list is smaller than the Region, hence far
    inside the range of `int`. -/
theorem inv_size_le (s : State) (base len : Int) (pre post : List Block) (c : Block)
    (hinv : Inv s base len (pre ++ c :: post)) : 0 ≤ c.size ∧ c.size ≤ 2147483647 - 8 := by
  obtain ⟨_, _, _, ht1, hc0, _, ht2, _⟩ := inv_middle _ _ _ _ _ _ hinv
  have h1 := tiled_le _ _ _ ht1
  have h2 := tiled_le _ _ _ ht2
  have h3 := hinv.len_int
  exact ⟨hc0, by omega⟩

theorem allocFinish_inv (s : State) (base len : Int) (pre post : List Block) (c : Block)
    (sz : Int) (hinv : Inv s base len (pre ++ c :: post)) (hc : c.free = true)
    (h0 : 0 ≤ sz) (h4 : sz % 4 = 0) (hfit : sz ≤ c.size) :
    ∃ s', allocFinish s sz (c.size + 8) c.addr = Outcome.ret (s', c.addr + 8) ∧
      Inv s' base len (pre ++ awarded sz c ++ post) := by
  obtain ⟨hl1, hcs, hl2, ht1, hc0, hc4, ht2, hcp⟩ := inv_middle _ _ _ _ _ _ hinv
  have hpre := tiled_mem _ _ _ ht1
  have hpost := tiled_mem _ _ _ ht2
  have hna := (noadj_split _ _ _).1 hinv.noAdjFree
  have hcl := (inv_size_le s base len pre post c hinv).2
  have henc : c.enc = c.size := by simp [Block.enc, hc]
  rw [henc] at hcs
  have w1 : wrapInt (sz + 8) = sz + 8 := wrapInt_id _ (by omega) (by omega)
  have w2 : wrapInt (c.size + 8 - (sz + 8)) = c.size + 8 - (sz + 8) :=
    wrapInt_id _ (by omega) (by omega)
  unfold allocFinish awarded
  rw [w1, w2]
  rw [if_neg (by simp only [NULL]; omega)]
  by_cases hsplit : c.size + 8 - (sz + 8) ≥ 12
  · rw [if_pos hsplit, if_pos hsplit]
    dsimp only
    rw [if_neg (by simp only [NULL]; omega)]
    obtain ⟨m', hm'⟩ : ∃ m', m' = setAllocated (set_next (set_next (set_size_status
        (set_size_status s.mem (c.addr + (sz + 8)) (c.size + 8 - (sz + 8) - 8)) c.addr sz)
        (c.addr + (sz + 8)) (next (set_size_status (set_size_status s.mem (c.addr + (sz + 8))
        (c.size + 8 - (sz + 8) - 8)) c.addr sz) c.addr)) c.addr (c.addr + (sz + 8))) c.addr :=
      ⟨_, rfl⟩
    obtain ⟨e1, e2, e3, e4, e5⟩ := split_mem s.mem c.addr sz _ h0 m' hm'
    rw [← hm']
    refine ⟨_, rfl, ⟨hinv.base_pos, hinv.base_aligned, hinv.len_int, ?_, ?_, ?_⟩⟩
    · dsimp only
      rw [List.append_assoc, linked_append]
      refine ⟨c.addr, ?_, ?_⟩
      · refine linked_congr _ _ _ _ _ hl1 ?_
        intro b hb
        have := hpre b hb
        exact ⟨e5 _ (by omega) (by omega) (by omega) (by omega),
          e5 _ (by omega) (by omega) (by omega) (by omega)⟩
      · rw [List.cons_append, List.cons_append, List.nil_append, linked_cons, linked_cons]
        dsimp only [Block.enc]
        rw [e1, e2, e3, e4]
        refine ⟨rfl, by omega, by simp, rfl, by omega, by simp, ?_⟩
        refine linked_congr _ _ _ _ _ hl2 ?_
        intro b hb
        have := hpost b hb
        exact ⟨e5 _ (by omega) (by omega) (by omega) (by omega),
          e5 _ (by omega) (by omega) (by omega) (by omega)⟩
    · rw [List.append_assoc, tiled_append]
      refine ⟨c.addr, ht1, rfl, h0, h4, ?_, ?_, ?_, ?_⟩
      · dsimp only; omega
      · dsimp only; omega
      · dsimp only; omega
      · have e : c.addr + 8 + sz + 8 + (c.size + 8 - (sz + 8) - 8) = c.addr + 8 + c.size := by
          omega
        dsimp only
        rw [e]; exact ht2
    · rw [List.append_assoc]
      simp only [List.cons_append, List.nil_append]
      unfold NoAdjFree
      rw [List.chain'_append_cons_cons]
      exact ⟨noadj_snoc_mono _ _ _ hna.1 (by simp), by simp,
        noadj_cons_mono _ _ _ hna.2 (by simp [hc])⟩
  · rw [if_neg hsplit, if_neg hsplit]
    refine ⟨_, rfl, ?_⟩
    rw [List.append_assoc]
    exact award_whole_inv s base len pre post c hinv hc

/-- After the rounding passed `INT_MAX` the size is `INT_MIN`: the split test
    `freeBlockSize - (size + 8) >= 12` overflows to a negative value and the
    candidate is awarded whole. -/
theorem allocFinish_overflow (s : State) (base len : Int) (pre post : List Block) (c : Block)
    (hinv : Inv s base len (pre ++ c :: post)) :
    allocFinish s (-2147483648) (c.size + 8) c.addr =
      Outcome.ret ({ s with mem := setAllocated s.mem c.addr }, c.addr + 8) := by
  obtain ⟨_, _, _, _, _, _, _, hcp⟩ := inv_middle _ _ _ _ _ _ hinv
  obtain ⟨hc0, hcl⟩ := inv_size_le s base len pre post c hinv
  have hw : ¬ (wrapInt (c.size + 8 - wrapInt (-2147483648 + 8)) ≥ 12) := by
    unfold wrapInt; omega
  unfold allocFinish
  rw [if_neg (by simp only [NULL]; omega), if_neg hw]

theorem roundUp4_spec (r : Int) :
    roundUp4 r % 4 = 0 ∧ r ≤ roundUp4 r ∧ roundUp4 r < r + 4 := by
  unfold roundUp4; omega

/-- What `Mem_Alloc` does on a well-formed state for a request whose rounding
    does not pass `INT_MAX`: either no free block fits, `NULL` is returned and
    the state is unchanged; or the best-fit block `c` is replaced by `awarded`
    and the payload address of `c` is returned. -/
theorem Mem_Alloc_spec (s : State) (base len : Int) (bs : List Block) (r : Int) (fuel : Nat)
    (hinv : Inv s base len bs) (hr : 0 ≤ r) (hhi : r ≤ 2147483644 ∨ 2147483647 < r)
    (hf : bs.length + 4 ≤ fuel) :
    ((∀ b ∈ bs, ¬ Fits (roundUp4 r) b) ∧ Mem_Alloc fuel s r = Outcome.ret (s, NULL)) ∨
    (∃ pre c post s', bs = pre ++ c :: post ∧ Fits (roundUp4 r) c ∧
      (∀ b ∈ bs, Fits (roundUp4 r) b →
        c.size < b.size ∨ (c.size = b.size ∧ c.addr ≤ b.addr)) ∧
      Mem_Alloc fuel s r = Outcome.ret (s', c.addr + 8) ∧
      Inv s' base len (pre ++ awarded (roundUp4 r) c ++ post)) := by
  obtain ⟨st, hst, hbest⟩ := search_best s.mem (roundUp4 r) bs fuel s.list_head base
    (base + len) hinv.linked hinv.tiled (by omega)
  have hround := roundLoop_eq fuel r (by omega) hhi
  have hsp := roundUp4_spec r
  unfold Mem_Alloc
  rw [hround]
  dsimp only
  rw [hst]
  rcases hbest with ⟨hst0, hno⟩ | ⟨c, hc, hfit, hc0, hstc, hmin⟩
  · left
    subst hst0
    exact ⟨hno, by simp [allocFinish]⟩
  · right
    subst hstc
    obtain ⟨pre, post, rfl⟩ := List.append_of_mem hc
    obtain ⟨s', hs', hinv'⟩ := allocFinish_inv s base len pre post c (roundUp4 r) hinv
      hfit.1 (by omega) hsp.1 hfit.2
    exact ⟨pre, c, post, s', rfl, hfit, hmin, hs', hinv'⟩

/-- What `Mem_Alloc` does on a well-formed state for the requests 2147483645,
    2147483646 and 2147483647, whose rounding passes `INT_MAX`: the rounded
    size is `INT_MIN`, every free block "fits", and the smallest free block
    (the first of its size) is awarded whole, whatever its payload size; only
    when no block is free is `NULL` returned. -/
theorem Mem_Alloc_overflow (s : State) (base len : Int) (bs : List Block) (r : Int)
    (fuel : Nat) (hinv : Inv s base len bs) (h1 : 2147483644 < r) (h2 : r ≤ 2147483647)
    (hf : bs.length + 4 ≤ fuel) :
    ((∀ b ∈ bs, b.free = false) ∧ Mem_Alloc fuel s r = Outcome.ret (s, NULL)) ∨
    (∃ pre c post, bs = pre ++ c :: post ∧ c.free = true ∧
      (∀ b ∈ bs, b.free = true → c.size < b.size ∨ (c.size = b.size ∧ c.addr ≤ b.addr)) ∧
      Mem_Alloc fuel s r =
        Outcome.ret ({ s with mem := setAllocated s.mem c.addr }, c.addr + 8) ∧
      Inv { s with mem := setAllocated s.mem c.addr } base len
        (pre ++ { addr := c.addr, size := c.size, free := false } :: post)) := by
  obtain ⟨st, hst, hbest⟩ := search_best s.mem (-2147483648) bs fuel s.list_head base
    (base + len) hinv.linked hinv.tiled (by omega)
  have hround := roundLoop_overflow fuel r (by omega) h1 h2
  have hsz := tiled_mem _ _ _ hinv.tiled
  unfold Mem_Alloc
  rw [hround]
  dsimp only
  rw [hst]
  rcases hbest with ⟨hst0, hno⟩ | ⟨c, hc, hfit, hc0, hstc, hmin⟩
  · left
    subst hst0
    refine ⟨?_, by simp [allocFinish]⟩
    intro b hb
    by_contra hfree
    have := (hsz b hb).2.2.1
    exact hno b hb ⟨by simpa using hfree, by omega⟩
  · right
    subst hstc
    obtain ⟨pre, post, rfl⟩ := List.append_of_mem hc
    refine ⟨pre, c, post, rfl, hfit.1, ?_, allocFinish_overflow s base len pre post c hinv,
      award_whole_inv s base len pre post c hinv hfit.1⟩
    intro b hb hfree
    have := (hsz b hb).2.2.1
    exact hmin b hb ⟨hfree, by omega⟩

/-- What `Mem_Alloc` does on a well-formed state for any request `r ≥ 0`: it
    returns; either it returns `NULL` and the state is unchanged, or a free
    block `c` is replaced by `awarded` and its payload address is returned. -/
theorem Mem_Alloc_any (s : State) (base len : Int) (bs : List Block) (r : Int) (fuel : Nat)
    (hinv : Inv s base len bs) (hr : 0 ≤ r) (hf : bs.length + 4 ≤ fuel) :
    Mem_Alloc fuel s r = Outcome.ret (s, NULL) ∨
    (∃ pre c post s', bs = pre ++ c :: post ∧ c.free = true ∧
      Mem_Alloc fuel s r = Outcome.ret (s', c.addr + 8) ∧
      Inv s' base len (pre ++ awarded (roundUp4 r) c ++ post)) := by
  by_cases hhi : r ≤ 2147483644 ∨ 2147483647 < r
  · rcases Mem_Alloc_spec s base len bs r fuel hinv hr hhi hf with
      ⟨_, h⟩ | ⟨pre, c, post, s', hbs, hfit, _, h, hinv'⟩
    · exact Or.inl h
    · exact Or.inr ⟨pre, c, post, s', hbs, hfit.1, h, hinv'⟩
  · rcases Mem_Alloc_overflow s base len bs r fuel hinv (by omega) (by omega) hf with
      ⟨_, h⟩ | ⟨pre, c, post, hbs, hfree, _, h, hinv'⟩
    · exact Or.inl h
    · refine Or.inr ⟨pre, c, post, _, hbs, hfree, h, ?_⟩
      subst hbs
      have hcl := (inv_size_le s base len pre post c hinv).2
      have hs := roundUp4_spec r
      have hw : ¬ (c.size + 8 - (roundUp4 r + 8) ≥ 12) := by omega
      unfold awarded
      rw [if_neg hw]
      simpa using hinv'

/-! ## Releasing a block -/

theorem prevLoop_eq (m : Int → Int) (target : Int) (pre : List Block) (fuel : Nat)
    (p prev0 : Int) (h : Linked m p pre target) (hne : ∀ b ∈ pre, b.addr ≠ target)
    (hf : pre.length < fuel) :
    prevLoop m target fuel p prev0 =
      Outcome.ret ((pre.getLast?.map Block.addr).getD prev0) := by
  induction pre generalizing p prev0 fuel with
  | nil =>
    obtain ⟨k, rfl⟩ : ∃ k, fuel = k + 1 := ⟨fuel - 1, by simp at hf; omega⟩
    simp only [Linked] at h
    simp [prevLoop, h]
  | cons b pre ih =>
    obtain ⟨k, rfl⟩ : ∃ k, fuel = k + 1 := ⟨fuel - 1, by simp at hf; omega⟩
    obtain ⟨h1, h2, _, h4⟩ := h
    have hb := hne b (List.mem_cons_self _ _)
    simp only [prevLoop]
    rw [if_pos (by rw [h1]; exact hb), if_neg h2]
    rw [ih k (next m p) p h4 (fun x hx => hne x (List.mem_cons_of_mem _ hx))
      (by simp at hf; omega)]
    rw [List.getLast?_cons]
    cases pre.getLast? <;> simp [h1]

theorem isFree_block (m : Int → Int) (b : Block) (h : m (b.addr + 4) = b.enc)
    (hn : b.addr ≠ 0) (h0 : 0 ≤ b.size) (h4 : b.size % 4 = 0) :
    isFree m b.addr = if b.free = true then 1 else 0 := by
  have := enc_tmod_free b h0 h4
  simp only [isFree, size_status, NULL, h]
  rw [if_neg (fun h => hn h.symm)]
  by_cases hf : b.free = true
  · rw [if_pos hf, if_pos (this.2 hf).symm]
  · rw [if_neg hf, if_neg (fun h => hf (this.1 h.symm))]

theorem isFree_null (m : Int → Int) : isFree m 0 = 0 := by
  simp [isFree, NULL]

theorem coalesce_both (m : Int → Int) (c p : Int) (hp : isFree m p = 1)
    (hn : isFree m (next m c) = 1) :
    coalesce m c p =
      set_size_status (set_next (set_next (set_next m p (next m (next m c))) c NULL)
        (next m c) NULL) p
        (size_status (set_next (set_next (set_next m p (next m (next m c))) c NULL)
            (next m c) NULL) p
          + size_status (set_next (set_next (set_next m p (next m (next m c))) c NULL)
            (next m c) NULL) c
          + size_status (set_next (set_next (set_next m p (next m (next m c))) c NULL)
            (next m c) NULL) (next m c) + 16) := by
  simp [coalesce, hp, hn]

theorem coalesce_prev (m : Int → Int) (c p : Int) (hp : isFree m p = 1)
    (hn : isFree m (next m c) = 0) :
    coalesce m c p =
      set_size_status (set_next (set_next m p (next m c)) c NULL) p
        (size_status (set_next (set_next m p (next m c)) c NULL) p
          + size_status (set_next (set_next m p (next m c)) c NULL) c + 8) := by
  simp [coalesce, hp, hn]

theorem coalesce_next (m : Int → Int) (c p : Int) (hp : isFree m p = 0)
    (hn : isFree m (next m c) = 1) :
    coalesce m c p =
      set_size_status (set_next (set_next m c (next m (next m c))) (next m c) NULL) c
        (size_status (set_next (set_next m c (next m (next m c))) (next m c) NULL) c
          + size_status (set_next (set_next m c (next m (next m c))) (next m c) NULL)
              (next m c) + 8) := by
  simp [coalesce, hp, hn]

theorem coalesce_none (m : Int → Int) (c p : Int) (hp : isFree m p = 0)
    (hn : isFree m (next m c) = 0) : coalesce m c p = m := by
  simp [coalesce, hp, hn]

/-- The memory after `setFreed`. -/
theorem freed_mem (m : Int → Int) (c : Int) :
    setFreed m c (c + 4) = m (c + 4) - 1 ∧ ∀ x, x ≠ c + 4 → setFreed m c x = m x := by
  simp only [setFreed, set_size_status, size_status, store]
  refine ⟨by simp, ?_⟩
  intro x h1
  rw [if_neg h1]

/-- Releasing the payload address of a busy block of a well-formed list passes
    the validation, finds the predecessor, and returns 0. -/
theorem Mem_Free_run (s : State) (base len : Int) (pre post : List Block) (c : Block)
    (fuel : Nat) (hinv : Inv s base len (pre ++ c :: post)) (hc : c.free = false)
    (hf : pre.length < fuel) :
    Mem_Free fuel s (c.addr + 8) =
      Outcome.ret ({ s with mem := coalesce (setFreed s.mem c.addr) c.addr (prevAddr pre) }, 0) := by
  obtain ⟨hl1, hcs, hl2, ht1, hc0, hc4, ht2, hcp⟩ := inv_middle _ _ _ _ _ _ hinv
  have hpre := tiled_mem _ _ _ ht1
  obtain ⟨f1, f2⟩ := freed_mem s.mem c.addr
  have hbusy := (enc_tmod_busy c hc0 hc4).2 hc
  have hl1' : Linked (setFreed s.mem c.addr) s.list_head pre c.addr := by
    refine linked_congr _ _ _ _ _ hl1 ?_
    intro b hb
    have := hpre b hb
    exact ⟨f2 _ (by omega), f2 _ (by omega)⟩
  have hscan := prevLoop_eq (setFreed s.mem c.addr) c.addr pre fuel s.list_head NULL hl1'
    (fun b hb => by have := hpre b hb; omega) hf
  have e : c.addr + 8 - 8 = c.addr := by omega
  unfold Mem_Free
  rw [if_neg (by simp only [NULL]; omega)]
  simp only [e]
  rw [if_neg (by simp only [NULL]; omega)]
  rw [if_neg (by simp only [size_status, hcs, hbusy]; simp)]
  rw [hscan]
  rfl

/-- The chain right after `setFreed` on a busy block `c` of a well-formed list. -/
theorem freed_middle (s : State) (base len : Int) (pre post : List Block) (c : Block)
    (hinv : Inv s base len (pre ++ c :: post)) (hc : c.free = false) :
    Linked (setFreed s.mem c.addr) s.list_head pre c.addr ∧
    setFreed s.mem c.addr (c.addr + 4) = c.size ∧
    Linked (setFreed s.mem c.addr) (setFreed s.mem c.addr c.addr) post NULL := by
  obtain ⟨hl1, hcs, hl2, ht1, hc0, hc4, ht2, hcp⟩ := inv_middle _ _ _ _ _ _ hinv
  have hpre := tiled_mem _ _ _ ht1
  have hpost := tiled_mem _ _ _ ht2
  obtain ⟨f1, f2⟩ := freed_mem s.mem c.addr
  refine ⟨?_, ?_, ?_⟩
  · refine linked_congr _ _ _ _ _ hl1 ?_
    intro b hb
    have := hpre b hb
    exact ⟨f2 _ (by omega), f2 _ (by omega)⟩
  · rw [f1, hcs]; simp [Block.enc, hc]
  · rw [f2 c.addr (by omega)]
    refine linked_congr _ _ _ _ _ hl2 ?_
    intro b hb
    have := hpost b hb
    exact ⟨f2 _ (by omega), f2 _ (by omega)⟩

theorem prevAddr_nil : prevAddr [] = 0 := rfl

theorem prevAddr_concat (pre : List Block) (b : Block) : prevAddr (pre ++ [b]) = b.addr := by
  simp [prevAddr, List.getLast?_concat]

/-- A busy or absent predecessor is reported as not free. -/
theorem isFree_prev_busy (m : Int → Int) (pre : List Block) (p q a e : Int)
    (hl : Linked m p pre q) (ht : Tiled a pre e) (ha : 0 < a)
    (hp : ∀ x ∈ pre.getLast?, x.free = false) : isFree m (prevAddr pre) = 0 := by
  rcases List.eq_nil_or_concat pre with rfl | ⟨L, b, rfl⟩
  · exact isFree_null m
  · rw [List.concat_eq_append] at hl ht hp ⊢
    rw [prevAddr_concat]
    obtain ⟨r, _, hl2⟩ := (linked_append _ _ _ _ _).1 hl
    obtain ⟨mid, ht1, ht2⟩ := (tiled_append _ _ _ _).1 ht
    have := tiled_le _ _ _ ht1
    rw [linked_cons] at hl2
    obtain ⟨e1, _, e3, _⟩ := hl2
    obtain ⟨t1, t2, t3, _⟩ := ht2
    subst e1
    rw [isFree_block m b e3 (by omega) t2 t3]
    have := hp b (by simp [List.getLast?_concat])
    simp [this]

/-- A busy or absent successor is reported as not free. -/
theorem isFree_next_busy (m : Int → Int) (post : List Block) (p a e : Int)
    (hl : Linked m p post NULL) (ht : Tiled a post e) (ha : 0 < a)
    (hn : ∀ n ∈ post.head?, n.free = false) : isFree m p = 0 := by
  cases post with
  | nil =>
    simp only [Linked] at hl
    rw [hl]; exact isFree_null m
  | cons n post =>
    rw [linked_cons] at hl
    obtain ⟨e1, _, e3, _⟩ := hl
    obtain ⟨t1, t2, t3, _⟩ := ht
    subst e1
    rw [isFree_block m n e3 (by omega) t2 t3]
    have := hn n (by simp)
    simp [this]

/-- Release with no free neighbour: only the flag of the block changes. -/
theorem free_none_inv (s : State) (base len : Int) (pre post : List Block) (c : Block)
    (hinv : Inv s base len (pre ++ c :: post)) (hc : c.free = false)
    (hp : ∀ x ∈ pre.getLast?, x.free = false) (hn : ∀ n ∈ post.head?, n.free = false) :
    Inv { s with mem := coalesce (setFreed s.mem c.addr) c.addr (prevAddr pre) } base len
      (pre ++ { addr := c.addr, size := c.size, free := true } :: post) := by
  obtain ⟨_, _, _, ht1, hc0, hc4, ht2, hcp⟩ := inv_middle _ _ _ _ _ _ hinv
  obtain ⟨g1, g2, g3⟩ := freed_middle s base len pre post c hinv hc
  have hna := (noadj_split _ _ _).1 hinv.noAdjFree
  have i1 := isFree_prev_busy _ pre _ _ _ _ g1 ht1 hinv.base_pos hp
  have i2 := isFree_next_busy _ post _ _ _ g3 ht2 (by omega) hn
  rw [coalesce_none _ _ _ i1 i2]
  refine ⟨hinv.base_pos, hinv.base_aligned, hinv.len_int, ?_, ?_, ?_⟩
  · dsimp only
    rw [linked_append]
    refine ⟨c.addr, g1, ?_⟩
    rw [linked_cons]
    dsimp only [Block.enc]
    exact ⟨rfl, by omega, by simpa using g2, g3⟩
  · rw [tiled_append]
    exact ⟨c.addr, ht1, rfl, hc0, hc4, ht2⟩
  · rw [noadj_split]
    exact ⟨noadj_snoc_busy _ _ (noadj_left _ _ hna.1) hp,
      noadj_cons_busy _ _ (noadj_right [c] post hna.2) hn⟩

/-- The memory after coalescing with the successor only. -/
theorem coalesce_next_mem (m : Int → Int) (c p n : Int) (hp : isFree m p = 0)
    (hn : isFree m (next m c) = 1) (hnx : next m c = n) (hd : c + 8 ≤ n) :
    coalesce m c p c = m n ∧ coalesce m c p (c + 4) = m (c + 4) + m (n + 4) + 8 ∧
    ∀ x, x ≠ c → x ≠ c + 4 → x ≠ n → coalesce m c p x = m x := by
  rw [coalesce_next _ _ _ hp hn, hnx]
  simp only [set_next, set_size_status, size_status, next, store, NULL]
  refine ⟨?_, ?_, ?_⟩
  · split_ifs <;> omega
  · split_ifs <;> omega
  · intro x h1 h2 h3
    split_ifs <;> omega

/-- The memory after coalescing with the predecessor only. -/
theorem coalesce_prev_mem (m : Int → Int) (c p : Int) (hp : isFree m p = 1)
    (hn : isFree m (next m c) = 0) (hd : p + 8 ≤ c) :
    coalesce m c p p = m c ∧ coalesce m c p (p + 4) = m (p + 4) + m (c + 4) + 8 ∧
    ∀ x, x ≠ p → x ≠ p + 4 → x ≠ c → coalesce m c p x = m x := by
  rw [coalesce_prev _ _ _ hp hn]
  simp only [set_next, set_size_status, size_status, next, store, NULL]
  refine ⟨?_, ?_, ?_⟩
  · split_ifs <;> omega
  · split_ifs <;> omega
  · intro x h1 h2 h3
    split_ifs <;> omega

/-- The memory after coalescing with both neighbours. -/
theorem coalesce_both_mem (m : Int → Int) (c p n : Int) (hp : isFree m p = 1)
    (hn : isFree m (next m c) = 1) (hnx : next m c = n) (hd : p + 8 ≤ c) (hd' : c + 8 ≤ n) :
    coalesce m c p p = m n ∧
    coalesce m c p (p + 4) = m (p + 4) + m (c + 4) + m (n + 4) + 16 ∧
    ∀ x, x ≠ p → x ≠ p + 4 → x ≠ c → x ≠ n → coalesce m c p x = m x := by
  rw [coalesce_both _ _ _ hp hn, hnx]
  have d1 : p + 4 ≠ p := by omega
  have d2 : p + 4 ≠ c := by omega
  have d3 : p + 4 ≠ n := by omega
  have d4 : c + 4 ≠ p := by omega
  have d5 : c + 4 ≠ c := by omega
  have d6 : c + 4 ≠ n := by omega
  have d7 : n + 4 ≠ p := by omega
  have d8 : n + 4 ≠ c := by omega
  have d9 : n + 4 ≠ n := by omega
  have d10 : p ≠ c := by omega
  have d11 : p ≠ n := by omega
  have d12 : c ≠ n := by omega
  have d13 : p ≠ p + 4 := by omega
  have d14 : c + 4 ≠ p + 4 := by omega
  have d15 : n + 4 ≠ p + 4 := by omega
  simp only [set_next, set_size_status, size_status, next, store, NULL]
  refine ⟨?_, ?_, ?_⟩
  · simp [d10, d11, d13]
  · simp [d1, d2, d3, d4, d5, d6, d7, d8, d9, d14, d15]
  · intro x h1 h2 h3 h4
    simp [h1, h2, h3, h4]

/-- Release with only the successor free: the block absorbs its successor. -/
theorem free_next_inv (s : State) (base len : Int) (pre post : List Block) (c n : Block)
    (hinv : Inv s base len (pre ++ c :: n :: post)) (hc : c.free = false)
    (hp : ∀ x ∈ pre.getLast?, x.free = false) (hn : n.free = true) :
    Inv { s with mem := coalesce (setFreed s.mem c.addr) c.addr (prevAddr pre) } base len
      (pre ++ { addr := c.addr, size := c.size + n.size + 8, free := true } :: post) := by
  obtain ⟨_, _, _, ht1, hc0, hc4, ht2, hcp⟩ := inv_middle _ _ _ _ _ _ hinv
  obtain ⟨g1, g2, g3⟩ := freed_middle s base len pre (n :: post) c hinv hc
  have hna := (noadj_split _ _ _).1 hinv.noAdjFree
  have hpre := tiled_mem _ _ _ ht1
  rw [linked_cons] at g3
  obtain ⟨n1, _, n3, n4⟩ := g3
  obtain ⟨t1, t2, t3, t4⟩ := ht2
  have hpost := tiled_mem _ _ _ t4
  have i1 := isFree_prev_busy _ pre _ _ _ _ g1 ht1 hinv.base_pos hp
  have i2 : isFree (setFreed s.mem c.addr) (next (setFreed s.mem c.addr) c.addr) = 1 := by
    simp only [next]
    rw [n1] at n3 ⊢
    rw [isFree_block _ n n3 (by omega) t2 t3]
    simp [hn]
  obtain ⟨e1, e2, e3⟩ := coalesce_next_mem _ c.addr (prevAddr pre) n.addr i1 i2 n1 (by omega)
  rw [n1] at n3 n4
  refine ⟨hinv.base_pos, hinv.base_aligned, hinv.len_int, ?_, ?_, ?_⟩
  · dsimp only
    rw [linked_append]
    refine ⟨c.addr, ?_, ?_⟩
    · refine linked_congr _ _ _ _ _ g1 ?_
      intro b hb
      have := hpre b hb
      exact ⟨e3 _ (by omega) (by omega) (by omega), e3 _ (by omega) (by omega) (by omega)⟩
    · rw [linked_cons]
      dsimp only [Block.enc]
      rw [e1, e2, g2, n3]
      refine ⟨rfl, by omega, by simp [Block.enc, hn], ?_⟩
      refine linked_congr _ _ _ _ _ n4 ?_
      intro b hb
      have := hpost b hb
      exact ⟨e3 _ (by omega) (by omega) (by omega), e3 _ (by omega) (by omega) (by omega)⟩
  · rw [tiled_append]
    refine ⟨c.addr, ht1, rfl, by dsimp only; omega, by dsimp only; omega, ?_⟩
    have e : c.addr + 8 + (c.size + n.size + 8) = c.addr + 8 + c.size + 8 + n.size := by omega
    dsimp only
    rw [e]; exact t4
  · rw [noadj_split]
    exact ⟨noadj_snoc_busy _ _ (noadj_left _ _ hna.1) hp,
      noadj_cons_mono _ _ _ (noadj_right [c] (n :: post) hna.2) (fun _ => hn)⟩

/-- Facts about two neighbouring blocks `pr`, `c` of a well-formed list right
    after `setFreed` on the busy block `c`. -/
theorem freed_pair (s : State) (base len : Int) (pre post : List Block) (pr c : Block)
    (hinv : Inv s base len (pre ++ pr :: c :: post)) (hc : c.free = false) :
    Inv s base len ((pre ++ [pr]) ++ c :: post) ∧
    Linked (setFreed s.mem c.addr) s.list_head pre pr.addr ∧
    setFreed s.mem c.addr (pr.addr + 4) = pr.enc ∧
    setFreed s.mem c.addr pr.addr = c.addr ∧
    Tiled base pre pr.addr ∧ 0 ≤ pr.size ∧ pr.size % 4 = 0 ∧
    pr.addr + 8 + pr.size = c.addr ∧ 0 < pr.addr := by
  have hinv' : Inv s base len ((pre ++ [pr]) ++ c :: post) := by simpa using hinv
  obtain ⟨_, _, _, ht1, _, _, _, _⟩ := inv_middle _ _ _ _ _ _ hinv'
  obtain ⟨g1, _, _⟩ := freed_middle s base len _ post c hinv' hc
  obtain ⟨r, l1, l2⟩ := (linked_append _ _ _ _ _).1 g1
  obtain ⟨mid, t1, t2⟩ := (tiled_append _ _ _ _).1 ht1
  rw [linked_cons] at l2
  obtain ⟨a1, _, a3, a4⟩ := l2
  obtain ⟨b1, b2, b3, b4⟩ := t2
  simp only [Linked, Tiled] at a4 b4
  subst a1
  have := tiled_le _ _ _ t1
  have := hinv.base_pos
  subst b1
  exact ⟨hinv', l1, a3, a4, t1, b2, b3, b4, by omega⟩

/-- Release with only the predecessor free: the predecessor absorbs the block. -/
theorem free_prev_inv (s : State) (base len : Int) (pre post : List Block) (pr c : Block)
    (hinv : Inv s base len (pre ++ pr :: c :: post)) (hc : c.free = false)
    (hp : pr.free = true) (hn : ∀ n ∈ post.head?, n.free = false) :
    Inv { s with mem := coalesce (setFreed s.mem c.addr) c.addr pr.addr } base len
      (pre ++ { addr := pr.addr, size := pr.size + c.size + 8, free := true } :: post) ∧
    coalesce (setFreed s.mem c.addr) c.addr pr.addr (c.addr + 4) = c.size := by
  obtain ⟨hinv', l1, p3, p4, t1, p0, pm, padj, ppos⟩ := freed_pair s base len pre post pr c hinv hc
  obtain ⟨_, _, _, _, hc0, hc4, ht2, hcp⟩ := inv_middle _ _ _ _ _ _ hinv'
  obtain ⟨_, g2, g3⟩ := freed_middle s base len _ post c hinv' hc
  have hna := (noadj_split _ _ _).1 hinv.noAdjFree
  have hpre := tiled_mem _ _ _ t1
  have hpost := tiled_mem _ _ _ ht2
  have i1 : isFree (setFreed s.mem c.addr) pr.addr = 1 := by
    rw [isFree_block _ pr p3 (by omega) p0 pm]; simp [hp]
  have i2 := isFree_next_busy _ post _ _ _ g3 ht2 (by omega) hn
  obtain ⟨e1, e2, e3⟩ := coalesce_prev_mem _ c.addr pr.addr i1 i2 (by omega)
  refine ⟨⟨hinv.base_pos, hinv.base_aligned, hinv.len_int, ?_, ?_, ?_⟩, ?_⟩
  · dsimp only
    rw [linked_append]
    refine ⟨pr.addr, ?_, ?_⟩
    · refine linked_congr _ _ _ _ _ l1 ?_
      intro b hb
      have := hpre b hb
      exact ⟨e3 _ (by omega) (by omega) (by omega), e3 _ (by omega) (by omega) (by omega)⟩
    · rw [linked_cons]
      dsimp only [Block.enc]
      rw [e1, e2, g2, p3]
      refine ⟨rfl, by omega, by simp [Block.enc, hp], ?_⟩
      refine linked_congr _ _ _ _ _ g3 ?_
      intro b hb
      have := hpost b hb
      exact ⟨e3 _ (by omega) (by omega) (by omega), e3 _ (by omega) (by omega) (by omega)⟩
  · rw [tiled_append]
    refine ⟨pr.addr, t1, rfl, by dsimp only; omega, by dsimp only; omega, ?_⟩
    have e : pr.addr + 8 + (pr.size + c.size + 8) = c.addr + 8 + c.size := by omega
    dsimp only
    rw [e]; exact ht2
  · rw [noadj_split]
    exact ⟨noadj_snoc_mono _ _ _ hna.1 (fun _ => hp),
      noadj_cons_busy _ _ (noadj_right [pr, c] post hna.2) hn⟩
  · rw [e3 _ (by omega) (by omega) (by omega), g2]

/-- Release with both neighbours free: the predecessor absorbs the block and
    its successor. -/
theorem free_both_inv (s : State) (base len : Int) (pre post : List Block) (pr c n : Block)
    (hinv : Inv s base len (pre ++ pr :: c :: n :: post)) (hc : c.free = false)
    (hp : pr.free = true) (hn : n.free = true) :
    Inv { s with mem := coalesce (setFreed s.mem c.addr) c.addr pr.addr } base len
      (pre ++ { addr := pr.addr, size := pr.size + c.size + n.size + 16, free := true }
        :: post) ∧
    coalesce (setFreed s.mem c.addr) c.addr pr.addr (c.addr + 4) = c.size := by
  obtain ⟨hinv', l1, p3, p4, t1, p0, pm, padj, ppos⟩ :=
    freed_pair s base len pre (n :: post) pr c hinv hc
  obtain ⟨_, _, _, _, hc0, hc4, ht2, hcp⟩ := inv_middle _ _ _ _ _ _ hinv'
  obtain ⟨_, g2, g3⟩ := freed_middle s base len _ (n :: post) c hinv' hc
  have hna := (noadj_split _ _ _).1 hinv.noAdjFree
  have hpre := tiled_mem _ _ _ t1
  rw [linked_cons] at g3
  obtain ⟨n1, _, n3, n4⟩ := g3
  obtain ⟨u1, u2, u3, u4⟩ := ht2
  have hpost := tiled_mem _ _ _ u4
  have i1 : isFree (setFreed s.mem c.addr) pr.addr = 1 := by
    rw [isFree_block _ pr p3 (by omega) p0 pm]; simp [hp]
  have i2 : isFree (setFreed s.mem c.addr) (next (setFreed s.mem c.addr) c.addr) = 1 := by
    simp only [next]
    rw [n1] at n3 ⊢
    rw [isFree_block _ n n3 (by omega) u2 u3]
    simp [hn]
  obtain ⟨e1, e2, e3⟩ := coalesce_both_mem _ c.addr pr.addr n.addr i1 i2 n1 (by omega)
    (by omega)
  rw [n1] at n3 n4
  refine ⟨⟨hinv.base_pos, hinv.base_aligned, hinv.len_int, ?_, ?_, ?_⟩, ?_⟩
  · dsimp only
    rw [linked_append]
    refine ⟨pr.addr, ?_, ?_⟩
    · refine linked_congr _ _ _ _ _ l1 ?_
      intro b hb
      have := hpre b hb
      exact ⟨e3 _ (by omega) (by omega) (by omega) (by omega),
        e3 _ (by omega) (by omega) (by omega) (by omega)⟩
    · rw [linked_cons]
      dsimp only [Block.enc]
      rw [e1, e2, g2, p3, n3]
      refine ⟨rfl, by omega, by simp [Block.enc, hp, hn], ?_⟩
      refine linked_congr _ _ _ _ _ n4 ?_
      intro b hb
      have := hpost b hb
      exact ⟨e3 _ (by omega) (by omega) (by omega) (by omega),
        e3 _ (by omega) (by omega) (by omega) (by omega)⟩
  · rw [tiled_append]
    refine ⟨pr.addr, t1, rfl, by dsimp only; omega, by dsimp only; omega, ?_⟩
    have e : pr.addr + 8 + (pr.size + c.size + n.size + 16)
        = c.addr + 8 + c.size + 8 + n.size := by omega
    dsimp only
    rw [e]; exact u4
  · rw [noadj_split]
    exact ⟨noadj_snoc_mono _ _ _ hna.1 (fun _ => hp),
      noadj_cons_mono _ _ _ (noadj_right [pr, c] (n :: post) hna.2) (fun _ => hn)⟩
  · rw [e3 _ (by omega) (by omega) (by omega) (by omega), g2]

theorem last_cases (pre : List Block) :
    (∃ L pr, pre = L ++ [pr] ∧ pr.free = true) ∨ (∀ x ∈ pre.getLast?, x.free = false) := by
  rcases List.eq_nil_or_concat pre with rfl | ⟨L, b, rfl⟩
  · right; simp
  · rw [List.concat_eq_append]
    cases hb : b.free
    · right; simp [List.getLast?_concat, hb]
    · left; exact ⟨L, b, rfl, hb⟩

theorem head_cases (post : List Block) :
    (∃ n L, post = n :: L ∧ n.free = true) ∨ (∀ n ∈ post.head?, n.free = false) := by
  cases post with
  | nil => right; simp
  | cons n L =>
    cases hn : n.free
    · right; simp [hn]
    · left; exact ⟨n, L, rfl, hn⟩

/-- Releasing a busy block of a well-formed list returns 0, leaves a
    well-formed list, and leaves a multiple of 4 in the `size_status` word of
    the released header. -/
theorem Mem_Free_spec (s : State) (base len : Int) (pre post : List Block) (c : Block)
    (fuel : Nat) (hinv : Inv s base len (pre ++ c :: post)) (hc : c.free = false)
    (hf : pre.length < fuel) :
    ∃ s' bs', Mem_Free fuel s (c.addr + 8) = Outcome.ret (s', 0) ∧ Inv s' base len bs' ∧
      0 ≤ s'.mem (c.addr + 4) ∧ s'.mem (c.addr + 4) % 4 = 0 := by
  have hrun := Mem_Free_run s base len pre post c fuel hinv hc hf
  obtain ⟨_, _, _, _, hc0, hc4, ht2, _⟩ := inv_middle _ _ _ _ _ _ hinv
  rcases last_cases pre with ⟨L, pr, rfl, hp⟩ | hp <;>
    rcases head_cases post with ⟨n, P, rfl, hn⟩ | hn
  · rw [prevAddr_concat] at hrun
    have hinv' : Inv s base len (L ++ pr :: c :: n :: P) := by simpa using hinv
    obtain ⟨h1, h2⟩ := free_both_inv s base len L P pr c n hinv' hc hp hn
    exact ⟨_, _, hrun, h1, by dsimp only; omega, by dsimp only; omega⟩
  · rw [prevAddr_concat] at hrun
    have hinv' : Inv s base len (L ++ pr :: c :: post) := by simpa using hinv
    obtain ⟨h1, h2⟩ := free_prev_inv s base len L post pr c hinv' hc hp hn
    exact ⟨_, _, hrun, h1, by dsimp only; omega, by dsimp only; omega⟩
  · have h1 := free_next_inv s base len pre P c n hinv hc hp hn
    obtain ⟨_, w, _⟩ := inv_middle _ _ _ _ _ _ h1
    obtain ⟨_, n0, n4, _⟩ := ht2
    simp [Block.enc] at w
    exact ⟨_, _, hrun, h1, by dsimp only; rw [w]; omega, by dsimp only; rw [w]; omega⟩
  · have h1 := free_none_inv s base len pre post c hinv hc hp hn
    obtain ⟨_, w, _⟩ := inv_middle _ _ _ _ _ _ h1
    simp [Block.enc] at w
    exact ⟨_, _, hrun, h1, by dsimp only; rw [w]; omega, by dsimp only; rw [w]; omega⟩

/-! ## Concrete states -/

theorem demoInit_inv : Inv demoInit 65536 4096 [{ addr := 65536, size := 4088, free := true }] :=
  ⟨by decide, by decide, by decide, by decide, by decide, by simp [NoAdjFree]⟩

theorem demoAlloc_run : Mem_Alloc 5 demoInit 100 = Outcome.ret (demoAlloc, 65544) := rfl

theorem demoAlloc_inv : Inv demoAlloc 65536 4096
    [{ addr := 65536, size := 100, free := false }, { addr := 65644, size := 3980, free := true }] :=
  ⟨by decide, by decide, by decide, by decide, by decide, by simp [NoAdjFree]⟩

theorem demoTwoFree_inv : Inv demoTwoFree 65536 4096
    [{ addr := 65536, size := 3000, free := true }, { addr := 68544, size := 8, free := false },
     { addr := 68560, size := 1064, free := true }] :=
  ⟨by decide, by decide, by decide, by decide, by decide, by simp [NoAdjFree]⟩

theorem demoBoth_inv : Inv demoBoth 65536 4096
    [{ addr := 65536, size := 100, free := true }, { addr := 65644, size := 200, free := false },
     { addr := 65852, size := 3772, free := true }] :=
  ⟨by decide, by decide, by decide, by decide, by decide, by simp [NoAdjFree]⟩

/-! ## Claims about `Mem_Alloc` -/

theorem awarded_head (sz : Int) (c : Block) (h : sz ≤ c.size) :
    ∃ c' tail, awarded sz c = c' :: tail ∧ c'.addr = c.addr ∧ c'.free = false ∧
      sz ≤ c'.size := by
  unfold awarded
  split_ifs
  · exact ⟨_, _, rfl, rfl, rfl, le_refl _⟩
  · exact ⟨_, _, rfl, rfl, rfl, h⟩

theorem ret_inj (s s' : State) (p q : Int)
    (h : (Outcome.ret (s, p) : Outcome (State × Int)) = Outcome.ret (s', q)) :
    s = s' ∧ p = q := by
  injection h with h
  injection h with h1 h2
  exact ⟨h1, h2⟩

/-- The success postcondition for requests whose rounding does not overflow:
    in a state satisfying the list invariants, when `Mem_Alloc` with a request
    `0 ≤ r ≤ INT_MAX - 3` returns a non-null pointer `p`, then `p` is the
    header address plus 8 of a block `c` that was free before the call; after
    the call the block at that address is busy and its payload size is at
    least the request rounded up to a multiple of 4. -/
theorem alloc_success_postcondition (s s' : State) (base len : Int) (bs : List Block)
    (r : Int) (fuel : Nat) (p : Int) (hinv : Inv s base len bs) (hr : 0 ≤ r)
    (hhi : r ≤ 2147483644)
    (hf : bs.length + 4 ≤ fuel) (hret : Mem_Alloc fuel s r = Outcome.ret (s', p))
    (hp : p ≠ NULL) :
    ∃ pre c post c' tail, bs = pre ++ c :: post ∧ c.free = true ∧ p = c.addr + 8 ∧
      Inv s' base len (pre ++ c' :: tail) ∧ c'.addr = c.addr ∧ c'.free = false ∧
      roundUp4 r ≤ c'.size := by
  rcases Mem_Alloc_spec s base len bs r fuel hinv hr (Or.inl hhi) hf with ⟨_, h⟩ | ⟨pre, c, post, s1, hbs, hfit, _, h, hinv'⟩
  · rw [hret] at h
    exact absurd (ret_inj _ _ _ _ h).2 hp
  · rw [hret] at h
    obtain ⟨rfl, rfl⟩ := ret_inj _ _ _ _ h
    obtain ⟨c', tail, ha, h1, h2, h3⟩ := awarded_head (roundUp4 r) c hfit.2
    rw [ha, List.append_assoc, List.cons_append] at hinv'
    exact ⟨pre, c, post, c', tail ++ post, hbs, hfit.1, rfl, hinv', h1, h2, h3⟩

theorem alloc_success_postcondition_witness :
    ∃ pre c post c' tail,
      [({ addr := 65536, size := 4088, free := true } : Block)] = pre ++ c :: post ∧
      c.free = true ∧ (65544 : Int) = c.addr + 8 ∧
      Inv demoAlloc 65536 4096 (pre ++ c' :: tail) ∧ c'.addr = c.addr ∧ c'.free = false ∧
      roundUp4 100 ≤ c'.size :=
  alloc_success_postcondition demoInit demoAlloc 65536 4096 _ 100 5 65544 demoInit_inv
    (by decide) (by decide) (by decide) demoAlloc_run (by decide)

/-- C5: in a state satisfying the list invariants, when some free block can
    hold the rounded request of `r ≥ 0`, `Mem_Alloc` awards a free block `c`
    that can hold it and whose total size (8 + payload) is minimal among all
    such blocks; among those of the same size it has the lowest address, and
    every fitting block before it in the list is strictly larger. -/
theorem best_fit_selection (s : State) (base len : Int) (bs : List Block) (r : Int)
    (fuel : Nat) (hinv : Inv s base len bs) (hr : 0 ≤ r) (hf : bs.length + 4 ≤ fuel)
    (hex : ∃ b ∈ bs, b.free = true ∧ roundUp4 r ≤ b.size) :
    ∃ pre c post s', bs = pre ++ c :: post ∧
      Mem_Alloc fuel s r = Outcome.ret (s', c.addr + 8) ∧
      Inv s' base len (pre ++ awarded (roundUp4 r) c ++ post) ∧
      c.free = true ∧ roundUp4 r ≤ c.size ∧
      (∀ b ∈ bs, b.free = true → roundUp4 r ≤ b.size →
        8 + c.size ≤ 8 + b.size ∧ (8 + c.size = 8 + b.size → c.addr ≤ b.addr)) ∧
      (∀ b ∈ pre, b.free = true → roundUp4 r ≤ b.size → 8 + c.size < 8 + b.size) := by
  have hhi : r ≤ 2147483644 := by
    obtain ⟨b, hb, _, hle⟩ := hex
    obtain ⟨pre, post, rfl⟩ := List.append_of_mem hb
    have := (inv_size_le s base len pre post b hinv).2
    have := (roundUp4_spec r).2.1
    omega
  rcases Mem_Alloc_spec s base len bs r fuel hinv hr (Or.inl hhi) hf with ⟨hno, _⟩ | ⟨pre, c, post, s1, hbs, hfit, hmin, h, hinv'⟩
  · obtain ⟨b, hb, hb'⟩ := hex
    exact absurd hb' (hno b hb)
  · subst hbs
    obtain ⟨_, _, _, ht1, _, _, _, _⟩ := inv_middle _ _ _ _ _ _ hinv
    refine ⟨pre, c, post, s1, rfl, h, hinv', hfit.1, hfit.2, ?_, ?_⟩
    · intro b hb h1 h2
      rcases hmin b hb ⟨h1, h2⟩ with h | h
      · exact ⟨by omega, fun he => by omega⟩
      · exact ⟨by omega, fun _ => h.2⟩
    · intro b hb h1 h2
      have := tiled_mem _ _ _ ht1 b hb
      rcases hmin b (List.mem_append_left _ hb) ⟨h1, h2⟩ with h | h
      · omega
      · omega

theorem best_fit_selection_witness :
    ∃ s', Mem_Alloc 7 demoTwoFree 100 = Outcome.ret (s', 68568) := by
  obtain ⟨pre, c, post, s', hbs, hrun, _, hfree, _, hmin, _⟩ :=
    best_fit_selection demoTwoFree 65536 4096 _ 100 7 demoTwoFree_inv (by decide) (by decide)
      ⟨{ addr := 68560, size := 1064, free := true }, by simp, rfl, by decide⟩
  have hc : c ∈ [({ addr := 65536, size := 3000, free := true } : Block),
      { addr := 68544, size := 8, free := false },
      { addr := 68560, size := 1064, free := true }] := by rw [hbs]; simp
  have h3 := hmin { addr := 68560, size := 1064, free := true } (by simp) rfl (by decide)
  simp only [List.mem_cons, List.mem_singleton, List.not_mem_nil, or_false] at hc
  rcases hc with rfl | rfl | rfl
  · exact absurd h3.1 (by decide)
  · exact absurd hfree (by decide)
  · exact ⟨s', hrun⟩

/-- Failure for requests whose rounding does not overflow: in a state
    satisfying the list invariants and for a request `0 ≤ r ≤ INT_MAX - 3`,
    `Mem_Alloc` returns, and it returns `NULL` exactly when no free block has a
    payload of at least the rounded request; when it returns `NULL` the state
    (hence the block list) is unchanged. -/
theorem alloc_failure (s : State) (base len : Int) (bs : List Block) (r : Int)
    (fuel : Nat) (hinv : Inv s base len bs) (hr : 0 ≤ r) (hhi : r ≤ 2147483644)
    (hf : bs.length + 4 ≤ fuel) :
    ∃ s' p, Mem_Alloc fuel s r = Outcome.ret (s', p) ∧
      (p = NULL ↔ ∀ b ∈ bs, ¬ (b.free = true ∧ roundUp4 r ≤ b.size)) ∧
      (p = NULL → s' = s) := by
  rcases Mem_Alloc_spec s base len bs r fuel hinv hr (Or.inl hhi) hf with ⟨hno, h⟩ | ⟨pre, c, post, s1, hbs, hfit, _, h, _⟩
  · exact ⟨s, NULL, h, ⟨fun _ => hno, fun _ => rfl⟩, fun _ => rfl⟩
  · subst hbs
    obtain ⟨_, _, _, _, _, _, _, hpos⟩ := inv_middle _ _ _ _ _ _ hinv
    have hne : c.addr + 8 ≠ NULL := by simp only [NULL]; omega
    refine ⟨s1, c.addr + 8, h, ⟨fun h0 => absurd h0 hne, fun hno => ?_⟩, fun h0 => absurd h0 hne⟩
    exact absurd hfit (hno c (by simp))

theorem alloc_failure_witness :
    Mem_Init 4096 3 (some 65536) (initialState (fun _ => 0)) 4096 = (demoInit, 0) ∧
    Mem_Alloc 5 demoInit 10000 = Outcome.ret (demoInit, NULL) ∧
    Inv demoInit 65536 4096 [{ addr := 65536, size := 4088, free := true }] := by
  obtain ⟨s', p, h, hiff, hsame⟩ := alloc_failure demoInit 65536 4096 _ 10000 5 demoInit_inv
    (by decide) (by decide) (by decide)
  have hp : p = NULL := hiff.2 (by
    intro b hb
    simp at hb
    subst hb
    decide)
  subst hp
  rw [hsame rfl] at h
  exact ⟨rfl, h, demoInit_inv⟩

/-- C8: in a state satisfying the list invariants, releasing the payload
    address of a busy block `c` returns 0 and: with predecessor `pr` and
    successor `n` both free, `pr` survives with payload
    `pr + c + n + 16` and is followed by what followed `n`; with only `pr`
    free, `pr` gets payload `pr + c + 8` and is followed by what followed `c`;
    with only `n` free, `c` is free with payload `c + n + 8` and is followed by
    what followed `n`; with no free neighbour (an absent one counts as not
    free) only the flag of `c` changes. -/
theorem coalescing_postcondition (s : State) (base len : Int) (bs : List Block) (c : Block)
    (fuel : Nat) (hinv : Inv s base len bs) (hc : c.free = false) (hf : bs.length ≤ fuel) :
    (∀ pre pr n post, bs = pre ++ pr :: c :: n :: post → pr.free = true → n.free = true →
      ∃ s', Mem_Free fuel s (c.addr + 8) = Outcome.ret (s', 0) ∧
        Inv s' base len (pre ++
          { addr := pr.addr, size := pr.size + c.size + n.size + 16, free := true } :: post)) ∧
    (∀ pre pr post, bs = pre ++ pr :: c :: post → pr.free = true →
      (∀ n ∈ post.head?, n.free = false) →
      ∃ s', Mem_Free fuel s (c.addr + 8) = Outcome.ret (s', 0) ∧
        Inv s' base len (pre ++
          { addr := pr.addr, size := pr.size + c.size + 8, free := true } :: post)) ∧
    (∀ pre n post, bs = pre ++ c :: n :: post → (∀ x ∈ pre.getLast?, x.free = false) →
      n.free = true →
      ∃ s', Mem_Free fuel s (c.addr + 8) = Outcome.ret (s', 0) ∧
        Inv s' base len (pre ++
          { addr := c.addr, size := c.size + n.size + 8, free := true } :: post)) ∧
    (∀ pre post, bs = pre ++ c :: post → (∀ x ∈ pre.getLast?, x.free = false) →
      (∀ n ∈ post.head?, n.free = false) →
      ∃ s', Mem_Free fuel s (c.addr + 8) = Outcome.ret (s', 0) ∧
        Inv s' base len (pre ++ { addr := c.addr, size := c.size, free := true } :: post)) := by
  refine ⟨?_, ?_, ?_, ?_⟩
  · intro pre pr n post hbs hp hn
    subst hbs
    have hinv' : Inv s base len ((pre ++ [pr]) ++ c :: n :: post) := by simpa using hinv
    have hrun := Mem_Free_run s base len _ _ c fuel hinv' hc (by simp at hf ⊢; omega)
    rw [prevAddr_concat] at hrun
    exact ⟨_, hrun, (free_both_inv s base len pre post pr c n hinv hc hp hn).1⟩
  · intro pre pr post hbs hp hn
    subst hbs
    have hinv' : Inv s base len ((pre ++ [pr]) ++ c :: post) := by simpa using hinv
    have hrun := Mem_Free_run s base len _ _ c fuel hinv' hc (by simp at hf ⊢; omega)
    rw [prevAddr_concat] at hrun
    exact ⟨_, hrun, (free_prev_inv s base len pre post pr c hinv hc hp hn).1⟩
  · intro pre n post hbs hp hn
    subst hbs
    have hrun := Mem_Free_run s base len _ _ c fuel hinv hc (by simp at hf ⊢; omega)
    exact ⟨_, hrun, free_next_inv s base len pre post c n hinv hc hp hn⟩
  · intro pre post hbs hp hn
    subst hbs
    have hrun := Mem_Free_run s base len _ _ c fuel hinv hc (by simp at hf ⊢; omega)
    exact ⟨_, hrun, free_none_inv s base len pre post c hinv hc hp hn⟩

theorem coalescing_postcondition_witness :
    (∃ s', Mem_Free 3 demoBoth 65652 = Outcome.ret (s', 0) ∧
      Inv s' 65536 4096 [{ addr := 65536, size := 4088, free := true }]) ∧
    (∃ s', Mem_Free 2 demoAlloc 65544 = Outcome.ret (s', 0) ∧
      Inv s' 65536 4096 [{ addr := 65536, size := 4088, free := true }]) :=
  ⟨(coalescing_postcondition demoBoth 65536 4096 _ { addr := 65644, size := 200, free := false }
      3 demoBoth_inv rfl (by decide)).1 []
      { addr := 65536, size := 100, free := true }
      { addr := 65852, size := 3772, free := true } [] rfl rfl rfl,
   (coalescing_postcondition demoAlloc 65536 4096 _
      { addr := 65536, size := 100, free := false } 2 demoAlloc_inv rfl (by decide)).2.2.1 []
      { addr := 65644, size := 3980, free := true } [] rfl (by simp) rfl⟩

/-- C9: in a state satisfying the list invariants, when `Mem_Alloc` with a
    request `r ≥ 0` returns a non-null pointer `p`, an immediate `Mem_Free(p)`
    returns 0 and the memory again holds exactly the block list `bs` of before
    the allocation: the same blocks at the same addresses, with the same
    payload sizes, flags and successors. -/
theorem alloc_free_round_trip (s s1 : State) (base len : Int) (bs : List Block) (r : Int)
    (fuel : Nat) (p : Int) (hinv : Inv s base len bs) (hr : 0 ≤ r)
    (hf : bs.length + 4 ≤ fuel) (hret : Mem_Alloc fuel s r = Outcome.ret (s1, p))
    (hp : p ≠ NULL) :
    ∃ s2, Mem_Free fuel s1 p = Outcome.ret (s2, 0) ∧ Inv s2 base len bs := by
  rcases Mem_Alloc_any s base len bs r fuel hinv hr hf with h | ⟨pre, c, post, s', hbs, hfree, h, hinv'⟩
  · rw [hret] at h
    exact absurd (ret_inj _ _ _ _ h).2 hp
  · rw [hret] at h
    obtain ⟨rfl, rfl⟩ := ret_inj _ _ _ _ h
    subst hbs
    have hna := (noadj_split _ _ _).1 hinv.noAdjFree
    have hprev := noadj_last_busy _ _ hna.1 hfree
    have hnext := noadj_head_busy _ _ hna.2 hfree
    have hlen : pre.length < fuel := by simp at hf; omega
    have hce : ∀ z, z = c.size → ({ addr := c.addr, size := z, free := true } : Block) = c := by
      intro z hz
      cases c
      simp at hz hfree ⊢
      exact ⟨hz, hfree⟩
    unfold awarded at hinv'
    by_cases hsplit : c.size + 8 - (roundUp4 r + 8) ≥ 12
    · rw [if_pos hsplit] at hinv'
      have hinv2 : Inv s1 base len (pre ++
          { addr := c.addr, size := roundUp4 r, free := false } ::
          { addr := c.addr + (roundUp4 r + 8), size := c.size + 8 - (roundUp4 r + 8) - 8,
            free := true } :: post) := by simpa using hinv'
      have hrun := Mem_Free_run s1 base len _ _ _ fuel hinv2 rfl hlen
      have hres := free_next_inv s1 base len pre post _ _ hinv2 rfl hprev rfl
      dsimp only at hres hrun
      rw [hce _ (by omega)] at hres
      exact ⟨_, hrun, hres⟩
    · rw [if_neg hsplit] at hinv'
      have hinv2 : Inv s1 base len (pre ++
          { addr := c.addr, size := c.size, free := false } :: post) := by simpa using hinv'
      have hrun := Mem_Free_run s1 base len _ _ _ fuel hinv2 rfl hlen
      have hres := free_none_inv s1 base len pre post _ hinv2 rfl hprev hnext
      dsimp only at hres hrun
      rw [hce _ rfl] at hres
      exact ⟨_, hrun, hres⟩

theorem alloc_free_round_trip_witness :
    Mem_Init 4096 3 (some 65536) (initialState (fun _ => 0)) 4096 = (demoInit, 0) ∧
    Mem_Alloc 5 demoInit 100 = Outcome.ret (demoAlloc, 65544) ∧
    ∃ s2, Mem_Free 5 demoAlloc 65544 = Outcome.ret (s2, 0) ∧
      Inv s2 65536 4096 [{ addr := 65536, size := 4088, free := true }] :=
  ⟨rfl, demoAlloc_run, alloc_free_round_trip demoInit demoAlloc 65536 4096 _ 100 5 65544
    demoInit_inv (by decide) (by decide) demoAlloc_run (by decide)⟩

/-- Double release in a state satisfying the list invariants: for the payload
    address of any busy block `c` of the list, a first `Mem_Free` returns 0
    and a second `Mem_Free` of the same address right afterwards returns -1
    and leaves the state unchanged, whatever the neighbours of `c` are. -/
theorem double_release_rejected (s : State) (base len : Int) (pre post : List Block)
    (c : Block) (fuel : Nat) (hinv : Inv s base len (pre ++ c :: post))
    (hc : c.free = false) (hf : (pre ++ c :: post).length ≤ fuel) :
    ∃ s1, Mem_Free fuel s (c.addr + 8) = Outcome.ret (s1, 0) ∧
      Mem_Free fuel s1 (c.addr + 8) = Outcome.ret (s1, -1) := by
  obtain ⟨_, _, _, _, _, _, _, hpos⟩ := inv_middle _ _ _ _ _ _ hinv
  obtain ⟨s1, bs1, hrun, _, w0, w4⟩ := Mem_Free_spec s base len pre post c fuel hinv hc
    (by simp at hf; omega)
  refine ⟨s1, hrun, ?_⟩
  have e : c.addr + 8 - 8 = c.addr := by omega
  have ht : (size_status s1.mem c.addr).tmod 4 = 0 := (tmod4_zero_iff _).2 w4
  unfold Mem_Free
  rw [if_neg (by simp only [NULL]; omega)]
  simp only [e]
  rw [if_neg (by simp only [NULL]; omega), if_pos (by rw [ht]; decide)]

theorem double_release_rejected_witness :
    (∃ s1, Mem_Free 3 demoBoth 65652 = Outcome.ret (s1, 0) ∧
      Mem_Free 3 s1 65652 = Outcome.ret (s1, -1)) ∧
    (∃ s1, Mem_Free 2 demoAlloc 65544 = Outcome.ret (s1, 0) ∧
      Mem_Free 2 s1 65544 = Outcome.ret (s1, -1)) :=
  ⟨double_release_rejected demoBoth 65536 4096 [{ addr := 65536, size := 100, free := true }]
      [{ addr := 65852, size := 3772, free := true }]
      { addr := 65644, size := 200, free := false } 3 demoBoth_inv rfl (by decide),
   double_release_rejected demoAlloc 65536 4096 []
      [{ addr := 65644, size := 3980, free := true }]
      { addr := 65536, size := 100, free := false } 2 demoAlloc_inv rfl (by decide)⟩

/-! ## Negative requests -/

theorem no_chain_of_self_loop (m : Int → Int) (p : Int) (h : next m p = p) (hp : p ≠ NULL) :
    ∀ bs, ¬ Linked m p bs NULL := by
  intro bs
  induction bs with
  | nil => exact hp
  | cons b bs ih =>
    intro hl
    obtain ⟨_, _, _, h4⟩ := hl
    rw [h] at h4
    exact ih h4

/-- On a list whose head block is not free and points to itself the search of
    `Mem_Alloc` never ends. -/
theorem Mem_Alloc_self_loop (s : State) (r : Int) (h : next s.mem s.list_head = s.list_head)
    (hp : s.list_head ≠ NULL) (hfree : isFree s.mem s.list_head = 0) :
    ∀ fuel, Mem_Alloc fuel s r = Outcome.timeout := by
  have hs : ∀ size fuel fbs bf,
      searchLoop s.mem size fuel s.list_head fbs bf = Outcome.timeout := by
    intro size fuel
    induction fuel with
    | zero => intro fbs bf; rfl
    | succ k ih =>
      intro fbs bf
      simp only [searchLoop]
      rw [if_pos hp, if_neg (by rw [hfree]; simp), h]
      exact ih fbs bf
  have hr : ∀ fuel x, roundLoop fuel x ≠ Outcome.fault := by
    intro fuel
    induction fuel with
    | zero => intro x; simp [roundLoop]
    | succ k ih =>
      intro x
      simp only [roundLoop]
      split_ifs <;> first | exact ih _ | simp
  intro fuel
  unfold Mem_Alloc
  cases hc : roundLoop fuel r with
  | ret sz => dsimp only; rw [hs]
  | fault => exact absurd hc (hr fuel r)
  | timeout => rfl

/-- C1 (defect): conservation fails for a negative request.  After
    `Mem_Init(4096)`, `Mem_Alloc(-8)` returns a pointer and leaves the head
    block with `next` pointing to itself and `size_status` -7, so no finite
    block list is left and a further `Mem_Alloc` never returns.  In a second
    run, `p = Mem_Alloc(-4); Mem_Free(p)` both succeed and leave a single free
    block of payload 4092, whose total size is 4100 instead of the Region size
    4096. -/
theorem conservation_negative_request :
    Mem_Init 4096 3 (some 65536) (initialState (fun _ => 0)) 4096 = (demoInit, 0) ∧
    Mem_Alloc 5 demoInit (-8) = Outcome.ret (demoNeg8, 65544) ∧
    demoNeg8.list_head = 65536 ∧ next demoNeg8.mem 65536 = 65536 ∧
    size_status demoNeg8.mem 65536 = -7 ∧
    (∀ bs, ¬ Linked demoNeg8.mem demoNeg8.list_head bs NULL) ∧
    (∀ fuel, Mem_Alloc fuel demoNeg8 0 = Outcome.timeout) ∧
    Mem_Alloc 5 demoInit (-4) = Outcome.ret (demoNeg4Alloc, 65544) ∧
    Mem_Free 5 demoNeg4Alloc 65544 = Outcome.ret (demoNeg4, 0) ∧
    Linked demoNeg4.mem demoNeg4.list_head [{ addr := 65536, size := 4092, free := true }] NULL ∧
    totalSize [{ addr := 65536, size := 4092, free := true }] = 4100 :=
  ⟨rfl, rfl, rfl, by decide, by decide,
    no_chain_of_self_loop _ _ (by decide) (by decide),
    Mem_Alloc_self_loop demoNeg8 0 (by decide) (by decide) (by decide),
    rfl, rfl, by decide, by decide⟩

/-- C2 (defect): two neighbouring free blocks after a negative request.  The
    calls `Mem_Init(4096); a = Mem_Alloc(3000); Mem_Alloc(8); Mem_Free(a)` lead
    to the well-formed state `demoTwoFree` (free 3000, busy 8, free 1064).
    There `Mem_Alloc(-24)` returns a pointer and leaves the list as the free
    block of 3000 followed by a free block of 1080 at the address of the block
    that was busy. -/
theorem adjacent_free_negative_request :
    Mem_Alloc 5 demoInit 3000 = Outcome.ret (demoA, 65544) ∧
    Mem_Alloc 6 demoA 8 = Outcome.ret (demoAB, 68552) ∧
    Mem_Free 7 demoAB 65544 = Outcome.ret (demoTwoFree, 0) ∧
    Inv demoTwoFree 65536 4096
      [{ addr := 65536, size := 3000, free := true },
       { addr := 68544, size := 8, free := false },
       { addr := 68560, size := 1064, free := true }] ∧
    Mem_Alloc 7 demoTwoFree (-24) = Outcome.ret (demoAdj, 68568) ∧
    Linked demoAdj.mem demoAdj.list_head
      [{ addr := 65536, size := 3000, free := true },
       { addr := 68544, size := 1080, free := true }] NULL ∧
    ¬ NoAdjFree [{ addr := 65536, size := 3000, free := true },
       { addr := 68544, size := 1080, free := true }] :=
  ⟨rfl, rfl, rfl, demoTwoFree_inv, rfl, by decide, by simp [NoAdjFree]⟩

/-- C3 (defect): address order fails for a negative request.  After
    `Mem_Init(4096); Mem_Alloc(100)`, `Mem_Alloc(-16)` returns a pointer and
    leaves the chain of headers 65536, 65644, 65636: the third header lies
    below the second, inside the payload of the first block, and no tiling of
    the Region matches the chain. -/
theorem address_order_negative_request :
    Mem_Alloc 5 demoInit 100 = Outcome.ret (demoAlloc, 65544) ∧
    Mem_Alloc 6 demoAlloc (-16) = Outcome.ret (demoNeg16, 65652) ∧
    Linked demoNeg16.mem demoNeg16.list_head
      [{ addr := 65536, size := 100, free := false },
       { addr := 65644, size := -16, free := false },
       { addr := 65636, size := 3988, free := true }] NULL ∧
    (∀ bs, Linked demoNeg16.mem demoNeg16.list_head bs NULL →
      ¬ Tiled 65536 bs (65536 + 4096)) := by
  refine ⟨rfl, rfl, by decide, ?_⟩
  intro bs hl ht
  have h0 : demoNeg16.list_head = 65536 := rfl
  have h1 : next demoNeg16.mem 65536 = 65644 := by decide
  have h2 : next demoNeg16.mem 65644 = 65636 := by decide
  rw [h0] at hl
  match bs, hl, ht with
  | [], hl, _ => exact absurd hl (by decide)
  | [_], hl, _ =>
    obtain ⟨_, _, _, h4⟩ := hl
    rw [h1] at h4
    exact absurd h4 (by decide)
  | b1 :: b2 :: rest, hl, ht =>
    obtain ⟨_, _, _, h4⟩ := hl
    rw [h1] at h4
    obtain ⟨a2, _, _, h5⟩ := h4
    rw [h2] at h5
    obtain ⟨_, _, _, t1⟩ := ht
    obtain ⟨_, s2, _, t2⟩ := t1
    match rest, h5, t2 with
    | [], h5, _ => exact absurd h5 (by decide)
    | b3 :: _, h5, t2 =>
      have a3 := h5.1
      have t3 := t2.1
      omega

/-! ## More fuel does not change a result -/

theorem roundLoop_mono (f f' : Nat) (x v : Int) (h : roundLoop f x = Outcome.ret v)
    (hf : f ≤ f') : roundLoop f' x = Outcome.ret v := by
  induction f generalizing x f' with
  | zero => simp [roundLoop] at h
  | succ k ih =>
    obtain ⟨k', rfl⟩ : ∃ k', f' = k' + 1 := ⟨f' - 1, by omega⟩
    simp only [roundLoop] at h ⊢
    by_cases hc : ¬ (x.tmod 4 = 0)
    · rw [if_pos hc] at h ⊢
      exact ih k' _ h (by omega)
    · rw [if_neg hc] at h ⊢
      exact h

theorem searchLoop_mono (m : Int → Int) (size : Int) (f f' : Nat) (curr fbs bf : Int)
    (v : Int × Int) (h : searchLoop m size f curr fbs bf = Outcome.ret v) (hf : f ≤ f') :
    searchLoop m size f' curr fbs bf = Outcome.ret v := by
  induction f generalizing curr fbs bf f' with
  | zero => simp [searchLoop] at h
  | succ k ih =>
    obtain ⟨k', rfl⟩ : ∃ k', f' = k' + 1 := ⟨f' - 1, by omega⟩
    simp only [searchLoop] at h ⊢
    by_cases h1 : curr ≠ NULL
    · rw [if_pos h1] at h ⊢
      by_cases h2 : isFree m curr ≠ 0
      · rw [if_pos h2] at h ⊢
        exact ih k' _ _ _ h (by omega)
      · rw [if_neg h2] at h ⊢
        exact ih k' _ _ _ h (by omega)
    · rw [if_neg h1] at h ⊢
      exact h

theorem prevLoop_mono (m : Int → Int) (t : Int) (f f' : Nat) (curr prev v : Int)
    (h : prevLoop m t f curr prev = Outcome.ret v) (hf : f ≤ f') :
    prevLoop m t f' curr prev = Outcome.ret v := by
  induction f generalizing curr prev f' with
  | zero => simp [prevLoop] at h
  | succ k ih =>
    obtain ⟨k', rfl⟩ : ∃ k', f' = k' + 1 := ⟨f' - 1, by omega⟩
    simp only [prevLoop] at h ⊢
    by_cases h1 : curr ≠ t
    · rw [if_pos h1] at h ⊢
      by_cases h2 : curr = NULL
      · rw [if_pos h2] at h ⊢
        exact h
      · rw [if_neg h2] at h ⊢
        exact ih k' _ _ h (by omega)
    · rw [if_neg h1] at h ⊢
      exact h

theorem Mem_Alloc_mono (f f' : Nat) (s : State) (size : Int) (x : State × Int)
    (h : Mem_Alloc f s size = Outcome.ret x) (hf : f ≤ f') :
    Mem_Alloc f' s size = Outcome.ret x := by
  unfold Mem_Alloc at h ⊢
  cases hr : roundLoop f size with
  | ret sz =>
    rw [hr] at h
    rw [roundLoop_mono f f' size sz hr hf]
    dsimp only at h ⊢
    cases hs : searchLoop s.mem sz f s.list_head 0 NULL with
    | ret st =>
      rw [hs] at h
      rw [searchLoop_mono _ _ f f' _ _ _ st hs hf]
      exact h
    | fault => rw [hs] at h; simp at h
    | timeout => rw [hs] at h; simp at h
  | fault => rw [hr] at h; simp at h
  | timeout => rw [hr] at h; simp at h

theorem Mem_Free_mono (f f' : Nat) (s : State) (ptr : Int) (x : State × Int)
    (h : Mem_Free f s ptr = Outcome.ret x) (hf : f ≤ f') :
    Mem_Free f' s ptr = Outcome.ret x := by
  unfold Mem_Free at h ⊢
  by_cases h1 : NULL = ptr
  · rw [if_pos h1] at h ⊢
    exact h
  · rw [if_neg h1] at h ⊢
    dsimp only at h ⊢
    by_cases h2 : ptr - 8 = NULL
    · rw [if_pos h2] at h ⊢
      exact h
    · rw [if_neg h2] at h ⊢
      by_cases h3 : (size_status s.mem (ptr - 8)).tmod 4 ≠ 1
      · rw [if_pos h3] at h ⊢
        exact h
      · rw [if_neg h3] at h ⊢
        cases hp : prevLoop (setFreed s.mem (ptr - 8)) (ptr - 8) f s.list_head NULL with
        | ret pv =>
          rw [hp] at h
          rw [prevLoop_mono _ _ f f' _ _ pv hp hf]
          exact h
        | fault => rw [hp] at h; simp at h
        | timeout => rw [hp] at h; simp at h

/-! ## Reachable states are well-formed -/

/-- The size `Mem_Init` asks `mmap` for is a positive multiple of the page
    size. -/
theorem alloc_size_spec (P n : Int) (hP : 0 < P) (hn : 0 < n) :
    ∃ q, 0 < q ∧ n + (P - n.tmod P).tmod P = P * q := by
  have h1 : n.tmod P = n % P := Int.tmod_eq_emod (by omega) (by omega)
  have hk0 := Int.emod_nonneg n (by omega : P ≠ 0)
  have hk1 := Int.emod_lt_of_pos n hP
  have hd := Int.emod_add_ediv n P
  have hq0 : 0 ≤ n / P := Int.ediv_nonneg (by omega) (by omega)
  rw [h1, Int.tmod_eq_emod (by omega) (by omega)]
  by_cases hk : n % P = 0
  · rw [hk] at hd ⊢
    simp only [sub_zero, Int.emod_self, add_zero]
    refine ⟨n / P, ?_, by omega⟩
    by_contra hc
    have h0 : n / P = 0 := by omega
    rw [h0] at hd; simp at hd; omega
  · have : (P - n % P) % P = P - n % P := Int.emod_eq_of_lt (by omega) (by omega)
    rw [this]
    refine ⟨n / P + 1, by omega, ?_⟩
    rw [mul_add, mul_one]
    omega

/-- A successful `Mem_Init` leaves one free block covering the Region. -/
theorem Mem_Init_inv (P fd base n : Int) (m0 : Int → Int) (s : State)
    (h : Mem_Init P fd (some base) (initialState m0) n = (s, 0))
    (hP : 8 ≤ P) (hP4 : P % 4 = 0) (hb : 0 < base) (hb4 : base % 4 = 0)
    (hmax : allocSize P n ≤ 2147483647) :
    ∃ len, Inv s base len [{ addr := base, size := len - 8, free := true }] := by
  unfold allocSize at hmax
  unfold Mem_Init at h
  simp only [initialState] at h
  rw [if_neg (by simp)] at h
  by_cases hn : n ≤ 0
  · rw [if_pos hn] at h
    simp at h
  · rw [if_neg hn] at h
    by_cases hfd : -1 = fd
    · rw [if_pos hfd] at h
      simp at h
    · rw [if_neg hfd] at h
      obtain ⟨q, hq, he⟩ := alloc_size_spec P n (by omega) (by omega)
      have h8 : 8 ≤ P * q := by nlinarith
      have h4 : (P * q) % 4 = 0 := by
        obtain ⟨k, hk⟩ : (4 : Int) ∣ P := Int.dvd_of_emod_eq_zero hP4
        rw [hk, mul_assoc]
        simp
      rw [he] at h hmax
      have hs := (Prod.mk.inj h).1
      refine ⟨P * q, ?_⟩
      rw [← hs]
      refine ⟨hb, hb4, hmax, ?_, ?_, by simp [NoAdjFree]⟩
      · dsimp only
        rw [linked_cons]
        refine ⟨rfl, by omega, ?_, ?_⟩
        · simp [set_size_status, store, Block.enc]
        · have e : set_size_status (set_next (mapZero m0 base (P * q)) base NULL) base
              (P * q - 8) base = 0 := by
            simp [set_size_status, set_next, store, NULL]
          rw [e]
          rfl
      · refine ⟨rfl, by dsimp only; omega, by dsimp only; omega, ?_⟩
        show base + 8 + (P * q - 8) = base + P * q
        omega

/-- Every `next` word of a well-formed list is a multiple of 4. -/
theorem linked_next_aligned (m : Int → Int) (bs : List Block) (p a e : Int)
    (hl : Linked m p bs NULL) (ht : Tiled a bs e) (ha : a % 4 = 0) :
    ∀ b ∈ bs, m b.addr % 4 = 0 := by
  induction bs generalizing p a with
  | nil => simp
  | cons x xs ih =>
    obtain ⟨h1, _, _, h4⟩ := hl
    obtain ⟨t1, _, t3, t4⟩ := ht
    intro b hb
    rcases List.mem_cons.1 hb with rfl | hb
    · rw [← h1]
      cases xs with
      | nil =>
        simp only [Linked, next, NULL] at h4
        rw [h4]; rfl
      | cons y ys =>
        have := h4.1
        have := t4.1
        simp only [next] at *
        omega
    · exact ih _ _ h4 t4 (by omega) b hb

/-- The predecessor scan does not return when the target is not a header of
    the list. -/
theorem prevLoop_miss (m : Int → Int) (t : Int) (bs : List Block) (fuel : Nat)
    (p prev v : Int) (hl : Linked m p bs NULL) (hne : ∀ b ∈ bs, b.addr ≠ t) (ht : t ≠ NULL) :
    prevLoop m t fuel p prev ≠ Outcome.ret v := by
  induction bs generalizing p prev fuel with
  | nil =>
    cases fuel with
    | zero => simp [prevLoop]
    | succ k =>
      simp only [Linked] at hl
      simp only [prevLoop]
      rw [if_pos (by rw [hl]; exact fun h => ht h.symm), if_pos hl]
      simp
  | cons b bs ih =>
    cases fuel with
    | zero => simp [prevLoop]
    | succ k =>
      obtain ⟨h1, h2, _, h4⟩ := hl
      simp only [prevLoop]
      rw [if_pos (by rw [h1]; exact hne b (List.mem_cons_self _ _)), if_neg h2]
      exact ih k _ _ h4 (fun x hx => hne x (List.mem_cons_of_mem _ hx))

theorem Mem_Alloc_keeps_inv (s s' : State) (base len : Int) (bs : List Block) (fuel : Nat)
    (size p : Int) (hinv : Inv s base len bs) (h0 : 0 ≤ size)
    (h : Mem_Alloc fuel s size = Outcome.ret (s', p)) : ∃ bs', Inv s' base len bs' := by
  have hF := Mem_Alloc_mono fuel (fuel + (bs.length + 4)) s size _ h (by omega)
  rcases Mem_Alloc_any s base len bs size _ hinv h0 (by omega : bs.length + 4 ≤ fuel + (bs.length + 4))
    with h1 | ⟨pre, c, post, s1, _, _, h1, hinv'⟩
  · rw [hF] at h1
    rw [(ret_inj _ _ _ _ h1).1]
    exact ⟨bs, hinv⟩
  · rw [hF] at h1
    rw [(ret_inj _ _ _ _ h1).1]
    exact ⟨_, hinv'⟩

theorem Mem_Free_keeps_inv (s s' : State) (base len : Int) (bs : List Block) (fuel : Nat)
    (ptr rc : Int) (hinv : Inv s base len bs)
    (h : Mem_Free fuel s ptr = Outcome.ret (s', rc)) : ∃ bs', Inv s' base len bs' := by
  have horig := h
  unfold Mem_Free at h
  by_cases h1 : NULL = ptr
  · rw [if_pos h1] at h
    rw [← (ret_inj _ _ _ _ h).1]
    exact ⟨bs, hinv⟩
  · rw [if_neg h1] at h
    dsimp only at h
    by_cases h2 : ptr - 8 = NULL
    · rw [if_pos h2] at h
      simp at h
    · rw [if_neg h2] at h
      by_cases h3 : (size_status s.mem (ptr - 8)).tmod 4 ≠ 1
      · rw [if_pos h3] at h
        rw [← (ret_inj _ _ _ _ h).1]
        exact ⟨bs, hinv⟩
      · rw [if_neg h3] at h
        have hbusy : (size_status s.mem (ptr - 8)).tmod 4 = 1 := by
          by_contra hc; exact h3 hc
        by_cases hmem : ∃ b ∈ bs, b.addr = ptr - 8
        · obtain ⟨b, hb, hba⟩ := hmem
          obtain ⟨pre, post, rfl⟩ := List.append_of_mem hb
          obtain ⟨_, hcs, _, _, hc0, hc4, _, _⟩ := inv_middle _ _ _ _ _ _ hinv
          have hfree : b.free = false := by
            apply (enc_tmod_busy b hc0 hc4).1
            rw [← hcs, hba]
            exact hbusy
          have hp : ptr = b.addr + 8 := by omega
          rw [hp] at horig
          have hF := Mem_Free_mono fuel (fuel + (pre.length + 1)) s _ _ horig (by omega)
          obtain ⟨s2, bs2, hrun, hinv2, _⟩ := Mem_Free_spec s base len pre post b
            (fuel + (pre.length + 1)) hinv hfree (by omega)
          rw [hF] at hrun
          rw [(ret_inj _ _ _ _ hrun).1]
          exact ⟨bs2, hinv2⟩
        · exfalso
          have hal := linked_next_aligned _ _ _ _ _ hinv.linked hinv.tiled hinv.base_aligned
          obtain ⟨_, f2⟩ := freed_mem s.mem (ptr - 8)
          have hl : Linked (setFreed s.mem (ptr - 8)) s.list_head bs NULL := by
            refine linked_congr _ _ _ _ _ hinv.linked ?_
            intro b hb
            have hne : b.addr ≠ ptr - 8 := fun hc => hmem ⟨b, hb, hc⟩
            have hne2 : b.addr ≠ ptr - 8 + 4 := by
              intro hc
              have h0 := (tmod4_zero_iff _).2 (hal b hb)
              rw [hc] at h0
              simp only [size_status] at hbusy
              rw [h0] at hbusy
              exact absurd hbusy (by decide)
            exact ⟨f2 _ hne2, f2 _ (by omega)⟩
          cases hp : prevLoop (setFreed s.mem (ptr - 8)) (ptr - 8) fuel s.list_head NULL with
          | ret pv =>
            exact prevLoop_miss _ _ bs fuel _ _ pv hl
              (fun b hb hc => hmem ⟨b, hb, hc⟩) h2 hp
          | fault => rw [hp] at h; simp at h
          | timeout => rw [hp] at h; simp at h

/-- Every reachable state satisfies the list invariants, for a page size that
    is a multiple of 4 and at least the header size and a Region mapped at a
    non-null word-aligned address. -/
theorem reachable_inv (P base : Int) (hP : 8 ≤ P) (hP4 : P % 4 = 0) (hb : 0 < base)
    (hb4 : base % 4 = 0) (s : State) (h : Reachable P base s) :
    ∃ len bs, Inv s base len bs := by
  induction h with
  | init m0 fd n s hs hmax =>
    obtain ⟨len, hinv⟩ := Mem_Init_inv P fd base n m0 s hs hP hP4 hb hb4 hmax
    exact ⟨len, _, hinv⟩
  | alloc s s' fuel size p _ h0 hrun ih =>
    obtain ⟨len, bs, hinv⟩ := ih
    obtain ⟨bs', hinv'⟩ := Mem_Alloc_keeps_inv s s' base len bs fuel size p hinv h0 hrun
    exact ⟨len, bs', hinv'⟩
  | free s s' fuel ptr rc _ hrun ih =>
    obtain ⟨len, bs, hinv⟩ := ih
    obtain ⟨bs', hinv'⟩ := Mem_Free_keeps_inv s s' base len bs fuel ptr rc hinv hrun
    exact ⟨len, bs', hinv'⟩

/-- In every reachable state the block list tiles the Region in address
    order, the sizes of its blocks (header plus payload) sum to the Region
    size, and no two neighbours are free. -/
theorem reachable_conservation (P base : Int) (hP : 8 ≤ P) (hP4 : P % 4 = 0) (hb : 0 < base)
    (hb4 : base % 4 = 0) (s : State) (h : Reachable P base s) :
    ∃ len bs, Inv s base len bs ∧ totalSize bs = len := by
  obtain ⟨len, bs, hinv⟩ := reachable_inv P base hP hP4 hb hb4 s h
  refine ⟨len, bs, hinv, ?_⟩
  have := tiled_total _ _ _ hinv.tiled
  omega

/-! ## Releasing an address that is not a block -/

/-- With enough fuel the predecessor scan runs past the end of the list and
    dereferences `NULL` when the target is not a header of the list. -/
theorem prevLoop_fault (m : Int → Int) (t : Int) (bs : List Block) (fuel : Nat)
    (p prev : Int) (hl : Linked m p bs NULL) (hne : ∀ b ∈ bs, b.addr ≠ t) (ht : t ≠ NULL)
    (hf : bs.length < fuel) : prevLoop m t fuel p prev = Outcome.fault := by
  induction bs generalizing p prev fuel with
  | nil =>
    obtain ⟨k, rfl⟩ : ∃ k, fuel = k + 1 := ⟨fuel - 1, by simp at hf; omega⟩
    simp only [Linked] at hl
    simp only [prevLoop]
    rw [if_pos (by rw [hl]; exact fun h => ht h.symm), if_pos hl]
  | cons b bs ih =>
    obtain ⟨k, rfl⟩ : ∃ k, fuel = k + 1 := ⟨fuel - 1, by simp at hf; omega⟩
    obtain ⟨h1, h2, _, h4⟩ := hl
    simp only [prevLoop]
    rw [if_pos (by rw [h1]; exact hne b (List.mem_cons_self _ _)), if_neg h2]
    exact ih k _ _ h4 (fun x hx => hne x (List.mem_cons_of_mem _ hx)) (by simp at hf; omega)

/-- `setFreed` on a header that passes the validation but is not in the list
    leaves the chain of the list as it is. -/
theorem stray_linked (s : State) (base len : Int) (bs : List Block) (cb : Int)
    (hinv : Inv s base len bs) (hbusy : (size_status s.mem cb).tmod 4 = 1)
    (hmem : ∀ b ∈ bs, b.addr ≠ cb) :
    Linked (setFreed s.mem cb) s.list_head bs NULL := by
  have hal := linked_next_aligned _ _ _ _ _ hinv.linked hinv.tiled hinv.base_aligned
  obtain ⟨_, f2⟩ := freed_mem s.mem cb
  refine linked_congr _ _ _ _ _ hinv.linked ?_
  intro b hb
  have hne : b.addr ≠ cb := hmem b hb
  have hne2 : b.addr ≠ cb + 4 := by
    intro hc
    have h0 := (tmod4_zero_iff _).2 (hal b hb)
    rw [hc] at h0
    simp only [size_status] at hbusy
    rw [h0] at hbusy
    exact absurd hbusy (by decide)
  exact ⟨f2 _ hne2, f2 _ (by omega)⟩

/-- In a state satisfying the list invariants, `Mem_Free` of a non-null
    address whose header passes the validation but is not a block of the list
    never returns: with enough fuel it dereferences `NULL` in the scan. -/
theorem Mem_Free_stray (s : State) (base len : Int) (bs : List Block) (ptr : Int)
    (hinv : Inv s base len bs) (hp : ptr ≠ NULL) (hcb : ptr - 8 ≠ NULL)
    (hbusy : (size_status s.mem (ptr - 8)).tmod 4 = 1)
    (hmem : ∀ b ∈ bs, b.addr ≠ ptr - 8) :
    (∀ fuel, bs.length < fuel → Mem_Free fuel s ptr = Outcome.fault) ∧
    (∀ fuel x, Mem_Free fuel s ptr ≠ Outcome.ret x) := by
  have hl := stray_linked s base len bs (ptr - 8) hinv hbusy hmem
  have hred : ∀ fuel, Mem_Free fuel s ptr =
      match prevLoop (setFreed s.mem (ptr - 8)) (ptr - 8) fuel s.list_head NULL with
      | Outcome.ret prevBlock =>
        Outcome.ret ({ s with mem := coalesce (setFreed s.mem (ptr - 8)) (ptr - 8) prevBlock }, 0)
      | Outcome.fault => Outcome.fault
      | Outcome.timeout => Outcome.timeout := by
    intro fuel
    unfold Mem_Free
    rw [if_neg (fun h => hp h.symm)]
    dsimp only
    rw [if_neg hcb, if_neg (by rw [hbusy]; simp)]
  constructor
  · intro fuel hf
    rw [hred, prevLoop_fault _ _ bs fuel _ _ hl hmem hcb hf]
  · intro fuel x
    rw [hred]
    cases hq : prevLoop (setFreed s.mem (ptr - 8)) (ptr - 8) fuel s.list_head NULL with
    | ret pv => exact absurd hq (prevLoop_miss _ _ bs fuel _ _ pv hl hmem hcb)
    | fault => simp
    | timeout => simp

/-- A returning `Mem_Free` in a state satisfying the list invariants either
    rejects the pointer, returning -1 with the state untouched, or returns 0
    and the pointer is the payload address of a busy block of the list. -/
theorem Mem_Free_cases (s s' : State) (base len : Int) (bs : List Block) (fuel : Nat)
    (ptr rc : Int) (hinv : Inv s base len bs)
    (h : Mem_Free fuel s ptr = Outcome.ret (s', rc)) :
    (s' = s ∧ rc = -1) ∨
    (rc = 0 ∧ ∃ pre c post, bs = pre ++ c :: post ∧ c.free = false ∧ ptr = c.addr + 8) := by
  have horig := h
  unfold Mem_Free at h
  by_cases h1 : NULL = ptr
  · rw [if_pos h1] at h
    left
    exact ⟨(ret_inj _ _ _ _ h).1.symm, (ret_inj _ _ _ _ h).2.symm⟩
  · rw [if_neg h1] at h
    dsimp only at h
    by_cases h2 : ptr - 8 = NULL
    · rw [if_pos h2] at h
      simp at h
    · rw [if_neg h2] at h
      by_cases h3 : (size_status s.mem (ptr - 8)).tmod 4 ≠ 1
      · rw [if_pos h3] at h
        left
        exact ⟨(ret_inj _ _ _ _ h).1.symm, (ret_inj _ _ _ _ h).2.symm⟩
      · have hbusy : (size_status s.mem (ptr - 8)).tmod 4 = 1 := by
          by_contra hc; exact h3 hc
        by_cases hmem : ∃ b ∈ bs, b.addr = ptr - 8
        · right
          obtain ⟨b, hb, hba⟩ := hmem
          obtain ⟨pre, post, rfl⟩ := List.append_of_mem hb
          obtain ⟨_, hcs, _, _, hc0, hc4, _, _⟩ := inv_middle _ _ _ _ _ _ hinv
          have hfree : b.free = false := by
            apply (enc_tmod_busy b hc0 hc4).1
            rw [← hcs, hba]
            exact hbusy
          have hp : ptr = b.addr + 8 := by omega
          rw [hp] at horig
          have hF := Mem_Free_mono fuel (fuel + (pre.length + 1)) s _ _ horig (by omega)
          rw [Mem_Free_run s base len pre post b _ hinv hfree (by omega)] at hF
          exact ⟨(ret_inj _ _ _ _ hF).2.symm, pre, b, post, rfl, hfree, hp⟩
        · exfalso
          exact (Mem_Free_stray s base len bs ptr hinv (fun h => h1 h.symm) h2 hbusy
            (fun b hb hc => hmem ⟨b, hb, hc⟩)).2 fuel _ horig

theorem demoStray_inv :
    Inv demoStray 65536 4096 [{ addr := 65536, size := 4088, free := true }] :=
  ⟨by decide, by decide, by decide, by decide, by decide, by simp [NoAdjFree]⟩

theorem demoStrayAlloc_inv : Inv demoStrayAlloc 65536 4096
    [{ addr := 65536, size := 100, free := false }, { addr := 65644, size := 3980, free := true }] :=
  ⟨by decide, by decide, by decide, by decide, by decide, by simp [NoAdjFree]⟩

/-- C11 (defect): an invalid release that is not rejected.  After
    `Mem_Init(4096)` the caller releases address 200008, which was never
    allocated and lies outside the Region; the word before it in the caller's
    memory is 5.  The validation `size_status % 4 != 1` passes, the scan for
    the predecessor runs through the list to `NULL` and dereferences it:
    `Mem_Free` does not return -1, it never returns. -/
theorem invalid_release_not_rejected :
    Mem_Init 4096 3 (some 65536) (initialState strayMem) 4096 = (demoStray, 0) ∧
    Inv demoStray 65536 4096 [{ addr := 65536, size := 4088, free := true }] ∧
    size_status demoStray.mem (200008 - 8) = 5 ∧
    Mem_Free 2 demoStray 200008 = Outcome.fault ∧
    (∀ fuel, 1 < fuel → Mem_Free fuel demoStray 200008 = Outcome.fault) ∧
    (∀ fuel x, Mem_Free fuel demoStray 200008 ≠ Outcome.ret x) :=
  ⟨rfl, demoStray_inv, by decide, rfl,
    fun fuel hf => (Mem_Free_stray demoStray 65536 4096 _ 200008 demoStray_inv (by decide)
      (by decide) (by decide) (by decide)).1 fuel (by simpa using hf),
    (Mem_Free_stray demoStray 65536 4096 _ 200008 demoStray_inv (by decide)
      (by decide) (by decide) (by decide)).2⟩

/-- C12 (defect): a release that passes the validation and does not return 0.
    After `Mem_Init(4096); Mem_Alloc(100)` the non-null address 200008 has the
    busy encoding in the header 8 bytes before it (`size_status` 5, and
    `5 % 4 == 1`), yet `Mem_Free` does not return 0: the scan for the
    predecessor steps past the last block and dereferences `NULL`. -/
theorem release_scan_past_end :
    Mem_Alloc 5 demoStray 100 = Outcome.ret (demoStrayAlloc, 65544) ∧
    Inv demoStrayAlloc 65536 4096
      [{ addr := 65536, size := 100, free := false },
       { addr := 65644, size := 3980, free := true }] ∧
    (200008 : Int) ≠ NULL ∧
    (size_status demoStrayAlloc.mem (200008 - 8)).tmod 4 = 1 ∧
    prevLoop (setFreed demoStrayAlloc.mem (200008 - 8)) (200008 - 8) 3
      demoStrayAlloc.list_head NULL = Outcome.fault ∧
    Mem_Free 3 demoStrayAlloc 200008 = Outcome.fault ∧
    (∀ fuel s', Mem_Free fuel demoStrayAlloc 200008 ≠ Outcome.ret (s', 0)) :=
  ⟨rfl, demoStrayAlloc_inv, by decide, by decide, rfl, rfl,
    fun fuel s' => (Mem_Free_stray demoStrayAlloc 65536 4096 _ 200008 demoStrayAlloc_inv
      (by decide) (by decide) (by decide) (by decide)).2 fuel (s', 0)⟩

/-! ## Claims about `Mem_Init` -/

/-- The size `Mem_Init` asks for is the smallest multiple of the page size
    that is at least the request. -/
theorem allocSize_spec (P n : Int) (hP : 0 < P) (hn : 0 < n) :
    P ∣ allocSize P n ∧ n ≤ allocSize P n ∧ allocSize P n < n + P ∧
    ∀ k, P ∣ k → n ≤ k → allocSize P n ≤ k := by
  have h1 : n.tmod P = n % P := Int.tmod_eq_emod (by omega) (by omega)
  have hk0 := Int.emod_nonneg n (by omega : P ≠ 0)
  have hk1 := Int.emod_lt_of_pos n hP
  have hd : P ∣ n - n % P := Int.dvd_sub_of_emod_eq rfl
  have hA : allocSize P n = n - n % P + (if n % P = 0 then 0 else P) := by
    unfold allocSize
    rw [h1, Int.tmod_eq_emod (by omega) (by omega)]
    by_cases hk : n % P = 0
    · rw [hk, if_pos rfl]; simp
    · rw [if_neg hk, Int.emod_eq_of_lt (by omega) (by omega)]; omega
  have hdA : P ∣ allocSize P n := by
    rw [hA]
    split_ifs
    · simpa using hd
    · exact Dvd.dvd.add hd (dvd_refl P)
  have hlo : n ≤ allocSize P n := by rw [hA]; split_ifs <;> omega
  have hhi : allocSize P n < n + P := by rw [hA]; split_ifs <;> omega
  refine ⟨hdA, hlo, hhi, ?_⟩
  intro k hk hnk
  by_contra hc
  have hpos : 0 < allocSize P n - k := by omega
  have := Int.le_of_dvd hpos (Dvd.dvd.sub hdA hk)
  omega

/-- What a successful call of `Mem_Init` computes. -/
theorem Mem_Init_run (P fd base n : Int) (s0 : State) (hs0 : s0.allocated_once = 0)
    (hn : 0 < n) (hfd : fd ≠ -1) :
    Mem_Init P fd (some base) s0 n =
      ({ list_head := base,
         mem := set_size_status (set_next (mapZero s0.mem base (allocSize P n)) base NULL) base
           (allocSize P n - 8),
         allocated_once := 1 }, 0) := by
  unfold Mem_Init allocSize
  rw [if_neg (by rw [hs0]; simp), if_neg (by omega), if_neg (fun h => hfd h.symm)]

/-- C13 (amended): for a request `n > 0` and a page size `P > 0` that is a
    multiple of 4, when the allocator is not yet initialized and the backend
    succeeds (`open` gives a descriptor, `mmap` a non-null address),
    `Mem_Init(n)` returns 0 and leaves exactly one block: `list_head` points
    to it, its `next` is `NULL`, it is free, and its payload size is `A - 8`
    where `A` is the smallest multiple of `P` that is at least `n`. -/
theorem init_success_postcondition (P fd base n : Int) (s0 : State) (hP : 0 < P)
    (hP4 : P % 4 = 0) (hn : 0 < n) (hs0 : s0.allocated_once = 0) (hfd : fd ≠ -1)
    (hb : base ≠ NULL) :
    ∃ s A, Mem_Init P fd (some base) s0 n = (s, 0) ∧
      (P ∣ A ∧ n ≤ A ∧ ∀ k, P ∣ k → n ≤ k → A ≤ k) ∧
      s.list_head = base ∧ next s.mem base = NULL ∧ size_status s.mem base = A - 8 ∧
      isFree s.mem base = 1 ∧
      Linked s.mem s.list_head [{ addr := base, size := A - 8, free := true }] NULL ∧
      s.allocated_once = 1 := by
  obtain ⟨hd, hlo, _, hleast⟩ := allocSize_spec P n hP hn
  have h4 : (allocSize P n - 8) % 4 = 0 := by
    obtain ⟨q, hq⟩ := hd
    obtain ⟨k, hk⟩ : (4 : Int) ∣ P := Int.dvd_of_emod_eq_zero hP4
    rw [hq, hk, mul_assoc]
    omega
  have hnext : next (set_size_status (set_next (mapZero s0.mem base (allocSize P n)) base NULL)
      base (allocSize P n - 8)) base = NULL := by
    simp [next, set_size_status, set_next, store]
  have hss : size_status (set_size_status (set_next (mapZero s0.mem base (allocSize P n)) base
      NULL) base (allocSize P n - 8)) base = allocSize P n - 8 := by
    simp [size_status, set_size_status, store]
  refine ⟨_, allocSize P n, Mem_Init_run P fd base n s0 hs0 hn hfd, ⟨hd, hlo, hleast⟩, rfl,
    hnext, hss, ?_, ?_, rfl⟩
  · unfold isFree
    rw [if_neg (fun h => hb h.symm), hss, (tmod4_zero_iff _).2 h4]
    rfl
  · exact ⟨rfl, hb, by rw [hss]; simp [Block.enc], by rw [hnext]; rfl⟩

theorem init_success_postcondition_witness :
    ∃ s A, Mem_Init 4096 3 (some 65536) (initialState (fun _ => 0)) 4096 = (s, 0) ∧
      ((4096 : Int) ∣ A ∧ 4096 ≤ A ∧ ∀ k, (4096 : Int) ∣ k → 4096 ≤ k → A ≤ k) ∧
      s.list_head = 65536 ∧ next s.mem 65536 = NULL ∧ size_status s.mem 65536 = A - 8 ∧
      isFree s.mem 65536 = 1 ∧
      Linked s.mem s.list_head [{ addr := 65536, size := A - 8, free := true }] NULL ∧
      s.allocated_once = 1 :=
  init_success_postcondition 4096 3 65536 4096 (initialState (fun _ => 0)) (by decide)
    (by decide) (by decide) rfl (by decide) (by decide)

/-- C13 (counterexample): with a page size that is not a multiple of 4 the
    block `Mem_Init` leaves is not marked free.  For page size 9 and request 9
    the call returns 0 and stores `size_status` 1, the encoding of a busy
    block of payload 0: `isFree` is 0 on it and `Mem_Free` of its payload
    address succeeds although nothing was allocated. -/
theorem init_block_busy_odd_page :
    Mem_Init 9 3 (some 65556) (initialState (fun _ => 0)) 9 = (demoOdd, 0) ∧
    demoOdd.list_head = 65556 ∧ next demoOdd.mem 65556 = NULL ∧
    size_status demoOdd.mem 65556 = 1 ∧ isFree demoOdd.mem demoOdd.list_head = 0 ∧
    valueOf (Mem_Free 2 demoOdd (65556 + 8)) = some 0 :=
  ⟨rfl, rfl, by decide, by decide, by decide, by decide⟩

/-- C14: `Mem_Init` returns -1 and leaves the state untouched when the
    allocator is already initialized, when the requested size is `≤ 0`, or
    when the backend fails (`open` returns -1 or `mmap` fails).  A call that
    failed for the size or the backend does not count as initialization: a
    later valid call on the state it leaves returns 0.  After a call that
    returned 0 every further call returns -1 and leaves the state untouched. -/
theorem init_failure (P fd : Int) (sp : Option Int) (s : State) (n : Int) :
    (s.allocated_once ≠ 0 → Mem_Init P fd sp s n = (s, -1)) ∧
    (n ≤ 0 → Mem_Init P fd sp s n = (s, -1)) ∧
    (fd = -1 ∨ sp = none → Mem_Init P fd sp s n = (s, -1)) ∧
    (s.allocated_once = 0 → (n ≤ 0 ∨ fd = -1 ∨ sp = none) →
      ∀ P' fd' base' n', 0 < n' → fd' ≠ -1 →
        (Mem_Init P' fd' (some base') (Mem_Init P fd sp s n).1 n').2 = 0) ∧
    (∀ s', Mem_Init P fd sp s n = (s', 0) →
      ∀ P' fd' sp' n', Mem_Init P' fd' sp' s' n' = (s', -1)) := by
  have hsame : s.allocated_once = 0 → ({ s with allocated_once := 0 } : State) = s := by
    intro h
    cases s
    simp only at h
    subst h
    rfl
  have h1 : s.allocated_once ≠ 0 → Mem_Init P fd sp s n = (s, -1) := by
    intro h
    unfold Mem_Init
    rw [if_pos (fun hc => h hc.symm)]
  have h2 : n ≤ 0 → Mem_Init P fd sp s n = (s, -1) := by
    intro h
    unfold Mem_Init
    split_ifs <;> rfl
  have h3 : fd = -1 ∨ sp = none → Mem_Init P fd sp s n = (s, -1) := by
    intro h
    by_cases ha : s.allocated_once = 0
    · by_cases hn : n ≤ 0
      · exact h2 hn
      · unfold Mem_Init
        rw [if_neg (by rw [ha]; simp), if_neg hn]
        dsimp only
        by_cases hfd : -1 = fd
        · rw [if_pos hfd]
        · rw [if_neg hfd]
          rcases h with h | h
          · exact absurd h.symm hfd
          · subst h
            dsimp only
            rw [hsame ha]
    · exact h1 ha
  refine ⟨h1, h2, h3, ?_, ?_⟩
  · intro ha hfail P' fd' base' n' hn' hfd'
    have hst : Mem_Init P fd sp s n = (s, -1) := by
      rcases hfail with h | h | h
      · exact h2 h
      · exact h3 (Or.inl h)
      · exact h3 (Or.inr h)
    rw [hst, Mem_Init_run P' fd' base' n' s ha hn' hfd']
  · intro s' hs' P' fd' sp' n'
    have hone : s'.allocated_once = 1 := by
      unfold Mem_Init at hs'
      split_ifs at hs' with a b c
      · simp at hs'
      · simp at hs'
      · simp at hs'
      · cases sp with
        | none => simp at hs'
        | some p =>
          dsimp only at hs'
          rw [← (Prod.mk.inj hs').1]
    unfold Mem_Init
    rw [if_pos (by rw [hone]; decide)]

theorem init_failure_witness :
    Mem_Init 4096 3 (some 65536) (initialState (fun _ => 0)) 0
      = (initialState (fun _ => 0), -1) ∧
    Mem_Init 4096 (-1) (some 65536) (initialState (fun _ => 0)) 4096
      = (initialState (fun _ => 0), -1) ∧
    (Mem_Init 4096 3 (some 65536)
      (Mem_Init 4096 3 none (initialState (fun _ => 0)) 4096).1 4096).2 = 0 ∧
    Mem_Init 4096 3 (some 65536) demoInit 4096 = (demoInit, -1) :=
  ⟨(init_failure 4096 3 (some 65536) (initialState (fun _ => 0)) 0).2.1 (by decide),
   (init_failure 4096 (-1) (some 65536) (initialState (fun _ => 0)) 4096).2.2.1 (Or.inl rfl),
   (init_failure 4096 3 none (initialState (fun _ => 0)) 4096).2.2.2.1 rfl
      (Or.inr (Or.inr rfl)) 4096 3 65536 4096 (by decide) (by decide),
   (init_failure 4096 3 (some 65536) (initialState (fun _ => 0)) 4096).2.2.2.2 demoInit rfl
      4096 3 (some 65536) 4096⟩

/-! ## Claims about the rounding, the fragmentation and the frame -/

/-- C16: for every `int` request `n` with `n ≤ INT_MAX - 3`, negative ones
    included, the rounding loop of `Mem_Alloc` (with C's truncating `%`) ends
    within four tests, that is after at most 3 increments, and yields the
    least multiple of 4 that is at least `n`, without leaving the range of
    `int`; 0 is rounded to 0 and a multiple of 4 is left unchanged. -/
theorem request_rounding (n : Int) (hlo : -2147483648 ≤ n) (hhi : n ≤ 2147483647 - 3) :
    ∃ v, roundLoop 4 n = Outcome.ret v ∧ v % 4 = 0 ∧ n ≤ v ∧ v - n ≤ 3 ∧
      (∀ k, k % 4 = 0 → n ≤ k → v ≤ k) ∧ -2147483648 ≤ v ∧ v ≤ 2147483647 ∧
      (n % 4 = 0 → v = n) ∧ roundLoop 4 0 = Outcome.ret 0 := by
  have hs := roundUp4_spec n
  refine ⟨roundUp4 n, roundLoop_eq 4 n (le_refl _) (Or.inl (by omega)), hs.1, hs.2.1, by omega, ?_, by omega,
    by omega, ?_, rfl⟩
  · intro k hk hnk
    unfold roundUp4 at *
    omega
  · intro h
    unfold roundUp4
    omega

theorem request_rounding_witness :
    ∃ v, roundLoop 4 (-7) = Outcome.ret v ∧ v % 4 = 0 ∧ -7 ≤ v ∧ v - (-7) ≤ 3 ∧
      (∀ k, k % 4 = 0 → -7 ≤ k → v ≤ k) ∧ -2147483648 ≤ v ∧ v ≤ 2147483647 ∧
      ((-7 : Int) % 4 = 0 → v = -7) ∧ roundLoop 4 0 = Outcome.ret 0 :=
  request_rounding (-7) (by decide) (by decide)

/-- The bound on the internal fragmentation for requests whose rounding does
    not overflow: in a state satisfying the list invariants, when `Mem_Alloc`
    with a request `0 ≤ r ≤ INT_MAX - 3` succeeds, the awarded block `c'` is
    busy and its payload size exceeds the rounded request by 0, 4 or 8 bytes;
    a remainder of 12 or more is split off as a free block right behind it,
    and whenever a block was split off the payload size is exactly the rounded
    request. -/
theorem bounded_fragmentation (s s' : State) (base len : Int) (bs : List Block) (r : Int)
    (fuel : Nat) (p : Int) (hinv : Inv s base len bs) (hr : 0 ≤ r) (hhi : r ≤ 2147483644)
    (hf : bs.length + 4 ≤ fuel) (hret : Mem_Alloc fuel s r = Outcome.ret (s', p))
    (hp : p ≠ NULL) :
    ∃ pre c post c' tail, bs = pre ++ c :: post ∧ p = c'.addr + 8 ∧ c'.free = false ∧
      Inv s' base len (pre ++ c' :: tail) ∧
      (c'.size - roundUp4 r = 0 ∨ c'.size - roundUp4 r = 4 ∨ c'.size - roundUp4 r = 8) ∧
      (tail = post ∨ ∃ rem, tail = rem :: post ∧ rem.free = true ∧ c'.size = roundUp4 r) ∧
      (12 ≤ c.size - roundUp4 r → ∃ rem, tail = rem :: post) := by
  rcases Mem_Alloc_spec s base len bs r fuel hinv hr (Or.inl hhi) hf with ⟨_, h⟩ | ⟨pre, c, post, s1, hbs, hfit, _, h, hinv'⟩
  · rw [hret] at h
    exact absurd (ret_inj _ _ _ _ h).2 hp
  · rw [hret] at h
    obtain ⟨rfl, rfl⟩ := ret_inj _ _ _ _ h
    subst hbs
    obtain ⟨_, _, _, _, hc0, hc4, _, _⟩ := inv_middle _ _ _ _ _ _ hinv
    have hs := roundUp4_spec r
    have hle := hfit.2
    unfold awarded at hinv'
    by_cases hsplit : c.size + 8 - (roundUp4 r + 8) ≥ 12
    · rw [if_pos hsplit] at hinv'
      refine ⟨pre, c, post, { addr := c.addr, size := roundUp4 r, free := false },
        { addr := c.addr + (roundUp4 r + 8), size := c.size + 8 - (roundUp4 r + 8) - 8,
          free := true } :: post, rfl, rfl, rfl, by simpa using hinv', ?_, ?_, ?_⟩
      · left; simp
      · right; exact ⟨_, rfl, rfl, rfl⟩
      · intro _; exact ⟨_, rfl⟩
    · rw [if_neg hsplit] at hinv'
      refine ⟨pre, c, post, { addr := c.addr, size := c.size, free := false }, post, rfl, rfl,
        rfl, by simpa using hinv', ?_, Or.inl rfl, ?_⟩
      · dsimp only; omega
      · intro h12; omega

theorem bounded_fragmentation_witness :
    ∃ pre c post c' tail,
      [({ addr := 65536, size := 4088, free := true } : Block)] = pre ++ c :: post ∧
      (65544 : Int) = c'.addr + 8 ∧ c'.free = false ∧
      Inv demoAlloc 65536 4096 (pre ++ c' :: tail) ∧
      (c'.size - roundUp4 100 = 0 ∨ c'.size - roundUp4 100 = 4 ∨ c'.size - roundUp4 100 = 8) ∧
      (tail = post ∨ ∃ rem, tail = rem :: post ∧ rem.free = true ∧ c'.size = roundUp4 100) ∧
      (12 ≤ c.size - roundUp4 100 → ∃ rem, tail = rem :: post) :=
  bounded_fragmentation demoInit demoAlloc 65536 4096 _ 100 5 65544 demoInit_inv
    (by decide) (by decide) (by decide) demoAlloc_run (by decide)

/-- The frame of the calls when the request is not negative: in a state
    satisfying the list invariants, a successful `Mem_Alloc` with a request
    `r ≥ 0` replaces the candidate `c` by one or two blocks lying inside the
    extent of `c` and leaves the blocks before and behind it as they were, in
    the same order; a successful `Mem_Free` replaces the released block `c`, together
    with its predecessor and its successor when they are merged (then they
    are free), by one block and leaves all other blocks as they were, so no
    busy block other than `c` changes. -/
theorem frame_of_calls (s s' : State) (base len : Int) (bs : List Block) (fuel : Nat)
    (hinv : Inv s base len bs) :
    (∀ r p, 0 ≤ r → Mem_Alloc fuel s r = Outcome.ret (s', p) → p ≠ NULL →
      ∃ pre c post new, bs = pre ++ c :: post ∧ p = c.addr + 8 ∧
        Inv s' base len (pre ++ new ++ post) ∧ (new.length = 1 ∨ new.length = 2) ∧
        ∀ x ∈ new, c.addr ≤ x.addr ∧ x.addr + 8 + x.size ≤ c.addr + 8 + c.size) ∧
    (∀ ptr, Mem_Free fuel s ptr = Outcome.ret (s', 0) →
      ∃ L front c back R new, bs = L ++ front ++ c :: back ++ R ∧ ptr = c.addr + 8 ∧
        c.free = false ∧ front.length ≤ 1 ∧ back.length ≤ 1 ∧
        (∀ x ∈ front ++ back, x.free = true) ∧ Inv s' base len (L ++ new :: R)) := by
  constructor
  · intro r p hr hret hp
    have hF := Mem_Alloc_mono fuel (fuel + (bs.length + 4)) s r _ hret (by omega)
    rcases Mem_Alloc_any s base len bs r _ hinv hr
        (by omega : bs.length + 4 ≤ fuel + (bs.length + 4))
      with h | ⟨pre, c, post, s1, hbs, hfree, h, hinv'⟩
    · rw [hF] at h
      exact absurd (ret_inj _ _ _ _ h).2 hp
    · rw [hF] at h
      obtain ⟨rfl, rfl⟩ := ret_inj _ _ _ _ h
      subst hbs
      obtain ⟨_, _, _, _, hc0, hc4, _, _⟩ := inv_middle _ _ _ _ _ _ hinv
      have hs := roundUp4_spec r
      refine ⟨pre, c, post, awarded (roundUp4 r) c, rfl, rfl, hinv', ?_, ?_⟩
      · unfold awarded; split_ifs <;> simp
      · intro x hx
        unfold awarded at hx
        split_ifs at hx with hsplit
        · simp at hx
          rcases hx with rfl | rfl <;> (dsimp only; omega)
        · simp at hx
          subst hx
          dsimp only; omega
  · intro ptr hret
    rcases Mem_Free_cases s s' base len bs fuel ptr 0 hinv hret with ⟨_, h⟩ | ⟨_, pre, c, post, hbs, hc, hp⟩
    · exact absurd h (by decide)
    · subst hbs
      subst hp
      have hF := Mem_Free_mono fuel (fuel + (pre.length + 1)) s _ _ hret (by omega)
      rw [Mem_Free_run s base len pre post c _ hinv hc (by omega)] at hF
      have hs' := (ret_inj _ _ _ _ hF).1
      rcases last_cases pre with ⟨L, pr, rfl, hpr⟩ | hpr <;>
        rcases head_cases post with ⟨n, R, rfl, hn⟩ | hn
      · rw [prevAddr_concat] at hs'
        have hinv' : Inv s base len (L ++ pr :: c :: n :: R) := by simpa using hinv
        have h1 := (free_both_inv s base len L R pr c n hinv' hc hpr hn).1
        rw [hs'] at h1
        exact ⟨L, [pr], c, [n], R, _, by simp, rfl, hc, by simp, by simp,
          by simp [hpr, hn], h1⟩
      · rw [prevAddr_concat] at hs'
        have hinv' : Inv s base len (L ++ pr :: c :: post) := by simpa using hinv
        have h1 := (free_prev_inv s base len L post pr c hinv' hc hpr hn).1
        rw [hs'] at h1
        exact ⟨L, [pr], c, [], post, _, by simp, rfl, hc, by simp, by simp,
          by simp [hpr], h1⟩
      · have h1 := free_next_inv s base len pre R c n hinv hc hpr hn
        rw [hs'] at h1
        exact ⟨pre, [], c, [n], R, _, by simp, rfl, hc, by simp, by simp,
          by simp [hn], h1⟩
      · have h1 := free_none_inv s base len pre post c hinv hc hpr hn
        rw [hs'] at h1
        exact ⟨pre, [], c, [], post, _, by simp, rfl, hc, by simp, by simp,
          by simp, h1⟩

theorem frame_of_calls_witness :
    (∃ pre c post new,
      [({ addr := 65536, size := 4088, free := true } : Block)] = pre ++ c :: post ∧
      (65544 : Int) = c.addr + 8 ∧
      Inv demoAlloc 65536 4096 (pre ++ new ++ post) ∧ (new.length = 1 ∨ new.length = 2) ∧
      ∀ x ∈ new, c.addr ≤ x.addr ∧ x.addr + 8 + x.size ≤ c.addr + 8 + c.size) ∧
    (∃ L front c back R new,
      [({ addr := 65536, size := 100, free := false } : Block),
        { addr := 65644, size := 3980, free := true }] = L ++ front ++ c :: back ++ R ∧
      (65544 : Int) = c.addr + 8 ∧ c.free = false ∧ front.length ≤ 1 ∧ back.length ≤ 1 ∧
      (∀ x ∈ front ++ back, x.free = true) ∧ Inv demoFreed 65536 4096 (L ++ new :: R)) :=
  ⟨(frame_of_calls demoInit demoAlloc 65536 4096 _ 5 demoInit_inv).1 100 65544 (by decide)
      demoAlloc_run (by decide),
   (frame_of_calls demoAlloc demoFreed 65536 4096 _ 5 demoAlloc_inv).2 65544 rfl⟩

/-! ## States reached after `Mem_Init` -/

/-- The search loop passes over a block that cannot hold the request. -/
theorem searchLoop_skip (m : Int → Int) (size : Int) (k : Nat) (curr fbs bf : Int)
    (hc : curr ≠ NULL) (hsmall : ¬ (size_status m curr ≥ size)) :
    searchLoop m size (k + 1) curr fbs bf = searchLoop m size k (next m curr) fbs bf := by
  rw [searchLoop, if_pos hc]
  by_cases hf : isFree m curr ≠ 0
  · rw [if_pos hf, if_neg (fun h => hsmall h.2)]
    dsimp only
    rw [if_neg (fun h => hsmall h.2)]
  · rw [if_neg hf]

/-- The search loop ends at `NULL`. -/
theorem searchLoop_null (m : Int → Int) (size : Int) (k : Nat) (fbs bf : Int) :
    searchLoop m size (k + 1) NULL fbs bf = Outcome.ret (fbs, bf) := by
  rw [searchLoop, if_neg (by simp)]

/-- The states reached from a state satisfying the list invariants satisfy
    them, over the same Region. -/
theorem steps_inv (s0 s : State) (base len : Int) (h0 : ∃ bs, Inv s0 base len bs)
    (h : Steps s0 s) : ∃ bs, Inv s base len bs := by
  induction h with
  | refl => exact h0
  | alloc s s' fuel size p _ hsz hrun ih =>
    obtain ⟨bs, hinv⟩ := ih
    exact Mem_Alloc_keeps_inv s s' base len bs fuel size p hinv hsz hrun
  | free s s' fuel ptr rc _ hrun ih =>
    obtain ⟨bs, hinv⟩ := ih
    exact Mem_Free_keeps_inv s s' base len bs fuel ptr rc hinv hrun

/-- A call of `Mem_Init` that returns 0 had a positive request, a descriptor
    from `open`, and an allocator not yet initialized. -/
theorem Mem_Init_ret0 (P fd base n : Int) (s0 s : State)
    (h : Mem_Init P fd (some base) s0 n = (s, 0)) :
    0 < n ∧ fd ≠ -1 ∧ s0.allocated_once = 0 := by
  unfold Mem_Init at h
  by_cases h1 : 0 ≠ s0.allocated_once
  · rw [if_pos h1] at h
    exact absurd (Prod.mk.inj h).2 (by decide)
  · rw [if_neg h1] at h
    by_cases h2 : n ≤ 0
    · rw [if_pos h2] at h
      exact absurd (Prod.mk.inj h).2 (by decide)
    · rw [if_neg h2] at h
      dsimp only at h
      by_cases h3 : -1 = fd
      · rw [if_pos h3] at h
        exact absurd (Prod.mk.inj h).2 (by decide)
      · refine ⟨by omega, fun hc => h3 hc.symm, ?_⟩
        by_contra hc
        exact h1 (fun h' => hc h'.symm)

/-- After a successful `Mem_Init` on a host whose page size is a positive
    multiple of 4, with a Region that holds at least a header and whose size
    is in the range of `int`, the list invariants hold over the Region of
    `allocSize` bytes: one free block covers it. -/
theorem Mem_Init_wf (P fd base n : Int) (m0 : Int → Int) (s0 : State)
    (h : Mem_Init P fd (some base) (initialState m0) n = (s0, 0))
    (hP : 0 < P) (hP4 : P % 4 = 0) (hb : 0 < base) (hb4 : base % 4 = 0)
    (h8 : 8 ≤ allocSize P n) (hmax : allocSize P n ≤ 2147483647) :
    Inv s0 base (allocSize P n) [{ addr := base, size := allocSize P n - 8, free := true }] := by
  obtain ⟨hn, hfd, ha⟩ := Mem_Init_ret0 P fd base n _ _ h
  rw [Mem_Init_run P fd base n _ ha hn hfd] at h
  have hs := (Prod.mk.inj h).1
  obtain ⟨hd, hlo, _, _⟩ := allocSize_spec P n hP hn
  have h4 : allocSize P n % 4 = 0 := by
    obtain ⟨q, hq⟩ := hd
    obtain ⟨k, hk⟩ : (4 : Int) ∣ P := Int.dvd_of_emod_eq_zero hP4
    rw [hq, hk, mul_assoc]
    omega
  have hnext : next (set_size_status (set_next (mapZero (initialState m0).mem base
      (allocSize P n)) base NULL) base (allocSize P n - 8)) base = NULL := by
    simp [next, set_size_status, set_next, store]
  have hss : size_status (set_size_status (set_next (mapZero (initialState m0).mem base
      (allocSize P n)) base NULL) base (allocSize P n - 8)) base = allocSize P n - 8 := by
    simp [size_status, set_size_status, store]
  rw [← hs]
  refine ⟨hb, hb4, hmax, ?_, ?_, by simp [NoAdjFree]⟩
  · dsimp only
    exact ⟨rfl, by simp only [NULL]; omega, by rw [hss]; simp [Block.enc],
      by rw [hnext]; rfl⟩
  · refine ⟨rfl, by dsimp only; omega, by dsimp only; omega, ?_⟩
    show base + 8 + (allocSize P n - 8) = base + allocSize P n
    omega

/-! ## Claims about all states reached after `Mem_Init` -/

theorem linked_mem (m : Int → Int) (bs : List Block) (p q : Int) (h : Linked m p bs q) :
    ∀ b ∈ bs, size_status m b.addr = b.enc ∧ b.addr ≠ NULL := by
  induction bs generalizing p with
  | nil => simp
  | cons x xs ih =>
    obtain ⟨h1, h2, h3, h4⟩ := h
    intro b hb
    rcases List.mem_cons.1 hb with rfl | hb
    · rw [← h1]; exact ⟨h3, h2⟩
    · exact ih _ h4 b hb

theorem isFree_of_mod (m : Int → Int) (a : Int) (ha : a ≠ NULL)
    (h : size_status m a % 4 = 0) : isFree m a = 1 := by
  unfold isFree
  rw [if_neg (fun hc => ha hc.symm), (tmod4_zero_iff _).2 h]
  rfl

/-- Blocks of a tiling follow each other without overlap. -/
theorem tiled_sep (bs : List Block) (a e : Int) (h : Tiled a bs e) :
    List.Pairwise (fun x y => x.addr + 8 + x.size ≤ y.addr) bs := by
  induction bs generalizing a with
  | nil => exact List.Pairwise.nil
  | cons b bs ih =>
    obtain ⟨h1, h2, _, h4⟩ := h
    refine List.Pairwise.cons ?_ (ih _ h4)
    intro y hy
    have := (tiled_mem _ _ _ h4 y hy).1
    omega

/-- Payload alignment as long as no request is negative: after a successful
    `Mem_Init` on a host whose page size is a multiple of 4 (with the Region
    mapped at a word-aligned address, holding at least a header, of a size in
    the range of `int`), and any sequence of returning `Mem_Alloc` calls with
    requests `≥ 0` and `Mem_Free` calls, every block of the list has a payload
    size that is a multiple of 4; the stored `size_status` is congruent to 0
    modulo 4 for a free block and to 1 for a busy block, which are the tests
    of `isFree` and of the validation in `Mem_Free`. -/
theorem payload_alignment (P fd base n : Int) (m0 : Int → Int) (s0 s : State)
    (hP : 0 < P) (hP4 : P % 4 = 0) (hb : 0 < base) (hb4 : base % 4 = 0)
    (h8 : 8 ≤ allocSize P n) (hmax : allocSize P n ≤ 2147483647)
    (hinit : Mem_Init P fd (some base) (initialState m0) n = (s0, 0))
    (hsteps : Steps s0 s) :
    ∃ bs, Linked s.mem s.list_head bs NULL ∧
      ∀ b ∈ bs, b.size % 4 = 0 ∧
        (b.free = true → size_status s.mem b.addr % 4 = 0 ∧ isFree s.mem b.addr = 1) ∧
        (b.free = false → size_status s.mem b.addr % 4 = 1 ∧
          (size_status s.mem b.addr).tmod 4 = 1) := by
  have h0 := Mem_Init_wf P fd base n m0 s0 hinit hP hP4 hb hb4 h8 hmax
  obtain ⟨bs, hinv⟩ := steps_inv s0 s base _ ⟨_, h0⟩ hsteps
  refine ⟨bs, hinv.linked, ?_⟩
  intro b hbm
  obtain ⟨_, _, h0', h4, _⟩ := tiled_mem _ _ _ hinv.tiled b hbm
  obtain ⟨henc, hne⟩ := linked_mem _ _ _ _ hinv.linked b hbm
  refine ⟨h4, ?_, ?_⟩
  · intro hf
    have e : size_status s.mem b.addr % 4 = 0 := by
      rw [henc]; simp [Block.enc, hf, h4]
    exact ⟨e, isFree_of_mod _ _ hne e⟩
  · intro hf
    refine ⟨?_, ?_⟩
    · rw [henc]; simp only [Block.enc, hf]; simp; omega
    · rw [henc]; exact (enc_tmod_busy b h0' h4).2 hf

theorem payload_alignment_witness :
    ∃ bs, Linked demoAlloc.mem demoAlloc.list_head bs NULL ∧
      ∀ b ∈ bs, b.size % 4 = 0 ∧
        (b.free = true →
          size_status demoAlloc.mem b.addr % 4 = 0 ∧ isFree demoAlloc.mem b.addr = 1) ∧
        (b.free = false → size_status demoAlloc.mem b.addr % 4 = 1 ∧
          (size_status demoAlloc.mem b.addr).tmod 4 = 1) :=
  payload_alignment 4096 3 65536 4096 (fun _ => 0) demoInit demoAlloc (by decide) (by decide)
    (by decide) (by decide) (by decide) (by decide) rfl
    (Steps.alloc demoInit demoAlloc 5 100 65544 Steps.refl (by decide) demoAlloc_run)

/-- C18: after a successful `Mem_Init` (page size a positive multiple of 4,
    Region mapped at a word-aligned address, holding at least a header, of a
    size in the range of `int`) and any sequence of returning `Mem_Alloc`
    calls with requests `≥ 0`, those whose rounding overflows included, and
    `Mem_Free` calls, the payload range `[h + 8, h + 8 + payload)` of every
    busy block lies inside the Region, the payload ranges of two different
    busy blocks of the list are disjoint, and the header `[x, x + 8)` of no
    block of the list meets the payload range of a busy block. -/
theorem payloads_disjoint (P fd base n : Int) (m0 : Int → Int) (s0 s : State)
    (hP : 0 < P) (hP4 : P % 4 = 0) (hb : 0 < base) (hb4 : base % 4 = 0)
    (h8 : 8 ≤ allocSize P n) (hmax : allocSize P n ≤ 2147483647)
    (hinit : Mem_Init P fd (some base) (initialState m0) n = (s0, 0))
    (hsteps : Steps s0 s) :
    ∃ bs, Linked s.mem s.list_head bs NULL ∧ (∀ b ∈ bs, b.size % 4 = 0) ∧
      (∀ b ∈ bs, b.free = false →
        base ≤ b.addr + 8 ∧ b.addr + 8 + b.size ≤ base + allocSize P n) ∧
      List.Pairwise (fun x y => x.free = false → y.free = false →
        x.addr + 8 + x.size ≤ y.addr + 8 ∨ y.addr + 8 + y.size ≤ x.addr + 8) bs ∧
      (∀ b ∈ bs, b.free = false → ∀ x ∈ bs,
        x.addr + 8 ≤ b.addr + 8 ∨ b.addr + 8 + b.size ≤ x.addr) := by
  have h0 := Mem_Init_wf P fd base n m0 s0 hinit hP hP4 hb hb4 h8 hmax
  obtain ⟨bs, hinv⟩ := steps_inv s0 s base _ ⟨_, h0⟩ hsteps
  have hm := tiled_mem _ _ _ hinv.tiled
  have hsep := tiled_sep _ _ _ hinv.tiled
  refine ⟨bs, hinv.linked, fun b hbm => (hm b hbm).2.2.2.1, ?_, ?_, ?_⟩
  · intro b hbm _
    have := hm b hbm
    omega
  · refine hsep.imp ?_
    intro x y hxy _ _
    left; omega
  · intro b hbm _ x hxm
    have hpw : List.Pairwise (fun u v : Block =>
        u = v ∨ u.addr + 8 + u.size ≤ v.addr ∨ v.addr + 8 + v.size ≤ u.addr) bs :=
      hsep.imp (fun h => Or.inr (Or.inl h))
    have hsymm : Symmetric (fun u v : Block =>
        u = v ∨ u.addr + 8 + u.size ≤ v.addr ∨ v.addr + 8 + v.size ≤ u.addr) := by
      intro u v huv
      rcases huv with h | h | h
      · exact Or.inl h.symm
      · exact Or.inr (Or.inr h)
      · exact Or.inr (Or.inl h)
    have hT : ∀ u ∈ bs, ∀ v ∈ bs,
        u = v ∨ u.addr + 8 + u.size ≤ v.addr ∨ v.addr + 8 + v.size ≤ u.addr :=
      fun u hu v hv =>
        List.Pairwise.forall_of_forall hsymm (fun w _ => Or.inl rfl) hpw hu hv
    have hx := hm x hxm
    rcases hT b hbm x hxm with h | h | h
    · subst h; left; omega
    · right; omega
    · left; omega

theorem payloads_disjoint_witness :
    ∃ bs, Linked demoBoth.mem demoBoth.list_head bs NULL ∧ (∀ b ∈ bs, b.size % 4 = 0) ∧
      (∀ b ∈ bs, b.free = false →
        65536 ≤ b.addr + 8 ∧ b.addr + 8 + b.size ≤ 65536 + allocSize 4096 4096) ∧
      List.Pairwise (fun x y => x.free = false → y.free = false →
        x.addr + 8 + x.size ≤ y.addr + 8 ∨ y.addr + 8 + y.size ≤ x.addr + 8) bs ∧
      (∀ b ∈ bs, b.free = false → ∀ x ∈ bs,
        x.addr + 8 ≤ b.addr + 8 ∨ b.addr + 8 + b.size ≤ x.addr) :=
  payloads_disjoint 4096 3 65536 4096 (fun _ => 0) demoInit demoBoth (by decide) (by decide)
    (by decide) (by decide) (by decide) (by decide) rfl
    (Steps.free _ demoBoth 7 65860 0
      (Steps.free _ _ 7 65544 0
        (Steps.alloc _ _ 7 300 65860
          (Steps.alloc _ _ 6 200 65652
            (Steps.alloc demoInit _ 5 100 65544 Steps.refl (by decide) rfl)
            (by decide) rfl)
          (by decide) rfl)
        rfl)
      rfl)

/-! ## `Mem_Dump` -/

theorem totals_cons_free (b : Block) (bs : List Block) (h : b.free = true) :
    busyTotal (b :: bs) = busyTotal bs ∧ freeTotal (b :: bs) = 8 + b.size + freeTotal bs := by
  simp [busyTotal, freeTotal, h]

theorem totals_cons_busy (b : Block) (bs : List Block) (h : b.free = false) :
    busyTotal (b :: bs) = 8 + b.size + busyTotal bs ∧ freeTotal (b :: bs) = freeTotal bs := by
  simp [busyTotal, freeTotal, h]

theorem totals_sum (bs : List Block) : busyTotal bs + freeTotal bs = totalSize bs := by
  induction bs with
  | nil => simp [busyTotal, freeTotal, totalSize]
  | cons b bs ih =>
    have ht : totalSize (b :: bs) = 8 + b.size + totalSize bs := by simp [totalSize]
    cases hb : b.free
    · obtain ⟨e1, e2⟩ := totals_cons_busy b bs hb
      rw [e1, e2, ht]; omega
    · obtain ⟨e1, e2⟩ := totals_cons_free b bs hb
      rw [e1, e2, ht]; omega

/-- On a chain of blocks with payload sizes multiple of 4 the loop of
    `Mem_Dump` ends and reports one line per block, in list order, and the
    sums of the total sizes of the busy and of the free blocks. -/
theorem dumpLoop_eq (m : Int → Int) (bs : List Block) (fuel : Nat) (p : Int)
    (hl : Linked m p bs NULL) (h4 : ∀ b ∈ bs, b.size % 4 = 0) (hf : bs.length < fuel)
    (counter free busy total : Int) (rows : List DumpRow) :
    dumpLoop m fuel p counter free busy total rows =
      Outcome.ret { rows := rows ++ rowsOf counter bs, busy_size := busy + busyTotal bs,
                    free_size := free + freeTotal bs,
                    total := busy + busyTotal bs + (free + freeTotal bs) } := by
  induction bs generalizing p fuel counter free busy total rows with
  | nil =>
    obtain ⟨k, rfl⟩ : ∃ k, fuel = k + 1 := ⟨fuel - 1, by simp at hf; omega⟩
    simp only [Linked] at hl
    rw [dumpLoop, if_neg (by rw [hl]; simp)]
    simp [rowsOf, busyTotal, freeTotal]
  | cons b bs ih =>
    obtain ⟨k, rfl⟩ : ∃ k, fuel = k + 1 := ⟨fuel - 1, by simp at hf; omega⟩
    obtain ⟨h1, h2, h3, h5⟩ := hl
    have hb4 := h4 b (List.mem_cons_self _ _)
    have hk : bs.length < k := by simp at hf; omega
    have hrest := fun x hx => h4 x (List.mem_cons_of_mem _ hx)
    rw [dumpLoop, if_pos (fun h => h2 h.symm)]
    dsimp only
    rw [h3]
    cases hb : b.free
    · obtain ⟨e1, e2⟩ := totals_cons_busy b bs hb
      have hodd : b.enc % 2 ≠ 0 := by simp only [Block.enc, hb]; simp; omega
      have he : b.enc - 1 = b.size := by simp only [Block.enc, hb]; simp
      rw [if_pos hodd, ih k _ h5 hrest hk, e1, e2, he, h1]
      simp only [rowsOf, hb, List.append_assoc, List.singleton_append, Bool.not_false]
      congr 2 <;> omega
    · obtain ⟨e1, e2⟩ := totals_cons_free b bs hb
      have heven : ¬ (b.enc % 2 ≠ 0) := by simp only [Block.enc, hb]; simp; omega
      have he : b.enc = b.size := by simp only [Block.enc, hb]; simp
      rw [if_neg heven, ih k _ h5 hrest hk, e1, e2, he, h1]
      simp only [rowsOf, hb, List.append_assoc, List.singleton_append, Bool.not_true]
      congr 2 <;> omega

/-- In a state satisfying the list invariants `Mem_Dump` returns the state
    unchanged with one line per block and totals that add up to the Region
    size. -/
theorem Mem_Dump_spec (s : State) (base len : Int) (bs : List Block) (fuel : Nat)
    (hinv : Inv s base len bs) (hf : bs.length < fuel) :
    Mem_Dump fuel s = Outcome.ret (s, DumpReport.mk (rowsOf 1 bs) (busyTotal bs)
      (freeTotal bs) len) := by
  have h := dumpLoop_eq s.mem bs fuel s.list_head hinv.linked
    (fun b hb => (tiled_mem _ _ _ hinv.tiled b hb).2.2.2.1) hf 1 0 0 0 []
  have ht := tiled_total _ _ _ hinv.tiled
  have hsum := totals_sum bs
  unfold Mem_Dump
  rw [h]
  simp only [List.nil_append, zero_add]
  congr 3
  omega

/-- On a list whose head block points to itself the loop of `Mem_Dump` never
    ends. -/
theorem Mem_Dump_self_loop (s : State) (h : next s.mem s.list_head = s.list_head)
    (hp : s.list_head ≠ NULL) : ∀ fuel, Mem_Dump fuel s = Outcome.timeout := by
  have hd : ∀ fuel counter free busy total rows,
      dumpLoop s.mem fuel s.list_head counter free busy total rows = Outcome.timeout := by
    intro fuel
    induction fuel with
    | zero => intro _ _ _ _ _; rfl
    | succ k ih =>
      intro counter free busy total rows
      rw [dumpLoop, if_pos (fun hc => hp hc.symm)]
      dsimp only
      split_ifs
      · rw [h]; exact ih _ _ _ _ _
      · rw [h]; exact ih _ _ _ _ _
  intro fuel
  unfold Mem_Dump
  rw [hd]

/-- C17 (defect): the totals of `Mem_Dump` after a negative request.  After
    `Mem_Init(4096); p = Mem_Alloc(-4); Mem_Free(p)`, which all succeed,
    `Mem_Dump` reports one free block of payload 4092 and the totals busy 0,
    free 4100, total 4100, while the Region has 4096 bytes.  After
    `Mem_Init(4096); Mem_Alloc(-8)` the list is a loop and `Mem_Dump` never
    returns. -/
theorem dump_total_negative_request :
    Mem_Init 4096 3 (some 65536) (initialState (fun _ => 0)) 4096 = (demoInit, 0) ∧
    allocSize 4096 4096 = 4096 ∧
    Mem_Alloc 5 demoInit (-4) = Outcome.ret (demoNeg4Alloc, 65544) ∧
    Mem_Free 5 demoNeg4Alloc 65544 = Outcome.ret (demoNeg4, 0) ∧
    Mem_Dump 2 demoNeg4 = Outcome.ret (demoNeg4, DumpReport.mk
      [{ counter := 1, busy := false, Begin := 65544, End := 69635, Size := 4092,
         t_Size := 4100, t_Begin := 65536 }] 0 4100 4100) ∧
    Mem_Alloc 5 demoInit (-8) = Outcome.ret (demoNeg8, 65544) ∧
    (∀ fuel, Mem_Dump fuel demoNeg8 = Outcome.timeout) :=
  ⟨rfl, by decide, rfl, rfl, rfl, rfl, Mem_Dump_self_loop demoNeg8 (by decide) (by decide)⟩

/-- After a successful `Mem_Init` (page size a positive multiple of 4, Region
    holding at least a header, of a size in the range of `int`) and any
    sequence of returning `Mem_Alloc` calls with requests `≥ 0` and
    `Mem_Free` calls, `Mem_Dump` returns the state unchanged, with one line
    per block in list order, the busy and free totals of the list, and a
    grand total equal to the Region size. -/
theorem reachable_dump (P fd base n : Int) (m0 : Int → Int) (s0 s : State)
    (hP : 0 < P) (hP4 : P % 4 = 0) (hb : 0 < base) (hb4 : base % 4 = 0)
    (h8 : 8 ≤ allocSize P n) (hmax : allocSize P n ≤ 2147483647)
    (hinit : Mem_Init P fd (some base) (initialState m0) n = (s0, 0))
    (hsteps : Steps s0 s) :
    ∃ bs, Linked s.mem s.list_head bs NULL ∧ (∀ b ∈ bs, b.size % 4 = 0) ∧
      ∀ fuel, bs.length < fuel →
        Mem_Dump fuel s = Outcome.ret (s, DumpReport.mk (rowsOf 1 bs) (busyTotal bs)
          (freeTotal bs) (allocSize P n)) := by
  have h0 := Mem_Init_wf P fd base n m0 s0 hinit hP hP4 hb hb4 h8 hmax
  obtain ⟨bs, hinv⟩ := steps_inv s0 s base _ ⟨_, h0⟩ hsteps
  exact ⟨bs, hinv.linked, fun b hbm => (tiled_mem _ _ _ hinv.tiled b hbm).2.2.2.1,
    fun fuel hf => Mem_Dump_spec s base _ bs fuel hinv hf⟩

/-! ## Requests whose rounding overflows -/

theorem demoBigTwoFree_run :
    Mem_Alloc 7 demoTwoFree 2147483645 = Outcome.ret (demoBigTwoFree, 68568) := rfl

/-- C4 (defect): the success postcondition fails for a request whose rounding
    overflows.  After `Mem_Init(4096)` the list is one free block of payload
    4088.  For the request 2147483647 the loop `++size` passes `INT_MAX` and
    stops at `INT_MIN`, which every free block "can hold": `Mem_Alloc` returns
    65544, the payload address of that block, now busy and awarded whole.  Its
    payload 4088 is not at least the request rounded up to a multiple of 4,
    which is 2147483648. -/
theorem alloc_success_overflow_request :
    Mem_Init 4096 3 (some 65536) (initialState (fun _ => 0)) 4096 = (demoInit, 0) ∧
    Inv demoInit 65536 4096 [{ addr := 65536, size := 4088, free := true }] ∧
    roundLoop 5 2147483647 = Outcome.ret (-2147483648) ∧
    Mem_Alloc 5 demoInit 2147483647 = Outcome.ret (demoBig, 65544) ∧
    (65544 : Int) ≠ NULL ∧
    Inv demoBig 65536 4096 [{ addr := 65536, size := 4088, free := false }] ∧
    size_status demoBig.mem 65536 = 4089 ∧
    roundUp4 2147483647 = 2147483648 ∧ ¬ (roundUp4 2147483647 ≤ 4088) :=
  ⟨rfl, demoInit_inv, rfl, rfl, by decide,
    ⟨by decide, by decide, by decide, by decide, by decide, by simp [NoAdjFree]⟩,
    by decide, by decide, by decide⟩

/-- C6 (defect): `Mem_Alloc` does not return `NULL` although no block can hold
    the request.  After `Mem_Init(4096); Mem_Alloc(100)` the list is a busy
    block of 100 and a free block of 3980; no free block has a payload of at
    least 2147483648, the request 2147483646 rounded up to a multiple of 4.
    Yet `Mem_Alloc(2147483646)` returns the non-null address 65652 and marks
    the free block busy: the rounding overflowed to `INT_MIN`. -/
theorem alloc_failure_overflow_request :
    Mem_Alloc 5 demoInit 100 = Outcome.ret (demoAlloc, 65544) ∧
    Inv demoAlloc 65536 4096
      [{ addr := 65536, size := 100, free := false },
       { addr := 65644, size := 3980, free := true }] ∧
    (∀ b ∈ [({ addr := 65536, size := 100, free := false } : Block),
        { addr := 65644, size := 3980, free := true }],
      ¬ (b.free = true ∧ roundUp4 2147483646 ≤ b.size)) ∧
    roundLoop 6 2147483646 = Outcome.ret (-2147483648) ∧
    Mem_Alloc 6 demoAlloc 2147483646 = Outcome.ret (demoBigAfterAlloc, 65652) ∧
    (65652 : Int) ≠ NULL ∧
    Inv demoBigAfterAlloc 65536 4096
      [{ addr := 65536, size := 100, free := false },
       { addr := 65644, size := 3980, free := false }] :=
  ⟨rfl, demoAlloc_inv, by decide, rfl, rfl, by decide,
    ⟨by decide, by decide, by decide, by decide, by decide, by simp [NoAdjFree]⟩⟩

/-- C19 (defect): the payload of the awarded block is not the rounded request
    plus 0, 4 or 8 when the rounding overflows.  In the well-formed state
    `demoTwoFree` (free 3000, busy 8, free 1064) the request 2147483645
    succeeds: `Mem_Alloc` returns 68568 and awards the free block of payload
    1064 whole.  The rounded request is 2147483648; the payload does not
    exceed it by 0, 4 or 8, it falls short of it by 2147482584. -/
theorem fragmentation_overflow_request :
    Inv demoTwoFree 65536 4096
      [{ addr := 65536, size := 3000, free := true },
       { addr := 68544, size := 8, free := false },
       { addr := 68560, size := 1064, free := true }] ∧
    roundLoop 7 2147483645 = Outcome.ret (-2147483648) ∧
    Mem_Alloc 7 demoTwoFree 2147483645 = Outcome.ret (demoBigTwoFree, 68568) ∧
    (68568 : Int) ≠ NULL ∧
    Inv demoBigTwoFree 65536 4096
      [{ addr := 65536, size := 3000, free := true },
       { addr := 68544, size := 8, free := false },
       { addr := 68560, size := 1064, free := false }] ∧
    roundUp4 2147483645 = 2147483648 ∧
    (1064 : Int) - roundUp4 2147483645 = -2147482584 ∧
    ¬ ((1064 : Int) - roundUp4 2147483645 = 0 ∨ (1064 : Int) - roundUp4 2147483645 = 4 ∨
      (1064 : Int) - roundUp4 2147483645 = 8) :=
  ⟨demoTwoFree_inv, rfl, demoBigTwoFree_run, by decide,
    ⟨by decide, by decide, by decide, by decide, by decide, by simp [NoAdjFree]⟩,
    by decide, by decide, by decide⟩

/-! ## More consequences of a negative request -/

/-- `Mem_Free` returns -1 and leaves the state as it is, whatever the fuel,
    when the header before the pointer does not carry the busy encoding. -/
theorem Mem_Free_reject (s : State) (ptr : Int) (hp : ptr ≠ NULL) (hcb : ptr - 8 ≠ NULL)
    (henc : (size_status s.mem (ptr - 8)).tmod 4 ≠ 1) :
    ∀ fuel, Mem_Free fuel s ptr = Outcome.ret (s, -1) := by
  intro fuel
  unfold Mem_Free
  rw [if_neg (fun h => hp h.symm)]
  dsimp only
  rw [if_neg hcb, if_pos henc]

/-- C10 (defect): the first release of a live allocation is rejected after a
    negative request.  After `Mem_Init(4096)`, `p = Mem_Alloc(-8)` returns
    65544 and stores `size_status` -7 in the header of that block: the block
    is not free for `isFree`, but `-7 % 4` is -3 in C, not 1, so already the
    first `Mem_Free(p)` returns -1.  In a second run the block of payload 8
    allocated at 68552 is live when `Mem_Alloc(-24)` overwrites its header
    with that of a free block; the first `Mem_Free(68552)` returns -1, and so
    does the first `Mem_Free` of the pointer 68568 that `Mem_Alloc(-24)`
    returned. -/
theorem first_release_rejected_negative_request :
    Mem_Init 4096 3 (some 65536) (initialState (fun _ => 0)) 4096 = (demoInit, 0) ∧
    Mem_Alloc 5 demoInit (-8) = Outcome.ret (demoNeg8, 65544) ∧
    size_status demoNeg8.mem (65544 - 8) = -7 ∧ isFree demoNeg8.mem (65544 - 8) = 0 ∧
    (size_status demoNeg8.mem (65544 - 8)).tmod 4 = -3 ∧
    (∀ fuel, Mem_Free fuel demoNeg8 65544 = Outcome.ret (demoNeg8, -1)) ∧
    Mem_Alloc 5 demoInit 3000 = Outcome.ret (demoA, 65544) ∧
    Mem_Alloc 6 demoA 8 = Outcome.ret (demoAB, 68552) ∧
    Mem_Free 7 demoAB 65544 = Outcome.ret (demoTwoFree, 0) ∧
    Mem_Alloc 7 demoTwoFree (-24) = Outcome.ret (demoAdj, 68568) ∧
    size_status demoAdj.mem (68552 - 8) = 1080 ∧
    size_status demoAdj.mem (68568 - 8) = -23 ∧
    (∀ fuel, Mem_Free fuel demoAdj 68552 = Outcome.ret (demoAdj, -1)) ∧
    (∀ fuel, Mem_Free fuel demoAdj 68568 = Outcome.ret (demoAdj, -1)) :=
  ⟨rfl, rfl, by decide, by decide, by decide,
    Mem_Free_reject demoNeg8 65544 (by decide) (by decide) (by decide),
    rfl, rfl, rfl, rfl, by decide, by decide,
    Mem_Free_reject demoAdj 68552 (by decide) (by decide) (by decide),
    Mem_Free_reject demoAdj 68568 (by decide) (by decide) (by decide)⟩

theorem demoM3_inv : Inv demoM3 65536 4096
    [{ addr := 65536, size := 8, free := true }, { addr := 65552, size := 768, free := false },
     { addr := 66328, size := 3296, free := true }] :=
  ⟨by decide, by decide, by decide, by decide, by decide, by simp [NoAdjFree]⟩

/-- C15 (defect): a block whose payload size is not a multiple of 4 after a
    negative request.  The calls `Mem_Init(4096); a = Mem_Alloc(8);
    Mem_Alloc(768); Mem_Free(a)` lead to the well-formed state `demoM3` (free
    8, busy 768, free 3296).  There `Mem_Alloc(-4)` returns a pointer: the
    split puts the new header at 65540, 4 bytes behind the candidate, so that
    its `next` field is the `size_status` field of the candidate, which
    `setAllocated` then increments.  The chain of headers is left as 65536,
    65540, 65553.  The header at 65553 is not word-aligned; its `size_status`
    field is the four bytes from 65557 on, three of them from the word 769
    that is the `size_status` of the busy block at 65552, and holds 3, which
    is neither a multiple of 4 nor one more than a multiple of 4. -/
theorem payload_size_negative_request :
    Mem_Init 4096 3 (some 65536) (initialState (fun _ => 0)) 4096 = (demoInit, 0) ∧
    Mem_Alloc 5 demoInit 8 = Outcome.ret (demoM1, 65544) ∧
    Mem_Alloc 6 demoM1 768 = Outcome.ret (demoM2, 65560) ∧
    Mem_Free 7 demoM2 65544 = Outcome.ret (demoM3, 0) ∧
    Inv demoM3 65536 4096
      [{ addr := 65536, size := 8, free := true }, { addr := 65552, size := 768, free := false },
       { addr := 66328, size := 3296, free := true }] ∧
    Mem_Alloc 7 demoM3 (-4) = Outcome.ret (demoMis, 65544) ∧
    demoMis.list_head = 65536 ∧ next demoMis.mem 65536 = 65540 ∧
    size_status demoMis.mem 65536 = 65553 ∧ next demoMis.mem 65540 = 65553 ∧
    (65553 : Int) % 4 = 1 ∧
    next demoMis.mem 65552 = 66328 ∧ size_status demoMis.mem 65552 = 769 ∧
    intAt demoMis.mem (65553 + 4) = 3 ∧
    intAt demoMis.mem (65553 + 4) % 4 ≠ 0 ∧ intAt demoMis.mem (65553 + 4) % 4 ≠ 1 :=
  ⟨rfl, rfl, rfl, rfl, demoM3_inv, rfl, rfl, by decide, by decide, by decide, by decide,
    by decide, by decide, by decide, by decide, by decide⟩

/-- C20 (defect): a negative request changes a block that is not the
    candidate.  In the well-formed state `demoTwoFree` (free 3000 at 65536,
    busy 8 at 68544, free 1064 at 68560) `Mem_Alloc(-24)` succeeds with the
    block at 68560 as candidate (it returns 68560 + 8).  The split writes the
    new header at 68560 + (-24 + 8) = 68544, the header of the busy block:
    that block, which is neither the candidate nor behind it, has its
    `size_status` changed from 9 (busy, payload 8) to 1080 (free, payload
    1080) and its `next` from 68560 to `NULL`. -/
theorem frame_negative_request :
    Inv demoTwoFree 65536 4096
      [{ addr := 65536, size := 3000, free := true },
       { addr := 68544, size := 8, free := false },
       { addr := 68560, size := 1064, free := true }] ∧
    Mem_Alloc 7 demoTwoFree (-24) = Outcome.ret (demoAdj, 68568) ∧
    (68568 : Int) = 68560 + 8 ∧ (68568 : Int) ≠ NULL ∧
    size_status demoTwoFree.mem 68544 = 9 ∧ next demoTwoFree.mem 68544 = 68560 ∧
    isFree demoTwoFree.mem 68544 = 0 ∧
    size_status demoAdj.mem 68544 = 1080 ∧ next demoAdj.mem 68544 = NULL ∧
    isFree demoAdj.mem 68544 = 1 :=
  ⟨demoTwoFree_inv, rfl, by decide, by decide, by decide, by decide, by decide, by decide,
    by decide, by decide⟩

end MemAlloc
